import Mathlib

/-!
# toast: lifting a parsed Go file into a typed intermediate representation

A shallow embedding of `parsers.go` (package `toast`) and theorems about it.

Conventions of the embedding.

* The input is the `go/ast` tree.  Only the parts `parsers.go` reads are kept.
* The declarations of `File`, `Import`, `Type`, `Field` and of the transforms
  live in other files of the package; their shape is taken from the way
  `parsers.go` builds and reads them, and the getters `GetName` and
  `GetTypeNames` are modelled from the specification.
* A run-time panic of the Go code (index or slice bound out of range) is a
  value `Except.error` of the embedding.
* Go pointers.  The struct a type spec lifts to is reached through the
  pointer `t` and through `f.Code`; the transforms mutate it in place.  The
  embedding keeps the object under `t` in the state (`cur`, with its field
  objects in `objs` and its field arrays in `arrs`), lets `Code` refer to it
  by `Slot.cur`, and copies it out when the spec is done.  A `CopyIntoStruct`
  is shared between `f.copies` and `f.transforms`; the embedding stores it
  once (`store`) and both lists hold its index.
* The functions a caller supplies (`Match`, `Apply`, `Generate`) are pure and
  return fresh values; a transform is a finite tree (a generator does not
  return itself), so that `evalTransform` ends.
-/

namespace Toast

/-! ## Strings -/

/-- The text before the first occurrence of `c`, with `strings.Index`: `some`
of the prefix `s[:i]` when `c` occurs, `none` when it does not. -/
def prefixBefore (c : Char) : List Char → Option (List Char)
  | [] => none
  | x :: xs => if x = c then some [] else (prefixBefore c xs).map (fun p => x :: p)

/-- The text after the last occurrence of `c` (the whole text when `c` does not
occur): `s[strings.LastIndex(s, c)+1:]`. -/
def afterLast (c : Char) (s : List Char) : List Char :=
  (s.reverse.takeWhile (fun x => x ≠ c)).reverse

/-- Go `strings.Replace(s, c, "", -1)` for a one-character `c`. -/
def removeAll (c : Char) (s : List Char) : List Char :=
  s.filter (fun x => x ≠ c)

/-- Go `strings.Split(s, sep)` for a one-character separator: the pieces between
the separators, one piece more than there are separators. -/
def splitOnChar (sep : Char) : List Char → List (List Char)
  | [] => [[]]
  | x :: xs =>
    if x = sep then [] :: splitOnChar sep xs
    else
      match splitOnChar sep xs with
      | [] => [[x]]
      | p :: ps => (x :: p) :: ps

/-- Go `strings.Trim(s, c)` for a one-character cutset. -/
def trimChar (c : Char) (s : List Char) : List Char :=
  ((s.dropWhile (fun x => x = c)).reverse.dropWhile (fun x => x = c)).reverse

/-- White space in the sense of `unicode.IsSpace`. -/
def isSpace (c : Char) : Bool :=
  c.toNat = 0x20 || (0x09 ≤ c.toNat && c.toNat ≤ 0x0D) || c.toNat = 0x85 || c.toNat = 0xA0
    || c.toNat = 0x1680 || (0x2000 ≤ c.toNat && c.toNat ≤ 0x200A) || c.toNat = 0x2028
    || c.toNat = 0x2029 || c.toNat = 0x202F || c.toNat = 0x205F || c.toNat = 0x3000

/-- Go `strings.TrimSpace`. -/
def trimSpace (s : String) : String :=
  String.mk ((s.toList.dropWhile isSpace).reverse.dropWhile isSpace).reverse

/-- Go `strings.Join(xs, "\n")`. -/
def joinLines : List String → String
  | [] => ""
  | [x] => x
  | x :: y :: rest => x ++ "\n" ++ joinLines (y :: rest)

/-! ## The syntax tree (`go/ast`) -/

mutual
/-- A type expression of the syntax tree. -/
inductive Expr where
  /-- Node `*ast.Ident`. -/
  | ident (Name : String)
  /-- Node `*ast.SelectorExpr`; `X` is the identifier left of the dot, as the parser
  builds it for every qualified type name. -/
  | selectorExpr (X : String) (Sel : String)
  /-- Node `*ast.StarExpr`. -/
  | starExpr (X : Expr)
  /-- Node `*ast.ArrayType` (the length is never read). -/
  | arrayType (Elt : Expr)
  /-- Node `*ast.MapType`. -/
  | mapType (Key : Expr) (Value : Expr)
  /-- Node `*ast.StructType` with the list of its field specs. -/
  | structType (Fields : List AstField)
  /-- Node `*ast.InterfaceType`. -/
  | interfaceType
  /-- Node `*ast.FuncType`. -/
  | funcType
  /-- Any other expression node (channel, parenthesis, ellipsis, ...). -/
  | other
/-- Node `*ast.Field`: doc comment group (`none` for a nil pointer), names, type,
and the tag literal (`none` for a nil pointer). -/
inductive AstField where
  | mk (Doc : Option (List String)) (Names : List String) (Typ : Expr) (Tag : Option String)
end

/-- A spec of a general declaration. -/
inductive Spec where
  /-- Node `*ast.ImportSpec`: the alias (`none` for a nil `Name`) and the quoted path. -/
  | importSpec (Name : Option String) (PathValue : String)
  /-- Node `*ast.TypeSpec`. -/
  | typeSpec (Name : String) (Typ : Expr)
  /-- Node `*ast.ValueSpec` (constants and variables). -/
  | valueSpec

/-- A top-level declaration. -/
inductive Decl where
  /-- Node `*ast.GenDecl` with its doc comment group and its specs. -/
  | genDecl (Doc : Option (List String)) (Specs : List Spec)
  /-- Node `*ast.FuncDecl`. -/
  | funcDecl
  /-- Node `*ast.BadDecl`. -/
  | badDecl

/-- Node `*ast.File`: the package name and the declarations. -/
structure AstFile where
  Name : String
  Decls : List Decl

/-! ## The intermediate representation -/

mutual
/-- Modelled from the spec: the interface `Type` with its implementations
`PlainType`, `ArrayType`, `MapType` and `StructType` (declared outside
`parsers.go`), with the fields `parsers.go` sets. -/
inductive Ty where
  | plain (Name docs Typ : String)
  | array (Name docs Typ : String)
  | map (Name docs KeyType ValueType : String)
  | struct (Name docs : String) (Fields : List Field)
/-- Modelled from the spec: the struct `Field` (declared outside
`parsers.go`) with the fields `Type` and `Tags` that `FieldFromSpec` sets. -/
inductive Field where
  | mk (Typ : Ty) (Tags : String → Option (List String))
end

instance : Inhabited Ty := ⟨.plain "" "" ""⟩
instance : Inhabited Field := ⟨.mk default (fun _ => none)⟩

/-- Modelled from the spec: the getter `GetName` of a `Type` (its declaration
is not in `parsers.go`); it returns the `name` every variant carries. -/
def Ty.GetName : Ty → String
  | .plain n _ _ => n
  | .array n _ _ => n
  | .map n _ _ _ => n
  | .struct n _ _ => n

/-- The type a field holds. -/
def Field.Typ : Field → Ty
  | .mk t _ => t

/-- The tags a field holds. -/
def Field.Tags : Field → String → Option (List String)
  | .mk _ tags => tags

/-- Modelled from the spec: the getter `GetName` of a `Field`, "derived from
its embedded Type's name". -/
def Field.GetName (f : Field) : String := f.Typ.GetName

mutual
/-- Modelled from the spec: `GetTypeNames` of a `Type`, "PlainType → {type};
ArrayType → {type}; MapType → {keyType, valueType}; StructType → union of its
fields' reported names". -/
def Ty.GetTypeNames : Ty → List String
  | .plain _ _ t => [t]
  | .array _ _ t => [t]
  | .map _ _ k v => [k, v]
  | .struct _ _ fs => fieldsTypeNames fs
/-- The names the fields of a struct report, in field order. -/
def fieldsTypeNames : List Field → List String
  | [] => []
  | f :: fs => Field.GetTypeNames f ++ fieldsTypeNames fs
/-- Modelled from the spec: `GetTypeNames` of a `Field`, the names its type
reports. -/
def Field.GetTypeNames : Field → List String
  | .mk t _ => Ty.GetTypeNames t
end

/-- Modelled from the spec: the struct `Import` (declared outside
`parsers.go`): path, alias and the mark `used` of the import tracker. -/
structure Import where
  Name : String
  Path : String
  used : Bool
  deriving DecidableEq, Repr

/-- Modelled from the spec: what the `Match` of an `ExcludeType` is applied to
in `evalTransform`, "a matcher from (Type|Field) → bool": a top-level type or
a field of a struct. -/
inductive Node where
  | type (t : Ty)
  | field (f : Field)

/-- Modelled from the spec: the struct `CopyIntoStruct` (declared outside
`parsers.go`) with the fields `parsers.go` reads: the set of source struct
names, the target struct, the field to replace and the accumulator `with`. -/
structure CopyIntoStruct where
  FromStructs : List String
  StructName : String
  FieldToReplace : String
  with_ : List Field

/-- Modelled from the spec: the interface `Transform` with the six kinds of
the type switches of `parsers.go` (declared outside `parsers.go`), each with
the function or payload `evalTransform` uses.  The constructor `nil` is the
nil interface value, which a generator returns when it adds nothing. -/
inductive Transform where
  | nil
  | addField (Generate : Ty → Field → Transform)
  | excludeType (Match : Node → Bool)
  | excludeField (Match : Field → Bool)
  | copyIntoStruct (ci : CopyIntoStruct)
  | excludeImport (Match : Import → Bool)
  | modifyType (Apply : Ty → Ty)
  | modifyField (Apply : Field → Field)

/-- A run-time panic of the Go code. -/
inductive Panic where
  /-- Panic "index out of range". -/
  | indexOutOfRange
  /-- Panic "slice bounds out of range". -/
  | sliceBounds
  deriving DecidableEq, Repr

/-! ## The lifter -/

/-- Function `DocsFromCommentGroup`. -/
def DocsFromCommentGroup : Option (List String) → String
  | none => ""
  | some [] => ""
  | some (c :: cs) => joinLines ((c :: cs).map trimSpace) ++ "\n"

/-- Function `stringFromExpr`. -/
def stringFromExpr : Expr → String
  | .ident n => n
  | .selectorExpr x sel => x ++ "." ++ sel
  | .starExpr x => "*" ++ stringFromExpr x
  | .arrayType e => "[]" ++ stringFromExpr e
  | .mapType k v => "map[" ++ stringFromExpr k ++ "]" ++ stringFromExpr v
  | .interfaceType => "interface\x7b\x7d"
  | .structType _ => "struct\x7b\x7d"
  | .funcType => "func()"
  | .other => ""

/-- The assignment `field.Tags[key] = value`. -/
def setTag (tags : String → Option (List String)) (key : String) (value : List String) :
    String → Option (List String) :=
  fun k => if k = key then some value else tags k

/-- One round of the tag loop of `FieldFromSpec`: split the piece on `:`, trim
the quotes of the second part and split it on `,`.  `split[1]` panics when the
piece has no `:`. -/
def parseTagPiece (tags : String → Option (List String)) (piece : List Char) :
    Except Panic (String → Option (List String)) :=
  match splitOnChar ':' piece with
  | key :: value :: _ =>
    .ok (setTag tags (String.mk key) ((splitOnChar ',' (trimChar (Char.ofNat 34) value)).map String.mk))
  | _ => .error .indexOutOfRange

/-- The tag loop of `FieldFromSpec` over the pieces, left to right. -/
def parseTagPieces : (String → Option (List String)) → List (List Char) →
    Except Panic (String → Option (List String))
  | tags, [] => .ok tags
  | tags, p :: ps => (parseTagPiece tags p).bind (fun tags1 => parseTagPieces tags1 ps)

/-- The tags of a field spec: none when `f.Tag` is nil, otherwise the pieces
of the literal without its back-ticks, split on the space. -/
def parseTag : Option String → Except Panic (String → Option (List String))
  | none => .ok (fun _ => none)
  | some lit => parseTagPieces (fun _ => none) (splitOnChar ' ' (removeAll (Char.ofNat 96) lit.toList))

/-- The name `ParseExpr` gives: the first identifier, empty when there is none. -/
def firstName : List String → String
  | [] => ""
  | n :: _ => n

/-- The result of `FieldFromSpec` before the nil check of the caller: the
lifted type (`none` for nil) and the tags. -/
structure RawField where
  Typ : Option Ty
  Tags : String → Option (List String)

/-- The loop body of `StructTypeFromSpec`: skip a field whose type is nil. -/
def appendField (fields : List Field) (raw : RawField) : List Field :=
  match raw.Typ with
  | none => fields
  | some t => fields ++ [Field.mk t raw.Tags]

mutual
/-- Function `ParseExpr` (with `PlainTypeFromIdent`, `PlainTypeFromSelectorExpr`,
`PlainTypeFromStarExpr`, `ArrayTypeFromSpec`, `MapTypeFromSpec` and
`StructTypeFromSpec` unfolded): `none` is the nil result. -/
def ParseExpr (names : List String) (docs : String) : Expr → Except Panic (Option Ty)
  | .ident n => .ok (some (.plain (firstName names) docs n))
  | .selectorExpr x sel => .ok (some (.plain (firstName names) docs (x ++ "." ++ sel)))
  | .starExpr x => .ok (some (.plain (firstName names) docs ("*" ++ stringFromExpr x)))
  | .arrayType e => .ok (some (.array (firstName names) docs (stringFromExpr e)))
  | .mapType k v => .ok (some (.map (firstName names) docs (stringFromExpr k) (stringFromExpr v)))
  | .structType fields =>
    (liftFields fields).bind (fun raws =>
      .ok (some (.struct (firstName names) docs (raws.foldl appendField []))))
  | .interfaceType => .ok (some (.plain (firstName names) docs "interface\x7b\x7d"))
  | .funcType => .ok none
  | .other => .ok none
/-- Function `FieldFromSpec` on every field spec of a struct body, in source order. -/
def liftFields : List AstField → Except Panic (List RawField)
  | [] => .ok []
  | f :: rest =>
    (FieldFromSpec f).bind (fun raw => (liftFields rest).bind (fun raws => .ok (raw :: raws)))
/-- Function `FieldFromSpec`. -/
def FieldFromSpec : AstField → Except Panic RawField
  | .mk doc names typ tag =>
    (ParseExpr names (DocsFromCommentGroup doc) typ).bind (fun t =>
      (parseTag tag).bind (fun tags => .ok ⟨t, tags⟩))
end

/-- Function `ImportFromSpec`. -/
def ImportFromSpec (name : Option String) (pathValue : String) : Import :=
  { Path := String.mk (removeAll (Char.ofNat 34) pathValue.toList)
    Name := match name with
      | none => ""
      | some n => n
    used := false }

/-- The key under which `FileFromAST` stores an import. -/
def importKey (imp : Import) : String :=
  if imp.Name ≠ "" then imp.Name else String.mk (afterLast '/' imp.Path.toList)

/-! ## The state of `FileFromAST` -/

/-- An entry of `f.transforms`: a transform value, or the `CopyIntoStruct`
stored at an index of `store` (the object `f.copies` refers to as well). -/
inductive TRef where
  | plain (t : Transform)
  | copy (idx : Nat)

/-- An entry of `f.Code`: a type of its own, or the pointer `t` of the type
spec being processed. -/
inductive Slot where
  | val (t : Ty)
  | cur

/-- The object behind the pointer `t` of the type spec being processed: a
type the transforms never write to, or a struct, whose `Fields` is the index
(in `arrs`) of the array of field pointers it holds at the moment. -/
inductive Cur where
  | plainLike (t : Ty)
  | struct (Name docs : String) (Fields : Nat)

instance : Inhabited CopyIntoStruct := ⟨⟨[], "", "", []⟩⟩

/-- The `File` under construction together with the objects reachable from
the pointer `t`: `objs` are the `Field` objects (a field pointer is an index),
`arrs` the arrays of field pointers, `absorbed` the field pointers appended to
the accumulator of the `CopyIntoStruct` at an index of `store` while this spec
is processed. -/
structure St where
  Package : String
  Imports : String → Option Import
  Code : List Slot
  store : List CopyIntoStruct
  copies : List Nat
  eximports : List (Import → Bool)
  transforms : List TRef
  cur : Cur
  objs : List Field
  arrs : List (List Nat)
  absorbed : List (Nat × List Nat)

/-- Replace the element at an index by its image, when the index is in range. -/
def updateAt {α : Type} : List α → Nat → (α → α) → List α
  | [], _, _ => []
  | x :: xs, 0, f => f x :: xs
  | x :: xs, n + 1, f => x :: updateAt xs n f

/-- The `Field` object a field pointer refers to. -/
def St.fieldAt (s : St) (id : Nat) : Field := s.objs.getD id default

/-- The fields an array of field pointers holds, as values. -/
def St.fieldsOf (s : St) (a : Nat) : List Field := (s.arrs.getD a []).map s.fieldAt

/-- The value of the object behind `t`. -/
def St.curTy (s : St) : Ty :=
  match s.cur with
  | .plainLike t => t
  | .struct n d a => .struct n d (s.fieldsOf a)

/-- The value an entry of `f.Code` refers to. -/
def St.slotTy (s : St) : Slot → Ty
  | .val t => t
  | .cur => s.curTy

/-- Statement `f.Code = f.Code[:len(f.Code)-1]`. -/
def dropLastCode (s : St) : Except Panic St :=
  match s.Code with
  | [] => .error .sliceBounds
  | _ :: _ => .ok { s with Code := s.Code.dropLast }

/-- Statement `f.Code[len(f.Code)-1] = x`. -/
def setLastCode (x : Slot) (s : St) : Except Panic St :=
  match s.Code with
  | [] => .error .indexOutOfRange
  | _ :: _ => .ok { s with Code := s.Code.dropLast ++ [x] }

/-- The loop `for _, field := range st.Fields { if keep(field) { fields =
append(fields, field) } }; st.Fields = fields` on the struct behind `t`. -/
def filterFields (keep : Field → Bool) (s : St) : St :=
  match s.cur with
  | .plainLike _ => s
  | .struct n d a =>
    { s with
      arrs := s.arrs ++ [(s.arrs.getD a []).filter (fun id => keep (s.fieldAt id))]
      cur := .struct n d s.arrs.length }

/-- The case `*CopyIntoStruct` of `evalTransform`, for the object at `idx`. -/
def evalCopy (idx : Nat) (s : St) : Except Panic (Bool × St) :=
  match s.cur with
  | .plainLike _ => .ok (true, s)
  | .struct n _ a =>
    if n ∈ (s.store.getD idx default).FromStructs then
      (dropLastCode { s with absorbed := s.absorbed ++ [(idx, s.arrs.getD a [])] }).map
        (fun s1 => (false, s1))
    else .ok (true, s)

/-- The case `*ModifyType` of `evalTransform`. -/
def evalModifyType (apply : Ty → Ty) (s : St) : Except Panic (Bool × St) :=
  match s.cur with
  | .plainLike t => (setLastCode (.val (apply t)) s).map (fun s1 => (true, s1))
  | .struct _ _ a =>
    (setLastCode .cur
      { s with
        objs := (s.arrs.getD a []).foldl
          (fun objs id => updateAt objs id (fun fld => Field.mk (apply fld.Typ) fld.Tags))
          s.objs }).map (fun s1 => (true, s1))

/-- The case `*ModifyField` of `evalTransform`: every element of the array
behind `st.Fields` is overwritten by a new field object (the result of `Apply`
is a fresh value, as the conventions say; an `Apply` that hands back the
pointer it was given is outside the embedding). -/
def evalModifyField (apply : Field → Field) (s : St) : Except Panic (Bool × St) :=
  match s.cur with
  | .plainLike _ => .ok (true, s)
  | .struct _ _ a =>
    (setLastCode .cur
      { s with
        objs := s.objs ++ (s.fieldsOf a).map apply
        arrs := updateAt s.arrs a
          (fun ids => (List.range ids.length).map (fun i => s.objs.length + i)) }).map
      (fun s1 => (true, s1))

/-- The case `*ExcludeType` of `evalTransform`. -/
def evalExcludeType (m : Node → Bool) (s : St) : Except Panic (Bool × St) :=
  if m (.type s.curTy) then (dropLastCode s).map (fun s1 => (false, s1))
  else .ok (true, filterFields (fun fld => !m (.field fld)) s)

/-- One round of the loop of the case `*AddFieldTransform`, for the element
`i` of the array `a` the loop ranges over: generate, evaluate what was
generated on `t`, append it to the lists.  `evalGen st field` is
`evalTransform` of the transform generated for `st` and `field`. -/
def addFieldRound (gen : Ty → Field → Transform)
    (evalGen : Ty → Field → St → Except Panic (Bool × St)) (a i : Nat) (s : St) :
    Except Panic St :=
  match gen s.curTy (s.fieldAt ((s.arrs.getD a []).getD i 0)) with
  | .nil => .ok s
  | .copyIntoStruct _ =>
    (evalGen s.curTy (s.fieldAt ((s.arrs.getD a []).getD i 0)) s).map (fun r =>
      { r.2 with
        copies := r.2.copies ++ [s.store.length]
        transforms := r.2.transforms ++ [.copy s.store.length] })
  | g =>
    (evalGen s.curTy (s.fieldAt ((s.arrs.getD a []).getD i 0)) s).map (fun r =>
      { r.2 with transforms := r.2.transforms ++ [.plain g] })

/-- The case `*AddFieldTransform` of `evalTransform`: the loop ranges over the
array `st.Fields` holds when it starts. -/
def addFieldLoop (gen : Ty → Field → Transform)
    (evalGen : Ty → Field → St → Except Panic (Bool × St)) (s : St) :
    Except Panic (Bool × St) :=
  match s.cur with
  | .plainLike _ => .ok (true, s)
  | .struct _ _ a =>
    ((List.range (s.arrs.getD a []).length).foldlM
      (fun s1 i => addFieldRound gen evalGen a i s1) s).map (fun s1 => (true, s1))

/-- Call `evalTransform(transform, t, f)`: the flag returned and the new state.  A
`CopyIntoStruct` given as a value is a new object, stored at the end of
`store`. -/
def evalTransform : Transform → St → Except Panic (Bool × St)
  | .nil, s => .ok (true, s)
  | .addField gen, s => addFieldLoop gen (fun st fld => evalTransform (gen st fld)) s
  | .excludeType m, s => evalExcludeType m s
  | .excludeField m, s => .ok (true, filterFields (fun fld => !m fld) s)
  | .copyIntoStruct ci, s => evalCopy s.store.length { s with store := s.store ++ [ci] }
  | .excludeImport _, s => .ok (true, s)
  | .modifyType apply, s => evalModifyType apply s
  | .modifyField apply, s => evalModifyField apply s

/-- Function `evalTransform` on an entry of `f.transforms`. -/
def evalRef : TRef → St → Except Panic (Bool × St)
  | .plain t, s => evalTransform t s
  | .copy idx, s => evalCopy idx s

/-- The loop `for _, transform := range f.transforms` of a type spec, which
ends at the first `false`.  The list is the one `f.transforms` holds when the
loop starts. -/
def runTransforms : List TRef → St → Except Panic St
  | [], s => .ok s
  | tr :: rest, s =>
    (evalRef tr s).bind (fun r => if r.1 then runTransforms rest r.2 else .ok r.2)

/-- Statement `f.Code = append(f.Code, t)` for the type `t` just lifted. -/
def beginSpec (t : Ty) (s : St) : St :=
  match t with
  | .struct n d fs =>
    { s with
      Code := s.Code ++ [.cur], cur := .struct n d 0
      objs := fs, arrs := [List.range fs.length], absorbed := [] }
  | t => { s with Code := s.Code ++ [.cur], cur := .plainLike t, objs := [], arrs := [], absorbed := [] }

/-- Append the fields behind the pointers `ids` to the accumulator of the
`CopyIntoStruct` at `idx`. -/
def flushAbsorbed (s : St) (store : List CopyIntoStruct) (e : Nat × List Nat) :
    List CopyIntoStruct :=
  updateAt store e.1 (fun ci => { ci with with_ := ci.with_ ++ e.2.map s.fieldAt })

/-- The end of a type spec: nothing writes to the object behind `t` any more,
so the entries of `Code` and the accumulators that point into it take its
value. -/
def endSpec (s : St) : St :=
  { s with
    Code := s.Code.map (fun x => .val (s.slotTy x))
    store := s.absorbed.foldl (flushAbsorbed s) s.store
    cur := .plainLike default, objs := [], arrs := [], absorbed := [] }

/-- The case `*ast.ImportSpec` of the walk. -/
def walkImportSpec (name : Option String) (pathValue : String) (s : St) : St :=
  if s.eximports.any (fun m => m (ImportFromSpec name pathValue)) then s
  else
    { s with
      Imports := fun k =>
        if k = importKey (ImportFromSpec name pathValue) then
          some (ImportFromSpec name pathValue)
        else s.Imports k }

/-- The case `*ast.TypeSpec` of the walk. -/
def walkTypeSpec (docs name : String) (typ : Expr) (s : St) : Except Panic St :=
  (ParseExpr [name] docs typ).bind (fun r =>
    match r with
    | none => .ok s
    | some t => (runTransforms s.transforms (beginSpec t s)).map endSpec)

/-- One spec of a general declaration. -/
def walkSpec (docs : String) (s : St) : Spec → Except Panic St
  | .importSpec name pathValue => .ok (walkImportSpec name pathValue s)
  | .typeSpec name typ => walkTypeSpec docs name typ s
  | .valueSpec => .ok s

/-- One top-level declaration. -/
def walkDecl (s : St) : Decl → Except Panic St
  | .genDecl doc specs => specs.foldlM (walkSpec (DocsFromCommentGroup doc)) s
  | .funcDecl => .ok s
  | .badDecl => .ok s

/-- The loop over `file.Decls`. -/
def walk (decls : List Decl) (s : St) : Except Panic St :=
  decls.foldlM walkDecl s

/-- The first loop of `FileFromAST`: the transforms go to `copies`, to
`eximports` or to `transforms`. -/
def partitionTransforms : List Transform → St → St
  | [], s => s
  | .copyIntoStruct ci :: ts, s =>
    partitionTransforms ts { s with store := s.store ++ [ci], copies := s.copies ++ [s.store.length] }
  | .excludeImport m :: ts, s =>
    partitionTransforms ts { s with eximports := s.eximports ++ [m] }
  | t :: ts, s => partitionTransforms ts { s with transforms := s.transforms ++ [.plain t] }

/-! ## The second pass -/

/-- The loop that sets `structIdx`: `idx` is its value so far, `i` the index
of the head of the list. -/
def structIdxFrom (name : String) (i idx : Nat) : List Ty → Nat
  | [] => idx
  | t :: ts => structIdxFrom name (i + 1) (if t.GetName = name then i else idx) ts

/-- The loop that sets `fieldIdx` and breaks at the first match: `i` is the
index of the head of the list; the result is 0 when nothing matches. -/
def fieldIdxFrom (name : String) (i : Nat) : List Field → Nat
  | [] => 0
  | fld :: flds => if fld.GetName = name then i else fieldIdxFrom name (i + 1) flds

/-- One round of the second pass of `FileFromAST`, for one `CopyIntoStruct`. -/
def copyStep (ci : CopyIntoStruct) (code : List Ty) : Except Panic (List Ty) :=
  match code.get? (structIdxFrom ci.StructName 0 0 code) with
  | none => .error .indexOutOfRange
  | some (.struct n d fields) =>
    if fieldIdxFrom ci.FieldToReplace 0 fields + 1 ≤ fields.length then
      .ok (code.set (structIdxFrom ci.StructName 0 0 code)
        (.struct n d
          (fields.take (fieldIdxFrom ci.FieldToReplace 0 fields) ++ ci.with_ ++
            fields.drop (fieldIdxFrom ci.FieldToReplace 0 fields + 1))))
    else .error .sliceBounds
  | some _ => .ok code

/-- The second pass: the loop over `f.copies`. -/
def secondPass (copies : List CopyIntoStruct) (code : List Ty) : Except Panic (List Ty) :=
  copies.foldlM (fun c ci => copyStep ci c) code

/-! ## The import tracker -/

/-- The import name the tracker derives from a type name: for a name with a
`.`, the text before the first `.` without its `*` characters
(`strings.Replace(typ[:dot], "*", "", -1)`). -/
def qualifier (typ : String) : Option String :=
  (prefixBefore '.' typ.toList).map (fun p => String.mk (removeAll '*' p))

/-- The body of the loops over the type names: mark the import used. -/
def markUsed (imports : String → Option Import) (typ : String) : String → Option Import :=
  match qualifier typ with
  | none => imports
  | some k =>
    match imports k with
    | none => imports
    | some imp => fun k1 => if k1 = k then some { imp with used := true } else imports k1

/-- The type names the tracker reads off an entry of `Code`: for a struct
those of each field in turn, otherwise those of the type. -/
def trackedNames : Ty → List String
  | .struct _ _ fields => fields.flatMap Field.GetTypeNames
  | t => t.GetTypeNames

/-- The loop `for _, t := range f.Code` of the tracker. -/
def trackCode (imports : String → Option Import) (code : List Ty) : String → Option Import :=
  (code.flatMap trackedNames).foldl markUsed imports

/-- The loop that deletes every import not used. -/
def pruneUnused (imports : String → Option Import) : String → Option Import :=
  fun k => (imports k).filter (fun imp => imp.used)

/-! ## `FileFromAST` -/

/-- Modelled from the spec: the struct `File` returned (declared outside
`parsers.go`), with the fields `FileFromAST` sets. -/
structure File where
  Package : String
  Imports : String → Option Import
  Code : List Ty
  copies : List CopyIntoStruct
  eximports : List (Import → Bool)
  transforms : List Transform

/-- The state before the first loop. -/
def initialState (file : AstFile) (pkgName : String) : St :=
  { Package := if pkgName = "" then file.Name else pkgName
    Imports := fun _ => none
    Code := [], store := [], copies := [], eximports := [], transforms := []
    cur := .plainLike default, objs := [], arrs := [], absorbed := [] }

/-- The transform an entry of `f.transforms` stands for. -/
def St.transformOf (s : St) : TRef → Transform
  | .plain t => t
  | .copy idx => .copyIntoStruct (s.store.getD idx default)

/-- The loops after the walk: second pass, import tracker, deletion. -/
def finish (s : St) : Except Panic File :=
  (secondPass (s.copies.map (fun idx => s.store.getD idx default)) (s.Code.map s.slotTy)).map
    (fun code =>
      { Package := s.Package
        Imports := pruneUnused (trackCode s.Imports code)
        Code := code
        copies := s.copies.map (fun idx => s.store.getD idx default)
        eximports := s.eximports
        transforms := s.transforms.map s.transformOf })

/-- Function `FileFromAST`. -/
def FileFromAST (file : AstFile) (pkgName : String) (transforms : List Transform) :
    Except Panic File :=
  (walk file.Decls (partitionTransforms transforms (initialState file pkgName))).bind finish

/-! ## Notions used in the statements -/

/-- The name of the object behind `t`. -/
def Cur.name : Cur → String
  | .plainLike t => t.GetName
  | .struct n _ _ => n

/-- The name of an entry of `f.Code`, given the name of the object behind `t`. -/
def slotName (curName : String) : Slot → String
  | .val t => t.GetName
  | .cur => curName

/-- The names of the entries of `f.Code`, in order. -/
def St.names (s : St) : List String := s.Code.map (slotName s.cur.name)

/-- How the list of names of `f.Code` can change while one type spec is
processed: the last entry is dropped, or the last entry of a list that is not
empty is overwritten by an entry whose name satisfies `A`. -/
inductive NameReach (A : String → Prop) : List String → List String → Prop where
  | refl (l : List String) : NameReach A l l
  | drop {l l1 : List String} : NameReach A l l1 → NameReach A l l1.dropLast
  | set {l l1 : List String} (x : String) : A x → l1 ≠ [] → NameReach A l l1 →
      NameReach A l (l1.dropLast ++ [x])

/-- Every `ModifyType` function of the transform, and of the transforms its
generators return, relates the name of its argument to the name of its result
by `R`. -/
def Transform.NamesRel (R : String → String → Prop) : Transform → Prop
  | .modifyType apply => ∀ t, R t.GetName (apply t).GetName
  | .addField gen => ∀ st fld, (gen st fld).NamesRel R
  | _ => True

/-- Predicate `Transform.NamesRel` for an entry of `f.transforms`. -/
def TRef.NamesRel (R : String → String → Prop) : TRef → Prop
  | .plain t => t.NamesRel R
  | .copy _ => True

/-- What evaluating transforms on the type spec being processed does to the
state, as far as imports and names go: imports, import exclusions and package
stay, the name of the object behind `t` stays, the names of `f.Code` change
by `NameReach`, and the entries of `f.transforms` keep `NamesRel`. -/
structure Evolves (R : String → String → Prop) (s s1 : St) : Prop where
  imports : s1.Imports = s.Imports
  eximports : s1.eximports = s.eximports
  package : s1.Package = s.Package
  curName : s1.cur.name = s.cur.name
  names : NameReach (fun x => x = s.cur.name ∨ R s.cur.name x) s.names s1.names
  transforms : (∀ r ∈ s.transforms, TRef.NamesRel R r) → ∀ r ∈ s1.transforms, TRef.NamesRel R r

/-- Between two type specs no entry of `f.Code` is the pointer `t`. -/
def St.settled (s : St) : Prop := ∀ x ∈ s.Code, x ≠ Slot.cur

/-- The specs of a declaration, each with the doc string of its declaration. -/
def specsOf : Decl → List (String × Spec)
  | .genDecl doc specs => specs.map (fun sp => (DocsFromCommentGroup doc, sp))
  | .funcDecl => []
  | .badDecl => []

/-- The specs of a file in source order. -/
def allSpecs (decls : List Decl) : List (String × Spec) := decls.flatMap specsOf

/-- The name a spec declares as a type, if it is a type spec. -/
def specTypeNames : String × Spec → List String
  | (_, .typeSpec n _) => [n]
  | _ => []

/-- The names of the type specs of a file, in source order. -/
def declaredTypeNames (file : AstFile) : List String :=
  (allSpecs file.Decls).flatMap specTypeNames

/-- What processing one type spec named `name` does to the names of `Code`:
nothing when the type does not lift; otherwise the name is appended and the
list changes by `NameReach`. -/
def SpecNames (R : String → String → Prop) (name : String) (l l1 : List String) : Prop :=
  l1 = l ∨ NameReach (fun x => x = name ∨ R name x) (l ++ [name]) l1

/-- What the first loop of `FileFromAST` does, from the state `s` to the state
`r`, for the transforms `ts`: `Code`, imports, package and the object behind
`t` stay; the entries of `transforms` are old ones or transforms of `ts`; the
exclusions of imports are the old ones and those of `ts`. -/
def PartitionSpec (ts : List Transform) (s r : St) : Prop :=
  r.Code = s.Code ∧ r.Imports = s.Imports ∧ r.Package = s.Package ∧ r.cur = s.cur ∧
  (∀ x ∈ r.transforms, x ∈ s.transforms ∨ ∃ t ∈ ts, x = .plain t) ∧
  (∀ m, m ∈ r.eximports ↔ m ∈ s.eximports ∨ Transform.excludeImport m ∈ ts)

/-- No `ModifyType` function of the transform, nor of a transform one of its
generators returns, gives an empty name to a type that has a name. -/
def Transform.KeepsNamed (tr : Transform) : Prop := tr.NamesRel (fun a b => a ≠ "" → b ≠ "")

/-- The imports the import specs of a list of specs declare, in source order. -/
def importsIn (l : List (String × Spec)) : List Import :=
  l.filterMap (fun p =>
    match p.2 with
    | .importSpec n v => some (ImportFromSpec n v)
    | _ => none)

/-- The imports a file declares, in source order. -/
def importsOf (file : AstFile) : List Import := importsIn (allSpecs file.Decls)

/-- Name and field names of an entry of `Code`. -/
def summary (t : Ty) : String × List String :=
  (t.GetName,
    match t with
    | .struct _ _ fs => fs.map Field.GetName
    | _ => [])

instance : Inhabited File := ⟨⟨"", fun _ => none, [], [], [], []⟩⟩

/-- The file a run returns (the empty file for a run that panics). -/
def resultOf (r : Except Panic File) : File :=
  match r with
  | .ok f => f
  | .error _ => default

/-- The panic a run ends in, if it does. -/
def panicOf {α : Type} (r : Except Panic α) : Option Panic :=
  match r with
  | .ok _ => none
  | .error e => some e

/-- The matcher holds neither on the type nor, for a struct, on a field of it. -/
def Clean (m : Node → Bool) (t : Ty) : Prop :=
  m (.type t) = false ∧ ∀ n d fs, t = .struct n d fs → ∀ fld ∈ fs, m (.field fld) = false

/-- What a filter of the fields leaves alone while a type spec is processed. -/
def Quiet (s s1 : St) : Prop :=
  s1.store = s.store ∧ s1.copies = s.copies ∧ s1.transforms = s.transforms ∧
  s1.absorbed = s.absorbed ∧ s1.objs = s.objs

/-- A field spec with one name, no doc and no tag. -/
def plainField (name : String) (typ : Expr) : AstField := .mk none [name] typ none

/-- Source `type Src struct{ X int; Y string }; type Dst struct{ Before bool; Slot Src;
After bool }`. -/
def s4File : AstFile :=
  ⟨"p", [.genDecl none [.typeSpec "Src"
          (.structType [plainField "X" (.ident "int"), plainField "Y" (.ident "string")])],
         .genDecl none [.typeSpec "Dst"
          (.structType [plainField "Before" (.ident "bool"), plainField "Slot" (.ident "Src"),
            plainField "After" (.ident "bool")])]]⟩

/-- Transform `CopyIntoStruct{FromStructs: {"Src"}, StructName: "Dst", FieldToReplace:
"Slot"}` with an empty accumulator. -/
def s4Copy : CopyIntoStruct := ⟨["Src"], "Dst", "Slot", []⟩

/-- Source `type A struct{ X int }`. -/
def oneStructFile : AstFile :=
  ⟨"p", [.genDecl none [.typeSpec "A" (.structType [plainField "X" (.ident "int")])]]⟩

/-- A `CopyIntoStruct` whose target struct and field are declared nowhere. -/
def missingCopy : CopyIntoStruct := ⟨[], "Missing", "Nope", []⟩

/-- A `CopyIntoStruct` whose target struct `A` has no field `Nope`. -/
def missingFieldCopy : CopyIntoStruct := ⟨[], "A", "Nope", []⟩

/-- Source `import "x/k"; type A [][]k.T`. -/
def nestedSliceFile : AstFile :=
  ⟨"p", [.genDecl none [.importSpec none "\"x/k\""],
         .genDecl none [.typeSpec "A" (.arrayType (.arrayType (.selectorExpr "k" "T")))]]⟩

/-- Source `import "x/k"; type A map[string]map[string]k.T`. -/
def nestedMapFile : AstFile :=
  ⟨"p", [.genDecl none [.importSpec none "\"x/k\""],
         .genDecl none [.typeSpec "A"
          (.mapType (.ident "string") (.mapType (.ident "string") (.selectorExpr "k" "T")))]]⟩

/-- Source `import "x/k"; type A []k.T`. -/
def sliceFile : AstFile :=
  ⟨"p", [.genDecl none [.importSpec none "\"x/k\""],
         .genDecl none [.typeSpec "A" (.arrayType (.selectorExpr "k" "T"))]]⟩

/-- A file without declarations. -/
def emptyFile : AstFile := ⟨"p", []⟩

/-- Source `type Dst struct{}`. -/
def emptyStructFile : AstFile :=
  ⟨"p", [.genDecl none [.typeSpec "Dst" (.structType [])]]⟩

/-- The matcher "the name is `name`", on a type and on a field. -/
def nameIs (name : String) : Node → Bool
  | .type t => t.GetName = name
  | .field f => f.GetName = name

/-- An `AddField` generator that returns, for every field, an `ExcludeType`
on the name of the struct. -/
def excludeOwner (st : Ty) (_ : Field) : Transform := .excludeType (nameIs st.GetName)

/-- Source `type A int`. -/
def oneIntFile : AstFile := ⟨"p", [.genDecl none [.typeSpec "A" (.ident "int")]]⟩

/-- A `ModifyType` function that returns a type without a name. -/
def unname (_ : Ty) : Ty := .plain "" "" "int"

/-- A `ModifyType` function that renames every type to `B`. -/
def renameToB (t : Ty) : Ty :=
  match t with
  | .plain _ d x => .plain "B" d x
  | .array _ d x => .array "B" d x
  | .map _ d k v => .map "B" d k v
  | .struct _ d fs => .struct "B" d fs

/-- Source `import "x/k"; type A **k.T`. -/
def doublePointerFile : AstFile :=
  ⟨"p", [.genDecl none [.importSpec none "\"x/k\""],
         .genDecl none [.typeSpec "A" (.starExpr (.starExpr (.selectorExpr "k" "T")))]]⟩

/-- The qualifier as the specification words it: the text before the first
`.` "with a leading `*` stripped". -/
def specQualifier (typ : String) : Option String :=
  (prefixBefore '.' typ.toList).map (fun p =>
    match p with
    | '*' :: rest => String.mk rest
    | p => String.mk p)

/-- Source `import "x/y/z"; import "u/v"; type A struct{ F z.T; G v.T }; type F
func(); type B int; type C []z.T`. -/
def mixedFile : AstFile :=
  ⟨"p", [.genDecl none [.importSpec none "\"x/y/z\"", .importSpec none "\"u/v\""],
         .genDecl none [.typeSpec "A"
          (.structType [plainField "F" (.selectorExpr "z" "T"),
            plainField "G" (.selectorExpr "v" "T")])],
         .funcDecl,
         .genDecl none [.typeSpec "F" .funcType, .typeSpec "B" (.ident "int"),
          .typeSpec "C" (.arrayType (.selectorExpr "z" "T"))]]⟩

/-- The import matcher "the path is `u/v`". -/
def pathIsUV (imp : Import) : Bool := imp.Path = "u/v"

/-- An `AddField` generator that returns, for every field, a `ModifyField`
that sets the tag `db` to the name of the field. -/
def tagWithName (_ : Ty) (fld : Field) : Transform :=
  .modifyField (fun f => .mk f.Typ (setTag f.Tags "db" [fld.GetName]))

/-- Source `type Dst struct{ Slot int }; type Dst struct{ Other int }`: two type specs
of one name. -/
def twoDstFile : AstFile :=
  ⟨"p", [.genDecl none [.typeSpec "Dst" (.structType [plainField "Slot" (.ident "int")]),
          .typeSpec "Dst" (.structType [plainField "Other" (.ident "int")])]]⟩

/-- A field of type `int`. -/
def intField (name : String) : Field := .mk (.plain name "" "int") (fun _ => none)

/-- The `Code` of scenario S4 before the second pass. -/
def s4Code : List Ty :=
  [.struct "Src" "" [intField "X", intField "Y"],
   .struct "Dst" "" [intField "Before", intField "Slot", intField "After"]]

/-- The `CopyIntoStruct` of scenario S4 with the fields of `Src` accumulated. -/
def s4CopyFull : CopyIntoStruct := ⟨["Src"], "Dst", "Slot", [intField "X", intField "Y"]⟩

/-! ## Notions used in the statements on the lifter -/

/-- Modelled from the spec: the capability `docs()` of a `Type`, the doc string
every variant carries. -/
def Ty.GetDocs : Ty → String
  | .plain _ d _ => d
  | .array _ d _ => d
  | .map _ d _ _ => d
  | .struct _ d _ => d

/-- The fields of a struct (none for another type). -/
def Ty.Fields : Ty → List Field
  | .struct _ _ fs => fs
  | _ => []

/-- The doc comment group of a field spec. -/
def AstField.Doc : AstField → Option (List String)
  | .mk doc _ _ _ => doc

/-- The names of a field spec. -/
def AstField.Names : AstField → List String
  | .mk _ names _ _ => names

/-- The type expression of a field spec. -/
def AstField.Typ : AstField → Expr
  | .mk _ _ typ _ => typ

/-- The tag literal of a field spec. -/
def AstField.Tag : AstField → Option String
  | .mk _ _ _ tag => tag

/-- The field `StructTypeFromSpec` keeps for a result of `FieldFromSpec`: none
when the type is nil. -/
def RawField.toField (raw : RawField) : Option Field :=
  raw.Typ.map (fun t => Field.mk t raw.Tags)

/-- The fields `StructTypeFromSpec` keeps for the results of `FieldFromSpec`,
in order. -/
def keptFields (raws : List RawField) : List Field := raws.filterMap RawField.toField

/-- The list a tag key is mapped to by `FieldFromSpec` (none inside when the
key is absent, none outside when the call panics). -/
def tagOfSpec (f : AstField) (key : String) : Option (Option (List String)) :=
  (FieldFromSpec f).toOption.map (fun raw => raw.Tags key)

/-- The text after the first occurrence of `c`, when `c` occurs. -/
def suffixAfter (c : Char) : List Char → Option (List Char)
  | [] => none
  | x :: xs => if x = c then some xs else suffixAfter c xs

/-- The list of a tag piece as the specification words it: the piece is split
once on `:` and the whole text between the quotes is split on `,`. -/
def specTagValue (piece : String) : Option (List String) :=
  (suffixAfter ':' piece.toList).map (fun value =>
    (splitOnChar ',' (trimChar (Char.ofNat 34) value)).map String.mk)

/-- A field `ID int` with the tag `json:"f,omitempty"`. -/
def jsonTagField : AstField :=
  .mk none ["ID"] (.ident "int") (some "`json:\"f,omitempty\"`")

/-- A field `ID int` with the tag `gorm:"column:id,primaryKey"`, whose value
holds a `:`. -/
def gormTagField : AstField :=
  .mk none ["ID"] (.ident "int") (some "`gorm:\"column:id,primaryKey\"`")

/-- Some `ExcludeImport` of the list holds on the import. -/
def excludedBy (ts : List Transform) (imp : Import) : Bool :=
  ts.any (fun t =>
    match t with
    | .excludeImport m => m imp
    | _ => false)

/-- The import of the last one, in source order, of the imports of a list
that have the key `k`. -/
def lastWithKey (k : String) : List Import → Option Import
  | [] => none
  | imp :: rest =>
    match lastWithKey k rest with
    | some v => some v
    | none => if importKey imp = k then some imp else none

/-- The state after the walk of `FileFromAST` (the state before it for a walk
that panics). -/
def walkedState (file : AstFile) (pkgName : String) (transforms : List Transform) : St :=
  match walk file.Decls (partitionTransforms transforms (initialState file pkgName)) with
  | .ok s => s
  | .error _ => partitionTransforms transforms (initialState file pkgName)

/-- Source `import "a/z"; import al "c/d"; import "b/z"; import "u/v"; import
"plain"`. -/
def importsFile : AstFile :=
  ⟨"p", [.genDecl none [.importSpec none "\"a/z\"", .importSpec (some "al") "\"c/d\"",
          .importSpec none "\"b/z\"", .importSpec none "\"u/v\"",
          .importSpec none "\"plain\""]]⟩

/-- Source `type P int; type A struct{ X int }`. -/
def pThenOneFieldFile : AstFile :=
  ⟨"p", [.genDecl none [.typeSpec "P" (.ident "int"),
          .typeSpec "A" (.structType [plainField "X" (.ident "int")])]]⟩

/-- Source `type P int; type A struct{ X int; Y int }`. -/
def pThenTwoFieldsFile : AstFile :=
  ⟨"p", [.genDecl none [.typeSpec "P" (.ident "int"),
          .typeSpec "A"
            (.structType [plainField "X" (.ident "int"), plainField "Y" (.ident "int")])]]⟩

/-- A `ModifyType` function that sets the type text of a `PlainType` to
`string`. -/
def toStringType (t : Ty) : Ty :=
  match t with
  | .plain n d _ => .plain n d "string"
  | t => t

/-- A `ModifyType` function that appends `2` to the name of a `PlainType`. -/
def addTwo (t : Ty) : Ty :=
  match t with
  | .plain n d x => .plain (n ++ "2") d x
  | t => t

/-- Name and type names of an entry of `Code`, and of each of its fields. -/
def describe (t : Ty) : String × List String × List (String × List String) :=
  (t.GetName, t.GetTypeNames, t.Fields.map (fun f => (f.GetName, f.GetTypeNames)))

/-- The lists `f.transforms` and `f.copies` of the second state are those of
the first with entries appended. -/
def Grows (s s1 : St) : Prop :=
  (∃ ext, s1.transforms = s.transforms ++ ext) ∧ (∃ ext, s1.copies = s.copies ++ ext)

/-- The loop `for _, transform := range f.transforms` with the flag of its
end: `true` when every transform returned `true`, `false` when one returned
`false` and ended the loop. -/
def runFlagged : List TRef → St → Except Panic (Bool × St)
  | [], s => .ok (true, s)
  | tr :: rest, s =>
    (evalRef tr s).bind (fun r => if r.1 then runFlagged rest r.2 else .ok (false, r.2))

/-- The entry appended to `f.transforms` for a generated transform: for a
`CopyIntoStruct` the object stored at `idx`, otherwise the transform. -/
def genRef (g : Transform) (idx : Nat) : TRef :=
  match g with
  | .copyIntoStruct _ => .copy idx
  | g => .plain g

/-- The entries appended to `f.copies` for a generated transform. -/
def genCopies (g : Transform) (idx : Nat) : List Nat :=
  match g with
  | .copyIntoStruct _ => [idx]
  | _ => []

/-- An `AddField` generator that returns, for every field, a `ModifyField`
that appends `x` to the tag `n` of every field. -/
def countTag (_ : Ty) (_ : Field) : Transform :=
  .modifyField (fun f => .mk f.Typ (setTag f.Tags "n" ((f.Tags "n").getD [] ++ ["x"])))

/-- The lists the fields of an entry of `Code` hold under a tag key. -/
def tagsUnder (key : String) (t : Ty) : List (Option (List String)) :=
  t.Fields.map (fun f => f.Tags key)

/-- Source `type A struct{ ID int }`. -/
def idFile : AstFile :=
  ⟨"p", [.genDecl none [.typeSpec "A" (.structType [plainField "ID" (.ident "int")])]]⟩

/-- Source `type A struct{ ID int }; type B struct{ Name string }`. -/
def idThenNameFile : AstFile :=
  ⟨"p", [.genDecl none [.typeSpec "A" (.structType [plainField "ID" (.ident "int")]),
          .typeSpec "B" (.structType [plainField "Name" (.ident "string")])]]⟩

/-- Source `type A struct{ F int }; type B struct{ G int }`. -/
def aThenBFile : AstFile :=
  ⟨"p", [.genDecl none [.typeSpec "A" (.structType [plainField "F" (.ident "int")]),
          .typeSpec "B" (.structType [plainField "G" (.ident "int")])]]⟩

/-- The index of `store` an entry of `f.transforms` refers to, for a
`CopyIntoStruct`. -/
def TRef.copyIdx : TRef → Option Nat
  | .copy idx => some idx
  | .plain _ => none

/-- An `AddField` generator that returns, for every field, a `CopyIntoStruct`
that takes the fields of no struct and targets `Dst.Slot`. -/
def copyGen (_ : Ty) (_ : Field) : Transform := .copyIntoStruct ⟨[], "Dst", "Slot", []⟩

/-- Name of an entry of `Code` with the lists its fields hold under a tag
key. -/
def nameAndTags (key : String) (t : Ty) : String × List (Option (List String)) :=
  (t.GetName, tagsUnder key t)

mutual
/-- Every tag literal inside the expression goes through the tag loop of
`FieldFromSpec` without a panic. -/
def Expr.tagsParse : Expr → Bool
  | .structType fields => tagsParseAll fields
  | _ => true
/-- Every tag literal of the field specs, and inside their types, goes
through the tag loop of `FieldFromSpec` without a panic. -/
def tagsParseAll : List AstField → Bool
  | [] => true
  | f :: rest => f.tagsParse && tagsParseAll rest
/-- The tag literal of the field spec, and every one inside its type, goes
through the tag loop of `FieldFromSpec` without a panic. -/
def AstField.tagsParse : AstField → Bool
  | .mk _ _ typ tag => typ.tagsParse && (parseTag tag).toBool
end

/-! ## Notions of the tracker, in the words of the statements -/

/-- The type name `n` has the qualifier `k`: `n` holds a `.`, and `k` is the
text before its first `.` with every `*` left out. -/
def HasQualifier (n k : String) : Prop :=
  ∃ p rest : List Char, n.toList = p ++ '.' :: rest ∧ '.' ∉ p ∧
    k = String.mk (p.filter (fun c => c ≠ '*'))

/-- The entry `t` of the code reports the type name `n`: for a struct, one of
its fields reports it; for another type, the type itself does. -/
def ReportsName (t : Ty) (n : String) : Prop :=
  (∃ nm d fs, t = .struct nm d fs ∧ ∃ fld ∈ fs, n ∈ Field.GetTypeNames fld) ∨
  ((∀ nm d fs, t ≠ .struct nm d fs) ∧ n ∈ t.GetTypeNames)

/-- Scenario S2: source `import "x/y/z"; import "u/v"; type A struct{ F z.T }`. -/
def s2File : AstFile :=
  ⟨"p", [.genDecl none [.importSpec none "\"x/y/z\"", .importSpec none "\"u/v\""],
         .genDecl none [.typeSpec "A" (.structType [plainField "F" (.selectorExpr "z" "T")])]]⟩

/-! ## Where an entry of `Code` comes from -/

/-- What the engine never rewrites of a type: a struct without its fields,
another type as it is. -/
def Ty.head : Ty → Ty
  | .struct n d _ => .struct n d []
  | t => t

/-- The head of the object behind `t`. -/
def Cur.head : Cur → Ty
  | .plainLike t => t.head
  | .struct n d _ => .struct n d []

/-- The object behind `t` when it is not a struct object: the lifted type. -/
def Cur.plainOf : Cur → Option Ty
  | .plainLike t => some t
  | .struct _ _ _ => none

/-- The head of an entry of `f.Code`, given the head of the object behind `t`. -/
def slotHead (h : Ty) : Slot → Ty
  | .val t => t.head
  | .cur => h

/-- The heads of the entries of `f.Code`, in order. -/
def St.heads (s : St) : List Ty := s.Code.map (slotHead s.cur.head)

/-- How a list can change while one type spec is processed: the last element
is dropped, or the last element of a list that is not empty is overwritten by
an element that satisfies `A`. -/
inductive ListReach {α : Type} (A : α → Prop) : List α → List α → Prop where
  | refl (l : List α) : ListReach A l l
  | drop {l l1 : List α} : ListReach A l l1 → ListReach A l l1.dropLast
  | set {l l1 : List α} (x : α) : A x → l1 ≠ [] → ListReach A l l1 →
      ListReach A l (l1.dropLast ++ [x])

/-- Every `ModifyType` function of the transform, and of the transforms its
generators return, relates its argument to the head of its result by `R`. -/
def Transform.HeadsRel (R : Ty → Ty → Prop) : Transform → Prop
  | .modifyType apply => ∀ t, R t (apply t).head
  | .addField gen => ∀ st fld, (gen st fld).HeadsRel R
  | _ => True

/-- Predicate `Transform.HeadsRel` for an entry of `f.transforms`. -/
def TRef.HeadsRel (R : Ty → Ty → Prop) : TRef → Prop
  | .plain t => t.HeadsRel R
  | .copy _ => True

/-- What evaluating transforms on the type spec being processed does to the
heads of `f.Code`: the head of the object behind `t` stays, an object that is
not a struct stays as it is, the heads of `f.Code` change by `ListReach`, and
the entries of `f.transforms` keep `HeadsRel`. -/
structure HeadEvolves (R : Ty → Ty → Prop) (s s1 : St) : Prop where
  curHead : s1.cur.head = s.cur.head
  curPlain : s1.cur.plainOf = s.cur.plainOf
  heads : ListReach (fun x => x = s.cur.head ∨ ∃ t, s.cur.plainOf = some t ∧ R t x)
    s.heads s1.heads
  transforms : (∀ r ∈ s.transforms, TRef.HeadsRel R r) → ∀ r ∈ s1.transforms, TRef.HeadsRel R r

/-- The function `apply` is the `Apply` of a `ModifyType` of the transform,
or of a transform one of its generators returns. -/
inductive Transform.Applies : Transform → (Ty → Ty) → Prop where
  | modifyType (apply : Ty → Ty) : Transform.Applies (.modifyType apply) apply
  | addField (gen : Ty → Field → Transform) (st : Ty) (fld : Field) (apply : Ty → Ty) :
      Transform.Applies (gen st fld) apply → Transform.Applies (.addField gen) apply

/-- The head `h` comes from the spec `p`: the spec is a type spec that lifts
to a type `t`, and `h` is the head of `t`, or `t` is not a struct and `h` is
related to `t` by `R`. -/
def HeadFrom (R : Ty → Ty → Prop) (p : String × Spec) (h : Ty) : Prop :=
  ∃ name typ t, p.2 = .typeSpec name typ ∧ ParseExpr [name] p.1 typ = .ok (some t) ∧
    (h = t.head ∨ ((∀ n d fs, t ≠ .struct n d fs) ∧ R t h))

/-- The entry `e` of the output code originates from the spec `p`: `p` is a
type spec that lifts to a type `t`, and `e` is, up to the fields of a struct,
`t` or (for a `t` that is no struct) the result on `t` of a `ModifyType`
function of the list or of a transform a generator of the list returns. -/
def OriginatesFrom (transforms : List Transform) (p : String × Spec) (e : Ty) : Prop :=
  ∃ name typ t, p.2 = .typeSpec name typ ∧ ParseExpr [name] p.1 typ = .ok (some t) ∧
    (e.head = t.head ∨ ((∀ n d fs, t ≠ .struct n d fs) ∧
      ∃ tr ∈ transforms, ∃ apply, Transform.Applies tr apply ∧ e.head = (apply t).head))

/-! ## `AddField` in terms of values -/

/-- The generator that returns, for a struct and a field of it, a
`ModifyField` with the function `ap` gives, and nil when `ap` gives none. -/
def fieldGen (ap : Ty → Field → Option (Field → Field)) (st : Ty) (fld : Field) : Transform :=
  match ap st fld with
  | none => .nil
  | some f => .modifyField f

/-- The rounds of an `AddField` with the generator `fieldGen ap` on the struct
`n` with the fields `fs`, for the `m` fields from index `k` on: a round asks
`ap` with the struct and its field `k` as they are at that moment, and a
function it gives is applied once to every field; the result is the functions
given, in order, and the fields after the last round. -/
def pureRounds (ap : Ty → Field → Option (Field → Field)) (n d : String) :
    Nat → Nat → List Field → List (Field → Field) × List Field
  | 0, _, fs => ([], fs)
  | m + 1, k, fs =>
    match ap (.struct n d fs) (fs.getD k default) with
    | none => pureRounds ap n d m (k + 1) fs
    | some f => (f :: (pureRounds ap n d m (k + 1) (fs.map f)).1,
        (pureRounds ap n d m (k + 1) (fs.map f)).2)

/-- The code the walk gives for the lifted types `ts` with the list
`AddField (fieldGen ap)` followed by the `ModifyField` functions `gens`
generated so far: a struct goes through one round per field and then once
through every function generated on the structs before it; another type
stays as it is. -/
def pureWalk (ap : Ty → Field → Option (Field → Field)) :
    List (Field → Field) → List Ty → List Ty
  | _, [] => []
  | gens, .struct n d fs :: rest =>
    .struct n d (gens.foldl (fun l g => l.map g) (pureRounds ap n d fs.length 0 fs).2) ::
      pureWalk ap (gens ++ (pureRounds ap n d fs.length 0 fs).1) rest
  | gens, t :: rest => t :: pureWalk ap gens rest

/-- The functions generated when the walk of `pureWalk` is over, in the order
they were generated. -/
def pureGens (ap : Ty → Field → Option (Field → Field)) :
    List (Field → Field) → List Ty → List (Field → Field)
  | gens, [] => gens
  | gens, .struct n d fs :: rest =>
    pureGens ap (gens ++ (pureRounds ap n d fs.length 0 fs).1) rest
  | gens, _ :: rest => pureGens ap gens rest

/-- The types the type specs of a list of specs lift to, in source order
(a spec whose type does not lift gives none). -/
def liftAll : List (String × Spec) → Except Panic (List Ty)
  | [] => .ok []
  | (docs, .typeSpec name typ) :: rest =>
    (ParseExpr [name] docs typ).bind (fun r =>
      (liftAll rest).bind (fun ts => .ok (r.toList ++ ts)))
  | _ :: rest => liftAll rest

/-- The state between two type specs of a run with the list `AddField gen`
followed by the generated `ModifyField` functions `gens`: `Code` holds the
types `code`, and nothing is in `f.copies`. -/
def PlainRun (gen : Ty → Field → Transform) (code : List Ty) (gens : List (Field → Field))
    (s : St) : Prop :=
  s.Code = code.map Slot.val ∧
  s.transforms = .plain (.addField gen) :: gens.map (fun g => TRef.plain (.modifyField g)) ∧
  s.copies = []

/-- A `ModifyField` function that appends `x` to the tag `n` of a field. -/
def bumpTag (f : Field) : Field :=
  .mk f.Typ (setTag f.Tags "n" ((f.Tags "n").getD [] ++ ["x"]))

/-- For a field named `Name` nothing, for every other field the function
`bumpTag`. -/
def bumpUnlessName (_ : Ty) (fld : Field) : Option (Field → Field) :=
  if fld.GetName = "Name" then none else some bumpTag

/-- Source `type A struct{ ID int; Name string; Age int }; type M int; type B
struct{ X int }`. -/
def threeTypesFile : AstFile :=
  ⟨"p", [.genDecl none [.typeSpec "A" (.structType [plainField "ID" (.ident "int"),
            plainField "Name" (.ident "string"), plainField "Age" (.ident "int")]),
          .typeSpec "M" (.ident "int"),
          .typeSpec "B" (.structType [plainField "X" (.ident "int")])]]⟩

/-- The types the type specs of `threeTypesFile` lift to. -/
def threeTypesLifted : List Ty :=
  [.struct "A" "" [.mk (.plain "ID" "" "int") (fun _ => none),
      .mk (.plain "Name" "" "string") (fun _ => none),
      .mk (.plain "Age" "" "int") (fun _ => none)],
   .plain "M" "" "int",
   .struct "B" "" [.mk (.plain "X" "" "int") (fun _ => none)]]

/-! ## Runs with an `ExcludeType` -/

/-- The function of a `ModifyField` keeps clean fields clean. -/
def FieldSafe (m : Node → Bool) (f : Field → Field) : Prop :=
  ∀ fld, m (.field fld) = false → m (.field (f fld)) = false

/-- The function of a `ModifyType` does not turn a type that is no struct and
on which `m` does not hold into a type on which `m` holds or with a field on
which `m` holds. -/
def PlainSafe (m : Node → Bool) (apply : Ty → Ty) : Prop :=
  ∀ t, (∀ n d fs, t ≠ .struct n d fs) → m (.type t) = false → Clean m (apply t)

/-- The function of a `ModifyType`, applied to the type of a clean field,
keeps the field clean. -/
def FieldTypeSafe (m : Node → Bool) (apply : Ty → Ty) : Prop :=
  ∀ fld : Field, m (.field fld) = false → m (.field (.mk (apply fld.Typ) fld.Tags)) = false

/-- A transform that, evaluated after the `ExcludeType` of `m`, rewrites
nothing into a type or a field on which `m` holds and absorbs no struct: nil,
an exclusion, a `ModifyField` or `ModifyType` whose function keeps what is
clean clean, or an `AddField` whose generator returns such transforms only. -/
def Transform.SafeAfter (m : Node → Bool) : Transform → Prop
  | .nil => True
  | .excludeType _ => True
  | .excludeField _ => True
  | .excludeImport _ => True
  | .addField gen => ∀ st fld, (gen st fld).SafeAfter m
  | .copyIntoStruct _ => False
  | .modifyType apply => PlainSafe m apply ∧ FieldTypeSafe m apply
  | .modifyField f => FieldSafe m f

/-- Predicate `Transform.SafeAfter` for an entry of `f.transforms`. -/
def TRef.SafeAfter (m : Node → Bool) : TRef → Prop
  | .plain t => t.SafeAfter m
  | .copy _ => False

theorem except_bind_eq_ok {ε α β : Type} {x : Except ε α} {f : α → Except ε β} {b : β} :
    x.bind f = .ok b ↔ ∃ a, x = .ok a ∧ f a = .ok b := by
  cases x <;> simp [Except.bind]

theorem except_map_eq_ok {ε α β : Type} {x : Except ε α} {f : α → β} {b : β} :
    x.map f = .ok b ↔ ∃ a, x = .ok a ∧ f a = b := by
  cases x <;> simp [Except.map]

theorem foldlM_except_cons {ε α β : Type} (f : β → α → Except ε β) (b : β) (a : α)
    (l : List α) : (a :: l).foldlM f b = (f b a).bind (fun b1 => l.foldlM f b1) := rfl

theorem foldlM_except_nil {ε α β : Type} (f : β → α → Except ε β) (b : β) :
    ([] : List α).foldlM f b = .ok b := rfl

/-- An invariant of the rounds of a loop is an invariant of the loop. -/
theorem foldlM_except_invariant {ε α β : Type} (f : β → α → Except ε β) (P : β → β → Prop)
    (hrefl : ∀ b, P b b) (htrans : ∀ a b c, P a b → P b c → P a c)
    (hstep : ∀ b a b1, f b a = .ok b1 → P b b1) :
    ∀ (l : List α) (b b1 : β), l.foldlM f b = .ok b1 → P b b1 := by
  intro l
  induction l with
  | nil =>
    intro b b1 h
    rw [foldlM_except_nil] at h
    cases h
    exact hrefl b
  | cons a l ih =>
    intro b b1 h
    rw [foldlM_except_cons, except_bind_eq_ok] at h
    obtain ⟨b2, h1, h2⟩ := h
    exact htrans _ _ _ (hstep _ _ _ h1) (ih _ _ h2)

theorem nameReach_trans {A : String → Prop} {l1 l2 l3 : List String}
    (h1 : NameReach A l1 l2) (h2 : NameReach A l2 l3) : NameReach A l1 l3 := by
  induction h2 with
  | refl => exact h1
  | drop _ ih => exact .drop ih
  | set x hx hne _ ih => exact .set x hx hne ih

theorem evolves_refl (R : String → String → Prop) (s : St) : Evolves R s s :=
  ⟨rfl, rfl, rfl, rfl, .refl _, fun h => h⟩

theorem evolves_trans {R : String → String → Prop} {s1 s2 s3 : St}
    (h1 : Evolves R s1 s2) (h2 : Evolves R s2 s3) : Evolves R s1 s3 := by
  refine ⟨h2.imports.trans h1.imports, h2.eximports.trans h1.eximports,
    h2.package.trans h1.package, h2.curName.trans h1.curName, ?_,
    fun h => h2.transforms (h1.transforms h)⟩
  have h3 := h2.names
  rw [h1.curName] at h3
  exact nameReach_trans h1.names h3

/-- A change of the state that leaves `Code`, the name behind `t`, the imports
and `transforms` alone. -/
theorem evolves_of_eq (R : String → String → Prop) {s s1 : St}
    (hi : s1.Imports = s.Imports) (he : s1.eximports = s.eximports)
    (hp : s1.Package = s.Package) (hn : s1.cur.name = s.cur.name)
    (hc : s1.Code = s.Code) (ht : s1.transforms = s.transforms) : Evolves R s s1 := by
  refine ⟨hi, he, hp, hn, ?_, fun h => by rw [ht]; exact h⟩
  have : s1.names = s.names := by simp [St.names, hc, hn]
  rw [this]
  exact .refl _

theorem dropLastCode_evolves (R : String → String → Prop) {s s1 : St}
    (h : dropLastCode s = .ok s1) : Evolves R s s1 := by
  unfold dropLastCode at h
  split at h
  · cases h
  · cases h
    refine ⟨rfl, rfl, rfl, rfl, ?_, fun h => h⟩
    have : St.names { s with Code := s.Code.dropLast } = s.names.dropLast := by
      simp [St.names, List.map_dropLast]
    rw [this]
    exact .drop (.refl _)

theorem setLastCode_evolves (R : String → String → Prop) {s s1 : St} (x : Slot)
    (hx : slotName s.cur.name x = s.cur.name ∨ R s.cur.name (slotName s.cur.name x))
    (h : setLastCode x s = .ok s1) : Evolves R s s1 := by
  unfold setLastCode at h
  split at h
  · cases h
  · cases h
    refine ⟨rfl, rfl, rfl, rfl, ?_, fun h => h⟩
    have : St.names { s with Code := s.Code.dropLast ++ [x] }
        = s.names.dropLast ++ [slotName s.cur.name x] := by
      simp [St.names, List.map_dropLast]
    rw [this]
    refine .set _ hx ?_ (.refl _)
    rename_i hcode
    simp [St.names, hcode]

/-! ## What one transform does to the names of `Code` -/

theorem filterFields_evolves (R : String → String → Prop) (keep : Field → Bool) (s : St) :
    Evolves R s (filterFields keep s) := by
  unfold filterFields
  split
  · exact evolves_refl R s
  · rename_i n d a hcur
    apply evolves_of_eq <;> simp [Cur.name, hcur]

theorem evalCopy_evolves (R : String → String → Prop) {idx : Nat} {s s1 : St} {b : Bool}
    (h : evalCopy idx s = .ok (b, s1)) : Evolves R s s1 := by
  unfold evalCopy at h
  split at h
  · cases h
    exact evolves_refl R s
  · split at h
    · rw [except_map_eq_ok] at h
      obtain ⟨s2, h2, h3⟩ := h
      cases h3
      refine evolves_trans ?_ (dropLastCode_evolves R h2)
      apply evolves_of_eq <;> rfl
    · cases h
      exact evolves_refl R s

theorem evalModifyType_evolves {R : String → String → Prop} {apply : Ty → Ty}
    (hf : ∀ t, R t.GetName (apply t).GetName) {s s1 : St} {b : Bool}
    (h : evalModifyType apply s = .ok (b, s1)) : Evolves R s s1 := by
  unfold evalModifyType at h
  split at h
  · rename_i t hcur
    rw [except_map_eq_ok] at h
    obtain ⟨s2, h2, h3⟩ := h
    cases h3
    refine setLastCode_evolves R _ ?_ h2
    right
    simpa [slotName, hcur, Cur.name] using hf t
  · rw [except_map_eq_ok] at h
    obtain ⟨s2, h2, h3⟩ := h
    cases h3
    refine evolves_trans ?_ (setLastCode_evolves R .cur (Or.inl rfl) h2)
    apply evolves_of_eq <;> rfl

theorem evalModifyField_evolves (R : String → String → Prop) {apply : Field → Field}
    {s s1 : St} {b : Bool} (h : evalModifyField apply s = .ok (b, s1)) : Evolves R s s1 := by
  unfold evalModifyField at h
  split at h
  · cases h
    exact evolves_refl R s
  · rw [except_map_eq_ok] at h
    obtain ⟨s2, h2, h3⟩ := h
    cases h3
    refine evolves_trans ?_ (setLastCode_evolves R .cur (Or.inl rfl) h2)
    apply evolves_of_eq <;> rfl

theorem evalExcludeType_evolves (R : String → String → Prop) {m : Node → Bool}
    {s s1 : St} {b : Bool} (h : evalExcludeType m s = .ok (b, s1)) : Evolves R s s1 := by
  unfold evalExcludeType at h
  split at h
  · rw [except_map_eq_ok] at h
    obtain ⟨s2, h2, h3⟩ := h
    cases h3
    exact dropLastCode_evolves R h2
  · cases h
    exact filterFields_evolves R _ s

/-- Appending to `f.copies` and `f.transforms`. -/
theorem append_evolves (R : String → String → Prop) (s : St) (cs : List Nat) (r : TRef)
    (hr : TRef.NamesRel R r) :
    Evolves R s { s with copies := s.copies ++ cs, transforms := s.transforms ++ [r] } := by
  refine ⟨rfl, rfl, rfl, rfl, .refl _, ?_⟩
  intro h r1 hr1
  simp only [List.mem_append, List.mem_singleton] at hr1
  rcases hr1 with hr1 | hr1
  · exact h r1 hr1
  · rw [hr1]; exact hr

theorem addFieldRound_evolves {R : String → String → Prop} {gen : Ty → Field → Transform}
    {evalGen : Ty → Field → St → Except Panic (Bool × St)}
    (hgen : ∀ st fld, (gen st fld).NamesRel R)
    (hev : ∀ st fld s b s1, evalGen st fld s = .ok (b, s1) → Evolves R s s1)
    {a i : Nat} {s s1 : St} (h : addFieldRound gen evalGen a i s = .ok s1) :
    Evolves R s s1 := by
  unfold addFieldRound at h
  split at h
  · cases h
    exact evolves_refl R s
  · rw [except_map_eq_ok] at h
    obtain ⟨r, h2, h3⟩ := h
    cases h3
    have e1 := hev _ _ _ _ _ h2
    have e2 := append_evolves R r.2 [s.store.length] (.copy s.store.length) trivial
    exact evolves_trans e1 e2
  · rw [except_map_eq_ok] at h
    obtain ⟨r, h2, h3⟩ := h
    cases h3
    have e1 := hev _ _ _ _ _ h2
    have hgr : TRef.NamesRel R (.plain (gen s.curTy (s.fieldAt ((s.arrs.getD a []).getD i 0)))) :=
      hgen _ _
    have e2 := append_evolves R r.2 [] (.plain _) hgr
    simp only [List.append_nil] at e2
    exact evolves_trans e1 e2

theorem addFieldLoop_evolves {R : String → String → Prop} {gen : Ty → Field → Transform}
    {evalGen : Ty → Field → St → Except Panic (Bool × St)}
    (hgen : ∀ st fld, (gen st fld).NamesRel R)
    (hev : ∀ st fld s b s1, evalGen st fld s = .ok (b, s1) → Evolves R s s1)
    {s s1 : St} {b : Bool} (h : addFieldLoop gen evalGen s = .ok (b, s1)) :
    Evolves R s s1 := by
  unfold addFieldLoop at h
  split at h
  · cases h
    exact evolves_refl R s
  · rename_i n d a hcur
    rw [except_map_eq_ok] at h
    obtain ⟨s2, h2, h3⟩ := h
    cases h3
    exact foldlM_except_invariant _ (Evolves R) (evolves_refl R)
      (fun _ _ _ => evolves_trans) (fun _ _ _ hr => addFieldRound_evolves hgen hev hr) _ _ _ h2

theorem evalTransform_evolves {R : String → String → Prop} (tr : Transform) :
    tr.NamesRel R → ∀ (s : St) (b : Bool) (s1 : St),
      evalTransform tr s = .ok (b, s1) → Evolves R s s1 := by
  induction tr with
  | nil =>
    intro _ s b s1 h
    simp only [evalTransform] at h
    cases h
    exact evolves_refl R s
  | addField gen ih =>
    intro hR s b s1 h
    simp only [evalTransform] at h
    exact addFieldLoop_evolves hR (fun st fld => ih st fld (hR st fld)) h
  | excludeType m =>
    intro _ s b s1 h
    simp only [evalTransform] at h
    exact evalExcludeType_evolves R h
  | excludeField m =>
    intro _ s b s1 h
    simp only [evalTransform] at h
    cases h
    exact filterFields_evolves R _ s
  | copyIntoStruct ci =>
    intro _ s b s1 h
    simp only [evalTransform] at h
    refine evolves_trans ?_ (evalCopy_evolves R h)
    apply evolves_of_eq <;> rfl
  | excludeImport m =>
    intro _ s b s1 h
    simp only [evalTransform] at h
    cases h
    exact evolves_refl R s
  | modifyType apply =>
    intro hR s b s1 h
    simp only [evalTransform] at h
    exact evalModifyType_evolves hR h
  | modifyField apply =>
    intro _ s b s1 h
    simp only [evalTransform] at h
    exact evalModifyField_evolves R h

/-! ## The walk -/

theorem foldlM_except_append {ε α β : Type} (f : β → α → Except ε β) (b : β)
    (l1 l2 : List α) :
    (l1 ++ l2).foldlM f b = (l1.foldlM f b).bind (fun b1 => l2.foldlM f b1) := by
  induction l1 generalizing b with
  | nil => rfl
  | cons a l ih =>
    simp only [List.cons_append, foldlM_except_cons]
    cases h : f b a with
    | error e => rfl
    | ok b2 => simp only [Except.bind]; exact ih b2

/-- A relation between the state before a loop, the elements gone through and
the state after them, kept by every round, holds for the loop. -/
theorem foldlM_except_rel {ε α β : Type} (f : β → α → Except ε β)
    (P : β → List α → β → Prop) (h0 : ∀ b, P b [] b)
    (hstep : ∀ b l b1 a b2, P b l b1 → f b1 a = .ok b2 → P b (l ++ [a]) b2) :
    ∀ (l : List α) (b b1 : β), l.foldlM f b = .ok b1 → P b l b1 := by
  intro l
  induction l using List.reverseRecOn with
  | nil =>
    intro b b1 h
    rw [foldlM_except_nil] at h
    cases h
    exact h0 b
  | append_singleton l a ih =>
    intro b b1 h
    rw [foldlM_except_append, except_bind_eq_ok] at h
    obtain ⟨b2, h1, h2⟩ := h
    rw [foldlM_except_cons, except_bind_eq_ok] at h2
    obtain ⟨b3, h3, h4⟩ := h2
    rw [foldlM_except_nil] at h4
    cases h4
    exact hstep _ _ _ _ _ (ih _ _ h1) h3

theorem walkDecl_eq_foldlM (d : Decl) (s : St) :
    walkDecl s d = (specsOf d).foldlM (fun s1 p => walkSpec p.1 s1 p.2) s := by
  cases d with
  | genDecl doc specs =>
    simp only [walkDecl, specsOf]
    generalize DocsFromCommentGroup doc = docs
    induction specs generalizing s with
    | nil => rfl
    | cons sp sps ih2 =>
      simp only [List.map_cons, foldlM_except_cons]
      cases h : walkSpec docs s sp with
      | error e => rfl
      | ok s2 => simp only [Except.bind]; exact ih2 s2
  | funcDecl => rfl
  | badDecl => rfl

/-- The walk goes through the specs of the file in source order. -/
theorem walk_eq_foldlM (decls : List Decl) (s : St) :
    walk decls s = (allSpecs decls).foldlM (fun s1 p => walkSpec p.1 s1 p.2) s := by
  unfold walk
  induction decls generalizing s with
  | nil => rfl
  | cons d ds ih =>
    have hflat : allSpecs (d :: ds) = specsOf d ++ allSpecs ds := by
      simp [allSpecs]
    rw [hflat, foldlM_except_append, foldlM_except_cons, walkDecl_eq_foldlM]
    cases h : (specsOf d).foldlM (fun s1 p => walkSpec p.1 s1 p.2) s with
    | error e => rfl
    | ok s2 => simp only [Except.bind]; exact ih s2

theorem evalRef_evolves {R : String → String → Prop} {r : TRef} (hr : TRef.NamesRel R r)
    {s s1 : St} {b : Bool} (h : evalRef r s = .ok (b, s1)) : Evolves R s s1 := by
  cases r with
  | plain t => exact evalTransform_evolves t hr s b s1 h
  | copy idx => exact evalCopy_evolves R h

theorem runTransforms_evolves {R : String → String → Prop} (l : List TRef)
    (hl : ∀ r ∈ l, TRef.NamesRel R r) :
    ∀ (s s1 : St), runTransforms l s = .ok s1 → Evolves R s s1 := by
  induction l with
  | nil =>
    intro s s1 h
    simp only [runTransforms] at h
    cases h
    exact evolves_refl R s
  | cons r rest ih =>
    intro s s1 h
    simp only [runTransforms] at h
    rw [except_bind_eq_ok] at h
    obtain ⟨⟨b, s2⟩, h1, h2⟩ := h
    have e1 := evalRef_evolves (hl r (List.mem_cons_self _ _)) h1
    cases b with
    | true =>
      simp only [if_true] at h2
      exact evolves_trans e1 (ih (fun r1 hr1 => hl r1 (List.mem_cons_of_mem _ hr1)) _ _ h2)
    | false =>
      simp at h2
      cases h2
      exact e1

theorem curTy_name (s : St) : s.curTy.GetName = s.cur.name := by
  unfold St.curTy
  cases s.cur <;> rfl

theorem slotTy_name (s : St) (x : Slot) : (s.slotTy x).GetName = slotName s.cur.name x := by
  cases x with
  | val t => rfl
  | cur => exact curTy_name s

theorem names_of_settled {s : St} (hs : s.settled) (n : String) :
    s.Code.map (slotName n) = s.names := by
  unfold St.names
  apply List.map_congr_left
  intro x hx
  cases x with
  | val t => rfl
  | cur => exact absurd rfl (hs _ hx)

theorem parseExpr_name {names : List String} {docs : String} {e : Expr} {t : Ty}
    (h : ParseExpr names docs e = .ok (some t)) : t.GetName = firstName names := by
  cases e <;> simp only [ParseExpr] at h
  case structType fields =>
    rw [except_bind_eq_ok] at h
    obtain ⟨raws, _, h2⟩ := h
    cases h2
    rfl
  all_goals first
    | (cases h; rfl)
    | cases h

theorem beginSpec_code (t : Ty) (s : St) : (beginSpec t s).Code = s.Code ++ [.cur] := by
  cases t <;> rfl

theorem beginSpec_curName (t : Ty) (s : St) : (beginSpec t s).cur.name = t.GetName := by
  cases t <;> rfl

theorem beginSpec_frame (t : Ty) (s : St) :
    (beginSpec t s).Imports = s.Imports ∧ (beginSpec t s).eximports = s.eximports ∧
    (beginSpec t s).Package = s.Package ∧ (beginSpec t s).transforms = s.transforms ∧
    (beginSpec t s).store = s.store ∧ (beginSpec t s).copies = s.copies := by
  cases t <;> exact ⟨rfl, rfl, rfl, rfl, rfl, rfl⟩

theorem endSpec_names (s : St) : (endSpec s).names = s.names := by
  simp only [St.names, endSpec, List.map_map]
  apply List.map_congr_left
  intro x _
  exact slotTy_name s x

theorem endSpec_settled (s : St) : (endSpec s).settled := by
  intro x hx
  simp only [endSpec, List.mem_map] at hx
  obtain ⟨y, _, hy⟩ := hx
  rw [← hy]
  exact Slot.noConfusion

/-- What one type spec does to imports, transforms and names. -/
theorem walkTypeSpec_evolves {R : String → String → Prop} {docs name : String} {typ : Expr}
    {s s1 : St} (hs : s.settled) (hT : ∀ r ∈ s.transforms, TRef.NamesRel R r)
    (h : walkTypeSpec docs name typ s = .ok s1) :
    s1.Imports = s.Imports ∧ s1.eximports = s.eximports ∧ s1.Package = s.Package ∧
    s1.settled ∧ (∀ r ∈ s1.transforms, TRef.NamesRel R r) ∧
    SpecNames R name s.names s1.names := by
  unfold walkTypeSpec at h
  rw [except_bind_eq_ok] at h
  obtain ⟨r, h1, h2⟩ := h
  cases r with
  | none =>
    cases h2
    exact ⟨rfl, rfl, rfl, hs, hT, Or.inl rfl⟩
  | some t =>
    simp only at h2
    rw [except_map_eq_ok] at h2
    obtain ⟨s2, h3, h4⟩ := h2
    cases h4
    have hname : t.GetName = name := by
      have := parseExpr_name h1
      simpa [firstName] using this
    obtain ⟨f1, f2, f3, f4, _, _⟩ := beginSpec_frame t s
    have hT2 : ∀ r ∈ (beginSpec t s).transforms, TRef.NamesRel R r := by
      rw [f4]; exact hT
    have e : Evolves R (beginSpec t s) s2 := by
      have := runTransforms_evolves (beginSpec t s).transforms hT2 _ _
        (by rw [f4]; exact h3)
      exact this
    refine ⟨?_, ?_, ?_, endSpec_settled s2, ?_, Or.inr ?_⟩
    · show s2.Imports = s.Imports
      rw [e.imports, f1]
    · show s2.eximports = s.eximports
      rw [e.eximports, f2]
    · show s2.Package = s.Package
      rw [e.package, f3]
    · exact e.transforms hT2
    · rw [endSpec_names]
      have hn := e.names
      rw [beginSpec_curName, hname] at hn
      have h0 : (beginSpec t s).names = s.names ++ [name] := by
        simp only [St.names, beginSpec_code, beginSpec_curName, hname, List.map_append,
          List.map_cons, List.map_nil, slotName]
        rw [names_of_settled hs]
        rfl
      rw [h0] at hn
      exact hn

/-! ## Names of `Code` through the walk -/

theorem sublist_dropLast {α : Type} {l1 l2 : List α} (h : List.Sublist l1 l2) :
    List.Sublist l1.dropLast l2.dropLast := by
  induction h with
  | slnil => exact List.Sublist.refl _
  | @cons l1 l2 a h ih =>
    cases l2 with
    | nil =>
      have := List.eq_nil_of_sublist_nil h
      subst this
      exact List.nil_sublist _
    | cons b l2 =>
      rw [List.dropLast_cons₂]
      exact List.Sublist.cons a ih
  | @cons₂ l1 l2 a h ih =>
    cases l1 with
    | nil => exact List.nil_sublist _
    | cons c l1 =>
      cases l2 with
      | nil => exact absurd (List.eq_nil_of_sublist_nil h) (List.cons_ne_nil _ _)
      | cons b l2 =>
        rw [List.dropLast_cons₂, List.dropLast_cons₂]
        exact List.Sublist.cons₂ a ih

theorem nameReach_nonempty {N : String} {l l1 : List String} (hN : N ≠ "")
    (h : NameReach (fun x => x = N ∨ (N ≠ "" → x ≠ "")) l l1) (hl : ∀ x ∈ l, x ≠ "") :
    ∀ x ∈ l1, x ≠ "" := by
  induction h with
  | refl => exact hl
  | drop _ ih => exact fun x hx => ih x ((List.dropLast_sublist _).subset hx)
  | set y hy _ _ ih =>
    intro x hx
    rw [List.mem_append, List.mem_singleton] at hx
    rcases hx with hx | hx
    · exact ih x ((List.dropLast_sublist _).subset hx)
    · subst hx
      rcases hy with hy | hy
      · rw [hy]; exact hN
      · exact hy hN

theorem walkImportSpec_frame (n : Option String) (p : String) (s : St) :
    (walkImportSpec n p s).Code = s.Code ∧ (walkImportSpec n p s).cur = s.cur ∧
    (walkImportSpec n p s).transforms = s.transforms ∧
    (walkImportSpec n p s).eximports = s.eximports ∧
    (walkImportSpec n p s).Package = s.Package ∧
    (walkImportSpec n p s).store = s.store ∧ (walkImportSpec n p s).copies = s.copies := by
  unfold walkImportSpec
  split <;> exact ⟨rfl, rfl, rfl, rfl, rfl, rfl, rfl⟩

/-- What one spec does to the state: it stays settled, the transforms keep
`NamesRel`, exclusions and package stay; an import spec changes the imports
only, a type spec the names of `Code` only. -/
theorem walkSpec_evolves {R : String → String → Prop} {docs : String} {sp : Spec}
    {s s1 : St} (hs : s.settled) (hT : ∀ r ∈ s.transforms, TRef.NamesRel R r)
    (h : walkSpec docs s sp = .ok s1) :
    s1.settled ∧ (∀ r ∈ s1.transforms, TRef.NamesRel R r) ∧
    s1.eximports = s.eximports ∧ s1.Package = s.Package ∧
    (match sp with
      | .importSpec n p => s1.Imports = (walkImportSpec n p s).Imports ∧ s1.names = s.names
      | .typeSpec name _ => s1.Imports = s.Imports ∧ SpecNames R name s.names s1.names
      | .valueSpec => s1.Imports = s.Imports ∧ s1.names = s.names) := by
  cases sp with
  | importSpec n p =>
    simp only [walkSpec] at h
    cases h
    obtain ⟨f1, f2, f3, f4, f5, _, _⟩ := walkImportSpec_frame n p s
    refine ⟨?_, ?_, f4, f5, rfl, ?_⟩
    · intro x hx; rw [f1] at hx; exact hs x hx
    · rw [f3]; exact hT
    · simp only [St.names, f1, f2]
  | typeSpec name typ =>
    simp only [walkSpec] at h
    obtain ⟨h1, h2, h3, h4, h5, h6⟩ := walkTypeSpec_evolves hs hT h
    exact ⟨h4, h5, h2, h3, h1, h6⟩
  | valueSpec =>
    simp only [walkSpec] at h
    cases h
    exact ⟨hs, hT, rfl, rfl, rfl, rfl⟩

theorem namesRel_true (tr : Transform) : tr.NamesRel (fun _ _ => True) := by
  induction tr with
  | addField gen ih => exact fun st fld => ih st fld
  | modifyType apply => exact fun _ => trivial
  | _ => trivial

theorem tref_namesRel_true (r : TRef) : TRef.NamesRel (fun _ _ => True) r := by
  cases r with
  | plain t => exact namesRel_true t
  | copy _ => trivial

theorem partitionSpec_plain {t : Transform} {ts : List Transform} {s r : St}
    (hne : ∀ m, Transform.excludeImport m ≠ t)
    (h : PartitionSpec ts { s with transforms := s.transforms ++ [.plain t] } r) :
    PartitionSpec (t :: ts) s r := by
  obtain ⟨h1, h2, h3, h4, h5, h6⟩ := h
  refine ⟨h1, h2, h3, h4, ?_, ?_⟩
  · intro x hx
    rcases h5 x hx with h | ⟨t1, ht, rfl⟩
    · simp only [List.mem_append, List.mem_singleton] at h
      rcases h with h | h
      · exact Or.inl h
      · exact Or.inr ⟨_, List.mem_cons_self _ _, h⟩
    · exact Or.inr ⟨t1, List.mem_cons_of_mem _ ht, rfl⟩
  · intro m
    rw [h6 m]
    constructor
    · rintro (h | h)
      · exact Or.inl h
      · exact Or.inr (List.mem_cons_of_mem _ h)
    · rintro (h | h)
      · exact Or.inl h
      · rcases List.mem_cons.1 h with h | h
        · exact absurd h (hne m)
        · exact Or.inr h

theorem partitionTransforms_spec (ts : List Transform) :
    ∀ s : St, PartitionSpec ts s (partitionTransforms ts s) := by
  induction ts with
  | nil =>
    intro s
    simp [partitionTransforms, PartitionSpec]
  | cons t ts ih =>
    intro s
    cases t with
    | copyIntoStruct ci =>
      simp only [partitionTransforms]
      obtain ⟨h1, h2, h3, h4, h5, h6⟩ :=
        ih { s with store := s.store ++ [ci], copies := s.copies ++ [s.store.length] }
      refine ⟨h1, h2, h3, h4, ?_, ?_⟩
      · intro r hr
        rcases h5 r hr with h | ⟨t, ht, rfl⟩
        · exact Or.inl h
        · exact Or.inr ⟨t, List.mem_cons_of_mem _ ht, rfl⟩
      · intro m
        rw [h6 m]
        simp
    | excludeImport m0 =>
      simp only [partitionTransforms]
      obtain ⟨h1, h2, h3, h4, h5, h6⟩ := ih { s with eximports := s.eximports ++ [m0] }
      refine ⟨h1, h2, h3, h4, ?_, ?_⟩
      · intro r hr
        rcases h5 r hr with h | ⟨t, ht, rfl⟩
        · exact Or.inl h
        · exact Or.inr ⟨t, List.mem_cons_of_mem _ ht, rfl⟩
      · intro m
        rw [h6 m]
        simp only [List.mem_append, List.mem_singleton, List.mem_cons,
          Transform.excludeImport.injEq]
        tauto
    | nil => simp only [partitionTransforms]; exact partitionSpec_plain (fun _ h => Transform.noConfusion h) (ih _)
    | addField g => simp only [partitionTransforms]; exact partitionSpec_plain (fun _ h => Transform.noConfusion h) (ih _)
    | excludeType m => simp only [partitionTransforms]; exact partitionSpec_plain (fun _ h => Transform.noConfusion h) (ih _)
    | excludeField m => simp only [partitionTransforms]; exact partitionSpec_plain (fun _ h => Transform.noConfusion h) (ih _)
    | modifyType f => simp only [partitionTransforms]; exact partitionSpec_plain (fun _ h => Transform.noConfusion h) (ih _)
    | modifyField f => simp only [partitionTransforms]; exact partitionSpec_plain (fun _ h => Transform.noConfusion h) (ih _)

/-! ## The second pass keeps the names -/

theorem map_set_of_eq {α β : Type} (f : α → β) :
    ∀ (l : List α) (i : Nat) (x y : α), l.get? i = some x → f y = f x →
      (l.set i y).map f = l.map f := by
  intro l
  induction l with
  | nil => intro i x y h _; simp at h
  | cons a l ih =>
    intro i x y h hf
    cases i with
    | zero =>
      simp only [List.get?_cons_zero, Option.some.injEq] at h
      subst h
      simp [hf]
    | succ i =>
      simp only [List.get?_cons_succ] at h
      simp only [List.set_cons_succ, List.map_cons, List.cons.injEq, true_and]
      exact ih i x y h hf

theorem copyStep_names {ci : CopyIntoStruct} {code code1 : List Ty}
    (h : copyStep ci code = .ok code1) : code1.map Ty.GetName = code.map Ty.GetName := by
  unfold copyStep at h
  split at h
  · cases h
  · rename_i n d fields hget
    split at h
    · cases h
      exact map_set_of_eq Ty.GetName code _ _ _ hget rfl
    · cases h
  · cases h
    rfl

theorem secondPass_names (copies : List CopyIntoStruct) :
    ∀ (code code1 : List Ty), secondPass copies code = .ok code1 →
      code1.map Ty.GetName = code.map Ty.GetName := by
  unfold secondPass
  have key := foldlM_except_invariant (fun c ci => copyStep ci c)
    (fun c c1 => c1.map Ty.GetName = c.map Ty.GetName)
    (fun _ => rfl) (fun _ _ _ h1 h2 => Eq.trans h2 h1) (fun _ _ _ h => copyStep_names h) copies
  exact key

theorem finish_names {s : St} {out : File} (h : finish s = .ok out) :
    out.Code.map Ty.GetName = s.names := by
  unfold finish at h
  rw [except_map_eq_ok] at h
  obtain ⟨code, h1, h2⟩ := h
  cases h2
  rw [secondPass_names _ _ _ h1]
  simp only [St.names, List.map_map]
  apply List.map_congr_left
  intro x _
  exact slotTy_name s x

theorem initialState_settled (file : AstFile) (pkg : String) (ts : List Transform) :
    (partitionTransforms ts (initialState file pkg)).settled ∧
    (partitionTransforms ts (initialState file pkg)).names = [] := by
  obtain ⟨h1, _⟩ := partitionTransforms_spec ts (initialState file pkg)
  constructor
  · intro x hx
    rw [h1] at hx
    simp [initialState] at hx
  · have h2 : (partitionTransforms ts (initialState file pkg)).Code = [] := by
      rw [h1]; rfl
    simp [St.names, h2]

theorem initialState_namesRel {R : String → String → Prop} (file : AstFile) (pkg : String)
    (ts : List Transform) (hts : ∀ tr ∈ ts, Transform.NamesRel R tr) :
    ∀ r ∈ (partitionTransforms ts (initialState file pkg)).transforms, TRef.NamesRel R r := by
  obtain ⟨_, _, _, _, h5, _⟩ := partitionTransforms_spec ts (initialState file pkg)
  intro r hr
  rcases h5 r hr with h | ⟨t, ht, rfl⟩
  · simp [initialState] at h
  · exact hts t ht

/-- The names of `Code` after the walk are not empty, when the declared names
are not and no `ModifyType` returns a type with an empty name for one with a
name. -/
theorem walk_names_nonempty (decls : List Decl) (s s1 : St)
    (h : walk decls s = .ok s1) (hs : s.settled)
    (hT : ∀ r ∈ s.transforms, TRef.NamesRel (fun a b => a ≠ "" → b ≠ "") r)
    (hdecl : ∀ n ∈ (allSpecs decls).flatMap specTypeNames, n ≠ "")
    (hn : ∀ n ∈ s.names, n ≠ "") : ∀ n ∈ s1.names, n ≠ "" := by
  rw [walk_eq_foldlM] at h
  have key := foldlM_except_rel (fun s1 p => walkSpec p.1 s1 p.2)
    (fun s l s1 => s.settled →
      (∀ r ∈ s.transforms, TRef.NamesRel (fun a b => a ≠ "" → b ≠ "") r) →
      (∀ n ∈ l.flatMap specTypeNames, n ≠ "") → (∀ n ∈ s.names, n ≠ "") →
      s1.settled ∧ (∀ r ∈ s1.transforms, TRef.NamesRel (fun a b => a ≠ "" → b ≠ "") r) ∧
      ∀ n ∈ s1.names, n ≠ "")
    (fun b hb hT _ hn => ⟨hb, hT, hn⟩)
    (by
      intro b l b1 a b2 ih hstep hb hbT hl hbn
      have hl1 : ∀ n ∈ l.flatMap specTypeNames, n ≠ "" := by
        intro n hn1
        apply hl n
        simp only [List.flatMap_append, List.mem_append]
        exact Or.inl hn1
      have ha : ∀ n ∈ specTypeNames a, n ≠ "" := by
        intro n hn1
        apply hl n
        simp only [List.flatMap_append, List.mem_append]
        right
        simpa using hn1
      obtain ⟨i1, i2, i3⟩ := ih hb hbT hl1 hbn
      obtain ⟨j1, j2, _, _, j5⟩ := walkSpec_evolves i1 i2 hstep
      refine ⟨j1, j2, ?_⟩
      obtain ⟨docs, sp⟩ := a
      cases sp with
      | importSpec n p =>
        simp only at j5
        rw [j5.2]
        exact i3
      | typeSpec name typ =>
        simp only at j5
        have hname : name ≠ "" := ha name (by simp [specTypeNames])
        rcases j5.2 with h | h
        · rw [h]; exact i3
        · refine nameReach_nonempty hname h ?_
          intro x hx
          rw [List.mem_append, List.mem_singleton] at hx
          rcases hx with hx | hx
          · exact i3 x hx
          · rw [hx]; exact hname
      | valueSpec =>
        simp only at j5
        rw [j5.2]
        exact i3)
    _ _ _ h
  exact (key hs hT hdecl hn).2.2

/-! ## Imports through the walk and the tracker -/

theorem importFromSpec_used (n : Option String) (v : String) :
    (ImportFromSpec n v).used = false := rfl

theorem importsIn_append (l1 l2 : List (String × Spec)) :
    importsIn (l1 ++ l2) = importsIn l1 ++ importsIn l2 := by
  simp [importsIn, List.filterMap_append]

/-- The imports after the walk: an import stored under a key was there before
or is declared by a spec gone through, has that key and is matched by no
exclusion; a key is present if it was before or some such spec has it. -/
theorem walk_imports (decls : List Decl) (s s1 : St) (h : walk decls s = .ok s1)
    (hs : s.settled) :
    s1.eximports = s.eximports ∧
    (∀ k v, s1.Imports k = some v → s.Imports k = some v ∨
      (v ∈ importsIn (allSpecs decls) ∧ importKey v = k ∧ ∀ m ∈ s.eximports, m v = false)) ∧
    (∀ k, (s1.Imports k).isSome = true ↔ (s.Imports k).isSome = true ∨
      ∃ v ∈ importsIn (allSpecs decls), importKey v = k ∧ ∀ m ∈ s.eximports, m v = false) := by
  rw [walk_eq_foldlM] at h
  have key := foldlM_except_rel (fun s1 p => walkSpec p.1 s1 p.2)
    (fun s l s1 => s.settled →
      s1.settled ∧ s1.eximports = s.eximports ∧
      (∀ k v, s1.Imports k = some v → s.Imports k = some v ∨
        (v ∈ importsIn l ∧ importKey v = k ∧ ∀ m ∈ s.eximports, m v = false)) ∧
      (∀ k, (s1.Imports k).isSome = true ↔ (s.Imports k).isSome = true ∨
        ∃ v ∈ importsIn l, importKey v = k ∧ ∀ m ∈ s.eximports, m v = false))
    (fun b hb => ⟨hb, rfl, fun k v hv => Or.inl hv, fun k => by simp [importsIn]⟩)
    (by
      intro b l b1 a b2 ih hstep hb
      obtain ⟨i1, i2, i3, i4⟩ := ih hb
      obtain ⟨j1, _, j3, _, j5⟩ :=
        walkSpec_evolves (R := fun _ _ => True) i1 (fun r _ => tref_namesRel_true r) hstep
      refine ⟨j1, j3.trans i2, ?_, ?_⟩
      · intro k v hv
        obtain ⟨docs, sp⟩ := a
        cases sp with
        | importSpec n p =>
          simp only at j5
          rw [j5.1] at hv
          unfold walkImportSpec at hv
          split at hv
          · rcases i3 k v hv with h | ⟨h1, h2, h3⟩
            · exact Or.inl h
            · exact Or.inr ⟨by rw [importsIn_append]; exact List.mem_append_left _ h1, h2, h3⟩
          · rename_i hany
            simp only at hv
            split at hv
            · rename_i hk
              cases hv
              right
              refine ⟨?_, hk.symm, ?_⟩
              · rw [importsIn_append]
                apply List.mem_append_right
                simp [importsIn]
              · intro m hm
                rw [← i2] at hm
                simp only [List.any_eq_true, not_exists, not_and, Bool.not_eq_true] at hany
                exact hany m hm
            · rcases i3 k v hv with h | ⟨h1, h2, h3⟩
              · exact Or.inl h
              · exact Or.inr ⟨by rw [importsIn_append]; exact List.mem_append_left _ h1, h2, h3⟩
        | typeSpec name typ =>
          simp only at j5
          rw [j5.1] at hv
          rcases i3 k v hv with h | ⟨h1, h2, h3⟩
          · exact Or.inl h
          · exact Or.inr ⟨by rw [importsIn_append]; exact List.mem_append_left _ h1, h2, h3⟩
        | valueSpec =>
          simp only at j5
          rw [j5.1] at hv
          rcases i3 k v hv with h | ⟨h1, h2, h3⟩
          · exact Or.inl h
          · exact Or.inr ⟨by rw [importsIn_append]; exact List.mem_append_left _ h1, h2, h3⟩
      · intro k
        obtain ⟨docs, sp⟩ := a
        have hold : ((b1.Imports k).isSome = true ∨
            ∃ v ∈ importsIn [(docs, sp)], importKey v = k ∧ ∀ m ∈ b.eximports, m v = false) ↔
            ((b.Imports k).isSome = true ∨
            ∃ v ∈ importsIn (l ++ [(docs, sp)]), importKey v = k ∧
              ∀ m ∈ b.eximports, m v = false) := by
          rw [i4 k, importsIn_append]
          constructor
          · rintro ((h | ⟨v, h1, h2⟩) | ⟨v, h1, h2⟩)
            · exact Or.inl h
            · exact Or.inr ⟨v, List.mem_append_left _ h1, h2⟩
            · exact Or.inr ⟨v, List.mem_append_right _ h1, h2⟩
          · rintro (h | ⟨v, h1, h2⟩)
            · exact Or.inl (Or.inl h)
            · rcases List.mem_append.1 h1 with h1 | h1
              · exact Or.inl (Or.inr ⟨v, h1, h2⟩)
              · exact Or.inr ⟨v, h1, h2⟩
        rw [← hold]
        cases sp with
        | importSpec n p =>
          simp only at j5
          rw [j5.1]
          unfold walkImportSpec
          split
          · rename_i hany
            constructor
            · exact fun h => Or.inl h
            · rintro (h | ⟨v, h1, h2, h3⟩)
              · exact h
              · exfalso
                simp only [importsIn, List.filterMap_cons, List.filterMap_nil,
                  List.mem_singleton] at h1
                subst h1
                simp only [List.any_eq_true] at hany
                obtain ⟨m, hm, hmv⟩ := hany
                rw [i2] at hm
                rw [h3 m hm] at hmv
                exact Bool.noConfusion hmv
          · rename_i hany
            simp only
            split
            · rename_i hk
              simp only [Option.isSome_some, true_iff]
              right
              refine ⟨_, by simp [importsIn], hk.symm, ?_⟩
              intro m hm
              rw [← i2] at hm
              simp only [List.any_eq_true, not_exists, not_and, Bool.not_eq_true] at hany
              exact hany m hm
            · rename_i hk
              constructor
              · exact fun h => Or.inl h
              · rintro (h | ⟨v, h1, h2, _⟩)
                · exact h
                · exfalso
                  simp only [importsIn, List.filterMap_cons, List.filterMap_nil,
                    List.mem_singleton] at h1
                  subst h1
                  exact hk h2.symm
        | typeSpec name typ =>
          simp only at j5
          rw [j5.1]
          simp [importsIn]
        | valueSpec =>
          simp only at j5
          rw [j5.1]
          simp [importsIn])
    _ _ _ h
  obtain ⟨_, k2, k3, k4⟩ := key hs
  exact ⟨k2, k3, k4⟩

theorem importsIn_used {l : List (String × Spec)} {v : Import} (h : v ∈ importsIn l) :
    v.used = false := by
  simp only [importsIn, List.mem_filterMap] at h
  obtain ⟨p, _, hp⟩ := h
  split at hp
  · cases hp; rfl
  · cases hp

/-- The mark the tracker sets for one type name. -/
theorem markUsed_apply (M : String → Option Import) (n k : String) :
    markUsed M n k =
      (M k).map (fun v => if qualifier n = some k then { v with used := true } else v) := by
  unfold markUsed
  cases hq : qualifier n with
  | none => simp
  | some q =>
    simp only
    cases hM : M q with
    | none =>
      by_cases hk : q = k
      · subst hk; simp [hM]
      · have : ¬ (some q = some k) := fun h => hk (Option.some.inj h)
        simp [this]
    | some imp =>
      by_cases hk : k = q
      · subst hk; simp [hM]
      · have : ¬ (some q = some k) := fun h => hk (Option.some.inj h).symm
        simp [hk, this]

/-- The marks the tracker sets for a list of type names. -/
theorem foldl_markUsed_apply (names : List String) :
    ∀ (M : String → Option Import) (k : String),
      names.foldl markUsed M k =
        (M k).map (fun v =>
          if names.any (fun n => decide (qualifier n = some k)) = true then
            { v with used := true } else v) := by
  induction names with
  | nil => intro M k; simp
  | cons n rest ih =>
    intro M k
    rw [List.foldl_cons, ih, markUsed_apply]
    cases M k with
    | none => rfl
    | some v =>
      simp only [Option.map_some', List.any_cons, Bool.or_eq_true, decide_eq_true_eq]
      by_cases h1 : qualifier n = some k <;>
        by_cases h2 : rest.any (fun n => decide (qualifier n = some k)) = true <;>
        simp [h1, h2]

theorem fileFromAST_ok {file : AstFile} {pkg : String} {ts : List Transform} {out : File}
    (h : FileFromAST file pkg ts = .ok out) :
    ∃ s, walk file.Decls (partitionTransforms ts (initialState file pkg)) = .ok s ∧
      finish s = .ok out := by
  unfold FileFromAST at h
  rw [except_bind_eq_ok] at h
  exact h

theorem finish_imports {s : St} {out : File} (h : finish s = .ok out) :
    out.Imports = pruneUnused (trackCode s.Imports out.Code) := by
  unfold finish at h
  rw [except_map_eq_ok] at h
  obtain ⟨code, _, h2⟩ := h
  cases h2
  rfl

/-- The imports after the walk of `FileFromAST`: declared by the file, stored
under their key, matched by no `ExcludeImport` of the list, not yet marked. -/
theorem walk_imports_of_file {file : AstFile} {pkg : String} {ts : List Transform} {s : St}
    (h : walk file.Decls (partitionTransforms ts (initialState file pkg)) = .ok s) :
    (∀ k v, s.Imports k = some v →
      v ∈ importsOf file ∧ importKey v = k ∧ v.used = false ∧
        ∀ m, Transform.excludeImport m ∈ ts → m v = false) ∧
    (∀ k, (s.Imports k).isSome = true ↔
      ∃ v ∈ importsOf file, importKey v = k ∧
        ∀ m, Transform.excludeImport m ∈ ts → m v = false) := by
  obtain ⟨_, w2, w3⟩ := walk_imports _ _ _ h (initialState_settled file pkg ts).1
  obtain ⟨_, p2, _, _, _, p6⟩ := partitionTransforms_spec ts (initialState file pkg)
  have hex : ∀ m, m ∈ (partitionTransforms ts (initialState file pkg)).eximports ↔
      Transform.excludeImport m ∈ ts := by
    intro m
    rw [p6 m]
    simp [initialState]
  have hnone : ∀ k, (partitionTransforms ts (initialState file pkg)).Imports k = none := by
    intro k
    rw [p2]
    rfl
  constructor
  · intro k v hv
    rcases w2 k v hv with h1 | ⟨h1, h2, h3⟩
    · rw [hnone k] at h1
      cases h1
    · exact ⟨h1, h2, importsIn_used h1, fun m hm => h3 m ((hex m).2 hm)⟩
  · intro k
    rw [w3 k, hnone k]
    constructor
    · rintro (h1 | ⟨v, h1, h2, h3⟩)
      · cases h1
      · exact ⟨v, h1, h2, fun m hm => h3 m ((hex m).2 hm)⟩
    · rintro ⟨v, h1, h2, h3⟩
      exact Or.inr ⟨v, h1, h2, fun m hm => h3 m ((hex m).1 hm)⟩

/-- An import of the output: an import the walk stored and did not mark,
marked by the tracker because a type name of the output code has its key as
qualifier. -/
theorem output_import {file : AstFile} {pkg : String} {ts : List Transform} {out : File}
    (h : FileFromAST file pkg ts = .ok out) (k : String) (v : Import) :
    out.Imports k = some v ↔
      ∃ v0, v = { v0 with used := true } ∧ v0 ∈ importsOf file ∧ v0.used = false ∧
        (∃ s, walk file.Decls (partitionTransforms ts (initialState file pkg)) = .ok s ∧
          s.Imports k = some v0) ∧
        (out.Code.flatMap trackedNames).any (fun n => decide (qualifier n = some k)) = true := by
  obtain ⟨s, hw, hf⟩ := fileFromAST_ok h
  obtain ⟨w1, _⟩ := walk_imports_of_file hw
  rw [finish_imports hf]
  unfold pruneUnused trackCode
  rw [foldl_markUsed_apply]
  constructor
  · intro hv
    cases hk : s.Imports k with
    | none => rw [hk] at hv; simp at hv
    | some v0 =>
      rw [hk] at hv
      obtain ⟨m1, _, m3, _⟩ := w1 k v0 hk
      by_cases hany :
          (out.Code.flatMap trackedNames).any (fun n => decide (qualifier n = some k)) = true
      · simp only [Option.map_some', hany, if_true] at hv
        simp only [Option.filter, if_true, Option.some.injEq] at hv
        exact ⟨v0, hv.symm, m1, m3, ⟨s, hw, hk⟩, hany⟩
      · simp only [Option.map_some', hany] at hv
        simp [Option.filter, m3] at hv
  · rintro ⟨v0, rfl, _, _, ⟨s2, hw2, hk⟩, hany⟩
    rw [hw] at hw2
    cases hw2
    rw [hk]
    simp [hany, Option.filter]

/-! ## Filters of the fields and clean types -/

theorem getD_append_length {α : Type} (l : List α) (x d : α) :
    (l ++ [x]).getD l.length d = x := by
  induction l with
  | nil => rfl
  | cons a l ih => simp [ih]

theorem quiet_refl (s : St) : Quiet s s := ⟨rfl, rfl, rfl, rfl, rfl⟩

theorem quiet_trans {s1 s2 s3 : St} (h1 : Quiet s1 s2) (h2 : Quiet s2 s3) : Quiet s1 s3 :=
  ⟨h2.1.trans h1.1, h2.2.1.trans h1.2.1, h2.2.2.1.trans h1.2.2.1,
    h2.2.2.2.1.trans h1.2.2.2.1, h2.2.2.2.2.trans h1.2.2.2.2⟩

/-- Effect of `filterFields` on the state: the struct behind `t` keeps name and doc and
holds the fields that pass, in order. -/
theorem filterFields_spec (keep : Field → Bool) (s : St) :
    Quiet s (filterFields keep s) ∧ (filterFields keep s).Code = s.Code ∧
    ((∃ t, s.cur = .plainLike t ∧ filterFields keep s = s) ∨
     (∃ n d a a1, s.cur = .struct n d a ∧ (filterFields keep s).cur = .struct n d a1 ∧
        (filterFields keep s).fieldsOf a1 = (s.fieldsOf a).filter keep)) := by
  unfold filterFields
  split
  · rename_i t hcur
    exact ⟨quiet_refl s, rfl, Or.inl ⟨t, hcur, rfl⟩⟩
  · rename_i n d a hcur
    refine ⟨⟨rfl, rfl, rfl, rfl, rfl⟩, rfl, Or.inr ⟨n, d, a, s.arrs.length, hcur, rfl, ?_⟩⟩
    simp only [St.fieldsOf, getD_append_length, St.fieldAt, List.filter_map]
    rfl

theorem curTy_struct {s : St} {n d : String} {a : Nat} (h : s.cur = .struct n d a) :
    s.curTy = .struct n d (s.fieldsOf a) := by
  unfold St.curTy
  rw [h]

theorem curTy_plainLike {s : St} {t : Ty} (h : s.cur = .plainLike t) : s.curTy = t := by
  unfold St.curTy
  rw [h]

theorem map_slotTy_of_settled {s : St} {l : List Slot} (hl : ∀ x ∈ l, x ≠ Slot.cur) :
    l.map (fun x => Slot.val (s.slotTy x)) = l := by
  induction l with
  | nil => rfl
  | cons x l ih =>
    simp only [List.map_cons, List.cons.injEq]
    refine ⟨?_, ih (fun y hy => hl y (List.mem_cons_of_mem _ hy))⟩
    cases x with
    | val t => rfl
    | cur => exact absurd rfl (hl _ (List.mem_cons_self _ _))

theorem structIdxFrom_none (name : String) :
    ∀ (l : List Ty) (i idx : Nat),
      (∀ j t, l.get? j = some t → t.GetName ≠ name) → structIdxFrom name i idx l = idx := by
  intro l
  induction l with
  | nil => intro i idx _; rfl
  | cons a l ih =>
    intro i idx h
    have ha : a.GetName ≠ name := h 0 a rfl
    simp only [structIdxFrom, if_neg ha]
    exact ih _ _ (fun j t hj => h (j + 1) t hj)

/-- Index `structIdx` is the index of the last entry with the name. -/
theorem structIdxFrom_last (name : String) :
    ∀ (l : List Ty) (i idx j : Nat) (t : Ty), l.get? j = some t → t.GetName = name →
      (∀ j1 t1, j < j1 → l.get? j1 = some t1 → t1.GetName ≠ name) →
      structIdxFrom name i idx l = i + j := by
  intro l
  induction l with
  | nil => intro i idx j t h; simp at h
  | cons a l ih =>
    intro i idx j t hj ht hlast
    cases j with
    | zero =>
      simp only [List.get?_cons_zero, Option.some.injEq] at hj
      subst hj
      simp only [structIdxFrom, if_pos ht, Nat.add_zero]
      exact structIdxFrom_none name l _ _
        (fun j1 t1 h1 => hlast (j1 + 1) t1 (Nat.succ_pos _) h1)
    | succ j =>
      simp only [List.get?_cons_succ] at hj
      simp only [structIdxFrom]
      rw [ih (i + 1) _ j t hj ht
        (fun j1 t1 hlt h1 => hlast (j1 + 1) t1 (Nat.succ_lt_succ hlt) h1)]
      omega

/-- Index `fieldIdx` is the index of the first field with the name. -/
theorem fieldIdxFrom_first (name : String) :
    ∀ (l : List Field) (i p : Nat) (fld : Field), l.get? p = some fld → fld.GetName = name →
      (∀ p1 f1, p1 < p → l.get? p1 = some f1 → f1.GetName ≠ name) →
      fieldIdxFrom name i l = i + p := by
  intro l
  induction l with
  | nil => intro i p fld h; simp at h
  | cons a l ih =>
    intro i p fld hp hf hfirst
    cases p with
    | zero =>
      simp only [List.get?_cons_zero, Option.some.injEq] at hp
      subst hp
      simp only [fieldIdxFrom, if_pos hf, Nat.add_zero]
    | succ p =>
      simp only [List.get?_cons_succ] at hp
      have ha : a.GetName ≠ name := hfirst 0 a (Nat.succ_pos _) rfl
      simp only [fieldIdxFrom, if_neg ha]
      rw [ih (i + 1) p fld hp hf
        (fun p1 f1 hlt h1 => hfirst (p1 + 1) f1 (Nat.succ_lt_succ hlt) h1)]
      omega

theorem secondPass_append (pre post : List CopyIntoStruct) (code : List Ty) :
    secondPass (pre ++ post) code = (secondPass pre code).bind (secondPass post) := by
  unfold secondPass
  exact foldlM_except_append _ _ _ _

theorem foldl_appendField (raws : List RawField) :
    ∀ acc : List Field, raws.foldl appendField acc = acc ++ keptFields raws := by
  induction raws with
  | nil => intro acc; simp [keptFields]
  | cons raw raws ih =>
    intro acc
    rw [List.foldl_cons, ih]
    cases hT : raw.Typ with
    | none => simp [appendField, keptFields, RawField.toField, hT]
    | some t => simp [appendField, keptFields, RawField.toField, hT]

/-- The function `liftFields` returns exactly when `FieldFromSpec` returns for every field
spec, with the results in source order. -/
theorem liftFields_eq_ok (fields : List AstField) :
    ∀ raws : List RawField, liftFields fields = .ok raws ↔
      List.Forall₂ (fun f raw => FieldFromSpec f = .ok raw) fields raws := by
  induction fields with
  | nil =>
    intro raws
    simp only [liftFields]
    constructor
    · intro h
      cases h
      exact List.Forall₂.nil
    · intro h
      cases h
      rfl
  | cons f rest ih =>
    intro raws
    simp only [liftFields]
    rw [except_bind_eq_ok]
    constructor
    · rintro ⟨raw, h1, h2⟩
      rw [except_bind_eq_ok] at h2
      obtain ⟨raws1, h3, h4⟩ := h2
      cases h4
      exact List.Forall₂.cons h1 ((ih raws1).1 h3)
    · intro h
      cases h with
      | cons h1 h2 =>
        rename_i raw raws1
        refine ⟨raw, h1, ?_⟩
        rw [except_bind_eq_ok]
        exact ⟨raws1, (ih raws1).2 h2, rfl⟩

/-- The parts of a result of `FieldFromSpec`: the lift of the type of the spec
under the names and the doc of the spec, and the parsed tag. -/
theorem fieldFromSpec_eq_ok (f : AstField) (raw : RawField) :
    FieldFromSpec f = .ok raw ↔
      ParseExpr f.Names (DocsFromCommentGroup f.Doc) f.Typ = .ok raw.Typ ∧
      parseTag f.Tag = .ok raw.Tags := by
  cases f with
  | mk doc names typ tag =>
    simp only [FieldFromSpec, AstField.Names, AstField.Doc, AstField.Typ, AstField.Tag]
    rw [except_bind_eq_ok]
    constructor
    · rintro ⟨t, h1, h2⟩
      rw [except_bind_eq_ok] at h2
      obtain ⟨tags, h3, h4⟩ := h2
      cases h4
      exact ⟨h1, h3⟩
    · rintro ⟨h1, h2⟩
      refine ⟨raw.Typ, h1, ?_⟩
      rw [except_bind_eq_ok]
      exact ⟨raw.Tags, h2, rfl⟩

/-- The lift of a struct body. -/
theorem parseExpr_struct (names : List String) (docs : String) (fields : List AstField)
    (r : Option Ty) :
    ParseExpr names docs (.structType fields) = .ok r ↔
      ∃ raws, List.Forall₂ (fun f raw => FieldFromSpec f = .ok raw) fields raws ∧
        r = some (.struct (firstName names) docs (keptFields raws)) := by
  simp only [ParseExpr]
  rw [except_bind_eq_ok]
  constructor
  · rintro ⟨raws, h1, h2⟩
    cases h2
    refine ⟨raws, (liftFields_eq_ok fields raws).1 h1, ?_⟩
    rw [foldl_appendField]
    rfl
  · rintro ⟨raws, h1, rfl⟩
    refine ⟨raws, (liftFields_eq_ok fields raws).2 h1, ?_⟩
    rw [foldl_appendField]
    rfl

theorem parseExpr_docs {names : List String} {docs : String} {e : Expr} {t : Ty}
    (h : ParseExpr names docs e = .ok (some t)) : t.GetDocs = docs := by
  cases e <;> simp only [ParseExpr] at h
  case structType fields =>
    rw [except_bind_eq_ok] at h
    obtain ⟨raws, _, h2⟩ := h
    cases h2
    rfl
  all_goals first
    | (cases h; rfl)
    | cases h

/-- The names of the kept fields are the first names of the specs kept. -/
theorem keptFields_names (fields : List AstField) (raws : List RawField)
    (h : List.Forall₂ (fun f raw => FieldFromSpec f = .ok raw) fields raws) :
    ∃ kept : List AstField, List.Sublist kept fields ∧
      (keptFields raws).map Field.GetName = kept.map (fun f => firstName f.Names) ∧
      ∀ f ∈ kept, ∃ t, ParseExpr f.Names (DocsFromCommentGroup f.Doc) f.Typ = .ok (some t) := by
  induction h with
  | nil => exact ⟨[], List.Sublist.slnil, rfl, fun f hf => absurd hf (List.not_mem_nil _)⟩
  | @cons f raw fs raws1 h1 _ ih =>
    obtain ⟨kept, k1, k2, k3⟩ := ih
    have hp := ((fieldFromSpec_eq_ok f raw).1 h1).1
    cases hT : raw.Typ with
    | none =>
      refine ⟨kept, List.Sublist.cons f k1, ?_, k3⟩
      simpa [keptFields, RawField.toField, hT] using k2
    | some t =>
      rw [hT] at hp
      refine ⟨f :: kept, List.Sublist.cons₂ f k1, ?_, ?_⟩
      · have hname : t.GetName = firstName f.Names := parseExpr_name hp
        simp only [keptFields, List.filterMap_cons, RawField.toField, hT, Option.map_some',
          List.map_cons, Field.GetName, Field.Typ, hname, List.cons.injEq, true_and]
        simpa [keptFields, Field.GetName] using k2
      · intro f1 hf1
        rcases List.mem_cons.1 hf1 with rfl | hf1
        · exact ⟨t, hp⟩
        · exact k3 f1 hf1

mutual
/-- The lift returns on an expression whose tag literals parse. -/
theorem parseExpr_returns (names : List String) (docs : String) :
    ∀ e : Expr, e.tagsParse = true → ∃ r, ParseExpr names docs e = .ok r
  | .ident _, _ => ⟨_, by rw [ParseExpr]⟩
  | .selectorExpr _ _, _ => ⟨_, by rw [ParseExpr]⟩
  | .starExpr _, _ => ⟨_, by rw [ParseExpr]⟩
  | .arrayType _, _ => ⟨_, by rw [ParseExpr]⟩
  | .mapType _ _, _ => ⟨_, by rw [ParseExpr]⟩
  | .structType fields, h => by
    have h1 : tagsParseAll fields = true := by
      simpa only [Expr.tagsParse] using h
    obtain ⟨raws, hr⟩ := liftFields_returns fields h1
    exact ⟨_, by rw [ParseExpr, hr]; rfl⟩
  | .interfaceType, _ => ⟨_, by rw [ParseExpr]⟩
  | .funcType, _ => ⟨_, by rw [ParseExpr]⟩
  | .other, _ => ⟨_, by rw [ParseExpr]⟩
/-- The lift of the field specs returns when their tag literals parse. -/
theorem liftFields_returns :
    ∀ fields : List AstField, tagsParseAll fields = true → ∃ raws, liftFields fields = .ok raws
  | [], _ => ⟨[], by rw [liftFields]⟩
  | f :: rest, h => by
    have h1 : f.tagsParse = true ∧ tagsParseAll rest = true := by
      simpa only [tagsParseAll, Bool.and_eq_true] using h
    obtain ⟨raw, hraw⟩ := fieldFromSpec_returns f h1.1
    obtain ⟨raws, hraws⟩ := liftFields_returns rest h1.2
    exact ⟨raw :: raws, by rw [liftFields, hraw, hraws]; rfl⟩
/-- The lift of a field spec returns when its tag literals parse. -/
theorem fieldFromSpec_returns :
    ∀ f : AstField, f.tagsParse = true → ∃ raw, FieldFromSpec f = .ok raw
  | .mk doc names typ tag, h => by
    have h1 : typ.tagsParse = true ∧ (parseTag tag).toBool = true := by
      simpa only [AstField.tagsParse, Bool.and_eq_true] using h
    obtain ⟨t, ht⟩ := parseExpr_returns names (DocsFromCommentGroup doc) typ h1.1
    cases hp : parseTag tag with
    | error e =>
      rw [hp] at h1
      exact absurd h1.2 (by simp [Except.toBool])
    | ok tags =>
      exact ⟨⟨t, tags⟩, by rw [FieldFromSpec, ht, hp]; rfl⟩
end

/-! ## Keys and qualifiers -/

theorem takeWhile_append_stop {α : Type} (p : α → Bool) (c : α) (hc : p c = false) :
    ∀ (l rest : List α), (∀ x ∈ l, p x = true) → (l ++ c :: rest).takeWhile p = l := by
  intro l
  induction l with
  | nil => intro rest _; simp [List.takeWhile, hc]
  | cons a l ih =>
    intro rest h
    have ha : p a = true := h a (List.mem_cons_self _ _)
    simp only [List.cons_append, List.takeWhile, ha, List.cons.injEq, true_and]
    exact ih rest (fun x hx => h x (List.mem_cons_of_mem _ hx))

theorem takeWhile_all {α : Type} (p : α → Bool) :
    ∀ l : List α, (∀ x ∈ l, p x = true) → l.takeWhile p = l := by
  intro l
  induction l with
  | nil => intro _; rfl
  | cons a l ih =>
    intro h
    have ha : p a = true := h a (List.mem_cons_self _ _)
    simp only [List.takeWhile, ha, List.cons.injEq, true_and]
    exact ih (fun x hx => h x (List.mem_cons_of_mem _ hx))

/-- The text after the last `c` of a text without `c` is the text. -/
theorem afterLast_of_not_mem (c : Char) (s : List Char) (h : c ∉ s) : afterLast c s = s := by
  unfold afterLast
  rw [takeWhile_all, List.reverse_reverse]
  intro x hx
  have hx1 : x ∈ s := List.mem_reverse.1 hx
  have : x ≠ c := fun e => h (e ▸ hx1)
  simpa using this

/-- The text after the last `c`: what follows a `c` and holds no `c`. -/
theorem afterLast_append (c : Char) (pre suf : List Char) (h : c ∉ suf) :
    afterLast c (pre ++ c :: suf) = suf := by
  unfold afterLast
  have hrev : (pre ++ c :: suf).reverse = suf.reverse ++ c :: pre.reverse := by simp
  rw [hrev, takeWhile_append_stop _ c (by simp), List.reverse_reverse]
  intro x hx
  have hx1 : x ∈ suf := List.mem_reverse.1 hx
  have : x ≠ c := fun e => h (e ▸ hx1)
  simpa using this

/-- The text before the first `c`: what precedes a `c` and holds no `c`. -/
theorem prefixBefore_append (c : Char) :
    ∀ (a b : List Char), c ∉ a → prefixBefore c (a ++ c :: b) = some a := by
  intro a
  induction a with
  | nil => intro b _; simp [prefixBefore]
  | cons x a ih =>
    intro b h
    have hx : x ≠ c := fun e => h (e ▸ List.mem_cons_self _ _)
    have ha : c ∉ a := fun e => h (List.mem_cons_of_mem _ e)
    have e := ih b ha
    show prefixBefore c (x :: (a ++ c :: b)) = some (x :: a)
    rw [prefixBefore, if_neg hx, e]
    rfl

theorem removeAll_replicate_append (c : Char) (n : Nat) (k : List Char) (h : c ∉ k) :
    removeAll c (List.replicate n c ++ k) = k := by
  unfold removeAll
  rw [List.filter_append]
  have h1 : (List.replicate n c).filter (fun x => x ≠ c) = [] := by
    rw [List.filter_eq_nil_iff]
    intro x hx
    have := List.eq_of_mem_replicate hx
    simp [this]
  have h2 : k.filter (fun x => x ≠ c) = k := by
    rw [List.filter_eq_self]
    intro x hx
    have : x ≠ c := fun e => h (e ▸ hx)
    simpa using this
  rw [h1, h2, List.nil_append]

theorem string_mk_toList (s : String) : String.mk s.toList = s := by
  cases s
  rfl

theorem lastWithKey_append (k : String) (imp : Import) :
    ∀ l : List Import,
      lastWithKey k (l ++ [imp]) = if importKey imp = k then some imp else lastWithKey k l := by
  intro l
  induction l with
  | nil => simp [lastWithKey]
  | cons a l ih =>
    show lastWithKey k (a :: (l ++ [imp])) = _
    rw [lastWithKey, ih]
    by_cases h : importKey imp = k
    · simp [h]
    · simp [h, lastWithKey]

/-! ## The import stored under a key -/

theorem excludedBy_eq_true (ts : List Transform) (imp : Import) :
    excludedBy ts imp = true ↔ ∃ m, Transform.excludeImport m ∈ ts ∧ m imp = true := by
  unfold excludedBy
  rw [List.any_eq_true]
  constructor
  · rintro ⟨t, ht, hm⟩
    cases t <;> simp only at hm <;> first
      | exact absurd hm Bool.false_ne_true
      | exact ⟨_, ht, hm⟩
  · rintro ⟨m, hm, hmi⟩
    exact ⟨_, hm, hmi⟩

theorem eximports_any (file : AstFile) (pkg : String) (ts : List Transform) (imp : Import) :
    (partitionTransforms ts (initialState file pkg)).eximports.any (fun m => m imp)
      = excludedBy ts imp := by
  obtain ⟨_, _, _, _, _, p6⟩ := partitionTransforms_spec ts (initialState file pkg)
  rw [Bool.eq_iff_iff, excludedBy_eq_true, List.any_eq_true]
  constructor
  · rintro ⟨m, hm, hmi⟩
    rcases (p6 m).1 hm with h | h
    · simp [initialState] at h
    · exact ⟨m, h, hmi⟩
  · rintro ⟨m, hm, hmi⟩
    exact ⟨m, (p6 m).2 (Or.inr hm), hmi⟩

theorem walkImportSpec_excluded {n : Option String} {p : String} {s : St}
    (h : s.eximports.any (fun m => m (ImportFromSpec n p)) = true) :
    walkImportSpec n p s = s := by
  unfold walkImportSpec
  rw [if_pos h]

theorem walkImportSpec_kept {n : Option String} {p : String} {s : St}
    (h : s.eximports.any (fun m => m (ImportFromSpec n p)) = false) (k : String) :
    (walkImportSpec n p s).Imports k =
      if k = importKey (ImportFromSpec n p) then some (ImportFromSpec n p)
      else s.Imports k := by
  unfold walkImportSpec
  rw [if_neg (by rw [h]; exact Bool.false_ne_true)]

theorem filter_single_false {α : Type} (q : α → Bool) (x : α) (h : q x = false) :
    [x].filter q = [] := by
  simp [List.filter, h]

theorem filter_single_true {α : Type} (q : α → Bool) (x : α) (h : q x = true) :
    [x].filter q = [x] := by
  simp [List.filter, h]

/-- The imports after the walk: under a key stands the import of the last
spec gone through that has the key and is matched by no exclusion, or what
stood there before when there is no such spec. -/
theorem walk_imports_last (decls : List Decl) (s s1 : St) (h : walk decls s = .ok s1)
    (hs : s.settled) (k : String) :
    s1.Imports k =
      match lastWithKey k ((importsIn (allSpecs decls)).filter
          (fun imp => !(s.eximports.any (fun m => m imp)))) with
      | some v => some v
      | none => s.Imports k := by
  rw [walk_eq_foldlM] at h
  have key := foldlM_except_rel (fun s1 p => walkSpec p.1 s1 p.2)
    (fun s l s1 => s.settled →
      s1.settled ∧ s1.eximports = s.eximports ∧
      ∀ k, s1.Imports k =
        match lastWithKey k ((importsIn l).filter
            (fun imp => !(s.eximports.any (fun m => m imp)))) with
        | some v => some v
        | none => s.Imports k)
    (fun b hb => ⟨hb, rfl, fun k => rfl⟩)
    (by
      intro b l b1 a b2 ih hstep hb
      obtain ⟨i1, i2, i3⟩ := ih hb
      obtain ⟨j1, _, j3, _, j5⟩ :=
        walkSpec_evolves (R := fun _ _ => True) i1 (fun r _ => tref_namesRel_true r) hstep
      refine ⟨j1, j3.trans i2, ?_⟩
      intro k
      rw [importsIn_append, List.filter_append]
      obtain ⟨docs, sp⟩ := a
      cases sp with
      | importSpec n p =>
        simp only at j5
        rw [j5.1]
        have hsingle : importsIn [(docs, Spec.importSpec n p)] = [ImportFromSpec n p] := rfl
        rw [hsingle]
        cases hany : b.eximports.any (fun m => m (ImportFromSpec n p)) with
        | true =>
          rw [walkImportSpec_excluded (by rw [i2]; exact hany),
            filter_single_false _ _ (by simp [hany]), List.append_nil]
          exact i3 k
        | false =>
          rw [walkImportSpec_kept (by rw [i2]; exact hany),
            filter_single_true _ _ (by simp [hany]), lastWithKey_append]
          by_cases hk : importKey (ImportFromSpec n p) = k
          · rw [if_pos hk, if_pos hk.symm]
          · rw [if_neg hk, if_neg (fun e => hk e.symm)]
            exact i3 k
      | typeSpec name typ =>
        simp only at j5
        rw [j5.1]
        have hsingle : importsIn [(docs, Spec.typeSpec name typ)] = [] := rfl
        rw [hsingle, List.filter_nil, List.append_nil]
        exact i3 k
      | valueSpec =>
        simp only at j5
        rw [j5.1]
        have hsingle : importsIn [(docs, Spec.valueSpec)] = [] := rfl
        rw [hsingle, List.filter_nil, List.append_nil]
        exact i3 k)
    _ _ _ h
  exact (key hs).2.2 k

/-! ## The lists of transforms only grow -/

theorem grows_refl (s : St) : Grows s s := ⟨⟨[], by simp⟩, ⟨[], by simp⟩⟩

theorem grows_trans {s1 s2 s3 : St} (h1 : Grows s1 s2) (h2 : Grows s2 s3) : Grows s1 s3 := by
  obtain ⟨⟨e1, h11⟩, ⟨e2, h12⟩⟩ := h1
  obtain ⟨⟨e3, h21⟩, ⟨e4, h22⟩⟩ := h2
  exact ⟨⟨e1 ++ e3, by rw [h21, h11, List.append_assoc]⟩,
    ⟨e2 ++ e4, by rw [h22, h12, List.append_assoc]⟩⟩

theorem grows_of_eq {s s1 : St} (ht : s1.transforms = s.transforms)
    (hc : s1.copies = s.copies) : Grows s s1 :=
  ⟨⟨[], by rw [ht, List.append_nil]⟩, ⟨[], by rw [hc, List.append_nil]⟩⟩

theorem dropLastCode_lists {s s1 : St} (h : dropLastCode s = .ok s1) :
    s1.transforms = s.transforms ∧ s1.copies = s.copies ∧ s1.store = s.store := by
  unfold dropLastCode at h
  split at h
  · cases h
  · cases h
    exact ⟨rfl, rfl, rfl⟩

theorem setLastCode_lists {x : Slot} {s s1 : St} (h : setLastCode x s = .ok s1) :
    s1.transforms = s.transforms ∧ s1.copies = s.copies ∧ s1.store = s.store := by
  unfold setLastCode at h
  split at h
  · cases h
  · cases h
    exact ⟨rfl, rfl, rfl⟩

theorem filterFields_lists (keep : Field → Bool) (s : St) :
    (filterFields keep s).transforms = s.transforms ∧
    (filterFields keep s).copies = s.copies ∧ (filterFields keep s).store = s.store := by
  unfold filterFields
  split <;> exact ⟨rfl, rfl, rfl⟩

theorem evalCopy_lists {idx : Nat} {s s1 : St} {b : Bool} (h : evalCopy idx s = .ok (b, s1)) :
    s1.transforms = s.transforms ∧ s1.copies = s.copies ∧ s1.store = s.store := by
  unfold evalCopy at h
  split at h
  · cases h
    exact ⟨rfl, rfl, rfl⟩
  · split at h
    · rw [except_map_eq_ok] at h
      obtain ⟨s2, h2, h3⟩ := h
      cases h3
      have h4 := dropLastCode_lists h2
      exact h4
    · cases h
      exact ⟨rfl, rfl, rfl⟩

theorem evalModifyType_lists {apply : Ty → Ty} {s s1 : St} {b : Bool}
    (h : evalModifyType apply s = .ok (b, s1)) :
    s1.transforms = s.transforms ∧ s1.copies = s.copies ∧ s1.store = s.store := by
  unfold evalModifyType at h
  split at h <;>
    (rw [except_map_eq_ok] at h
     obtain ⟨s2, h2, h3⟩ := h
     cases h3
     have h4 := setLastCode_lists h2
     exact h4)

theorem evalModifyField_lists {apply : Field → Field} {s s1 : St} {b : Bool}
    (h : evalModifyField apply s = .ok (b, s1)) :
    s1.transforms = s.transforms ∧ s1.copies = s.copies ∧ s1.store = s.store := by
  unfold evalModifyField at h
  split at h
  · cases h
    exact ⟨rfl, rfl, rfl⟩
  · rw [except_map_eq_ok] at h
    obtain ⟨s2, h2, h3⟩ := h
    cases h3
    have h4 := setLastCode_lists h2
    exact h4

theorem evalExcludeType_lists {m : Node → Bool} {s s1 : St} {b : Bool}
    (h : evalExcludeType m s = .ok (b, s1)) :
    s1.transforms = s.transforms ∧ s1.copies = s.copies ∧ s1.store = s.store := by
  unfold evalExcludeType at h
  split at h
  · rw [except_map_eq_ok] at h
    obtain ⟨s2, h2, h3⟩ := h
    cases h3
    exact dropLastCode_lists h2
  · cases h
    exact filterFields_lists _ s

/-- One round of the loop of `AddField`: nothing for a nil result; otherwise
one evaluation of the generated transform on the state of the round, then the
appends to `f.transforms` and, for a `CopyIntoStruct`, to `f.copies`. -/
theorem addFieldRound_spec (gen : Ty → Field → Transform)
    (evalGen : Ty → Field → St → Except Panic (Bool × St)) (a i : Nat) (s s1 : St)
    (h : addFieldRound gen evalGen a i s = .ok s1) :
    (gen s.curTy (s.fieldAt ((s.arrs.getD a []).getD i 0)) = .nil ∧ s1 = s) ∨
    (gen s.curTy (s.fieldAt ((s.arrs.getD a []).getD i 0)) ≠ .nil ∧
      ∃ b s2, evalGen s.curTy (s.fieldAt ((s.arrs.getD a []).getD i 0)) s = .ok (b, s2) ∧
        s1 = { s2 with
          copies := s2.copies ++
            genCopies (gen s.curTy (s.fieldAt ((s.arrs.getD a []).getD i 0))) s.store.length
          transforms := s2.transforms ++
            [genRef (gen s.curTy (s.fieldAt ((s.arrs.getD a []).getD i 0)))
              s.store.length] }) := by
  unfold addFieldRound at h
  split at h
  · rename_i hg
    cases h
    exact Or.inl ⟨hg, rfl⟩
  · rename_i ci hg
    rw [except_map_eq_ok] at h
    obtain ⟨r, h2, h3⟩ := h
    refine Or.inr ⟨by rw [hg]; exact Transform.noConfusion, r.1, r.2, h2, ?_⟩
    rw [← h3, hg]
    rfl
  · rename_i g hnil hcopy
    rw [except_map_eq_ok] at h
    obtain ⟨r, h2, h3⟩ := h
    refine Or.inr ⟨hnil, r.1, r.2, h2, ?_⟩
    rw [← h3]
    have hc : genCopies (gen s.curTy (s.fieldAt ((s.arrs.getD a []).getD i 0))) s.store.length
        = [] := by
      unfold genCopies
      split
      · rename_i ci hci
        exact absurd hci (hcopy ci)
      · rfl
    have hr : genRef (gen s.curTy (s.fieldAt ((s.arrs.getD a []).getD i 0))) s.store.length
        = .plain (gen s.curTy (s.fieldAt ((s.arrs.getD a []).getD i 0))) := by
      unfold genRef
      split
      · rename_i ci hci
        exact absurd hci (hcopy ci)
      · rfl
    rw [hc, hr, List.append_nil]

theorem addFieldRound_grows {gen : Ty → Field → Transform}
    {evalGen : Ty → Field → St → Except Panic (Bool × St)}
    (hev : ∀ st fld s b s1, evalGen st fld s = .ok (b, s1) → Grows s s1)
    {a i : Nat} {s s1 : St} (h : addFieldRound gen evalGen a i s = .ok s1) : Grows s s1 := by
  rcases addFieldRound_spec gen evalGen a i s s1 h with ⟨_, h1⟩ | ⟨_, b, s2, h2, h1⟩
  · rw [h1]
    exact grows_refl s
  · rw [h1]
    exact grows_trans (hev _ _ _ _ _ h2) ⟨⟨_, rfl⟩, ⟨_, rfl⟩⟩

theorem addFieldLoop_grows {gen : Ty → Field → Transform}
    {evalGen : Ty → Field → St → Except Panic (Bool × St)}
    (hev : ∀ st fld s b s1, evalGen st fld s = .ok (b, s1) → Grows s s1)
    {s s1 : St} {b : Bool} (h : addFieldLoop gen evalGen s = .ok (b, s1)) : Grows s s1 := by
  unfold addFieldLoop at h
  split at h
  · cases h
    exact grows_refl s
  · rw [except_map_eq_ok] at h
    obtain ⟨s2, h2, h3⟩ := h
    cases h3
    exact foldlM_except_invariant _ Grows grows_refl
      (fun _ _ _ => grows_trans) (fun _ _ _ hr => addFieldRound_grows hev hr) _ _ _ h2

/-- Evaluating a transform appends to `f.transforms` and `f.copies` and
removes nothing from them. -/
theorem evalTransform_grows (tr : Transform) :
    ∀ (s : St) (b : Bool) (s1 : St), evalTransform tr s = .ok (b, s1) → Grows s s1 := by
  induction tr with
  | nil =>
    intro s b s1 h
    simp only [evalTransform] at h
    cases h
    exact grows_refl s
  | addField gen ih =>
    intro s b s1 h
    simp only [evalTransform] at h
    exact addFieldLoop_grows (fun st fld => ih st fld) h
  | excludeType m =>
    intro s b s1 h
    simp only [evalTransform] at h
    obtain ⟨h1, h2, _⟩ := evalExcludeType_lists h
    exact grows_of_eq h1 h2
  | excludeField m =>
    intro s b s1 h
    simp only [evalTransform] at h
    cases h
    obtain ⟨h1, h2, _⟩ := filterFields_lists (fun fld => !m fld) s
    exact grows_of_eq h1 h2
  | copyIntoStruct ci =>
    intro s b s1 h
    simp only [evalTransform] at h
    obtain ⟨h1, h2, _⟩ := evalCopy_lists h
    exact grows_of_eq h1 h2
  | excludeImport m =>
    intro s b s1 h
    simp only [evalTransform] at h
    cases h
    exact grows_refl s
  | modifyType apply =>
    intro s b s1 h
    simp only [evalTransform] at h
    obtain ⟨h1, h2, _⟩ := evalModifyType_lists h
    exact grows_of_eq h1 h2
  | modifyField apply =>
    intro s b s1 h
    simp only [evalTransform] at h
    obtain ⟨h1, h2, _⟩ := evalModifyField_lists h
    exact grows_of_eq h1 h2

theorem evalRef_grows {r : TRef} {s s1 : St} {b : Bool} (h : evalRef r s = .ok (b, s1)) :
    Grows s s1 := by
  cases r with
  | plain t => exact evalTransform_grows t s b s1 h
  | copy idx =>
    obtain ⟨h1, h2, _⟩ := evalCopy_lists h
    exact grows_of_eq h1 h2

theorem runTransforms_grows (l : List TRef) :
    ∀ (s s1 : St), runTransforms l s = .ok s1 → Grows s s1 := by
  induction l with
  | nil =>
    intro s s1 h
    simp only [runTransforms] at h
    cases h
    exact grows_refl s
  | cons r rest ih =>
    intro s s1 h
    simp only [runTransforms] at h
    rw [except_bind_eq_ok] at h
    obtain ⟨⟨b, s2⟩, h1, h2⟩ := h
    have e1 := evalRef_grows h1
    cases b with
    | true =>
      simp only [if_true] at h2
      exact grows_trans e1 (ih _ _ h2)
    | false =>
      simp at h2
      cases h2
      exact e1

/-- The walk of one type spec: the loop ranges over the list `f.transforms`
holds before the spec. -/
theorem walkTypeSpec_lifted {docs name : String} {typ : Expr} {t : Ty} (s : St)
    (ht : ParseExpr [name] docs typ = .ok (some t)) :
    walkTypeSpec docs name typ s = (runTransforms s.transforms (beginSpec t s)).map endSpec := by
  unfold walkTypeSpec
  rw [ht]
  rfl

theorem walkSpec_grows {docs : String} {sp : Spec} {s s1 : St}
    (h : walkSpec docs s sp = .ok s1) : Grows s s1 := by
  cases sp with
  | importSpec n p =>
    simp only [walkSpec] at h
    cases h
    obtain ⟨_, _, f3, _, _, _, f7⟩ := walkImportSpec_frame n p s
    exact grows_of_eq f3 f7
  | typeSpec name typ =>
    simp only [walkSpec] at h
    unfold walkTypeSpec at h
    rw [except_bind_eq_ok] at h
    obtain ⟨r, _, h2⟩ := h
    cases r with
    | none =>
      cases h2
      exact grows_refl s
    | some t =>
      simp only at h2
      rw [except_map_eq_ok] at h2
      obtain ⟨s2, h3, h4⟩ := h2
      cases h4
      obtain ⟨_, _, _, f4, _, f6⟩ := beginSpec_frame t s
      have g := runTransforms_grows _ _ _ h3
      obtain ⟨⟨e1, g1⟩, ⟨e2, g2⟩⟩ := g
      rw [f4] at g1
      rw [f6] at g2
      exact ⟨⟨e1, g1⟩, ⟨e2, g2⟩⟩
  | valueSpec =>
    simp only [walkSpec] at h
    cases h
    exact grows_refl s

/-- The walk appends to `f.transforms` and `f.copies` and removes nothing from
them: a transform once appended is in the list for every later type spec. -/
theorem walk_grows (decls : List Decl) (s s1 : St) (h : walk decls s = .ok s1) :
    Grows s s1 := by
  rw [walk_eq_foldlM] at h
  exact foldlM_except_invariant (fun (s1 : St) (p : String × Spec) => walkSpec p.1 s1 p.2)
    Grows grows_refl (fun _ _ _ => grows_trans) (fun _ _ _ hr => walkSpec_grows hr) _ _ _ h

/-! ## The loop over the transforms, piece by piece -/

theorem runTransforms_append_reached (pre : List TRef) :
    ∀ (rest : List TRef) (s s2 : St), runFlagged pre s = .ok (true, s2) →
      runTransforms (pre ++ rest) s = runTransforms rest s2 := by
  induction pre with
  | nil =>
    intro rest s s2 h
    simp only [runFlagged] at h
    cases h
    rfl
  | cons r pre ih =>
    intro rest s s2 h
    simp only [runFlagged] at h
    rw [except_bind_eq_ok] at h
    obtain ⟨⟨b, s3⟩, h1, h2⟩ := h
    cases b with
    | true =>
      simp only [if_true] at h2
      simp only [List.cons_append, runTransforms, h1, Except.bind, if_true]
      exact ih rest s3 s2 h2
    | false =>
      simp at h2

theorem runTransforms_cons (r : TRef) (post : List TRef) (s : St) :
    runTransforms (r :: post) s
      = (evalRef r s).bind (fun q => if q.1 then runTransforms post q.2 else .ok q.2) := by
  simp only [runTransforms]

/-! ## The last entry of `Code` while a type spec is processed -/

theorem setLastCode_code {x : Slot} {s s1 : St} (h : setLastCode x s = .ok s1) :
    s1.Code = s.Code.dropLast ++ [x] := by
  unfold setLastCode at h
  split at h
  · cases h
  · cases h
    rfl

theorem evalCopy_true {idx : Nat} {s s1 : St} (h : evalCopy idx s = .ok (true, s1)) :
    s1 = s := by
  unfold evalCopy at h
  split at h
  · cases h
    rfl
  · split at h
    · rw [except_map_eq_ok] at h
      obtain ⟨s2, _, h3⟩ := h
      cases h3
    · cases h
      rfl

/-- A transform other than an `AddField` that returns `true` leaves the
entries of `Code` before the last one and keeps a last one. -/
theorem evalRef_keeps_tail {r : TRef} (hr : ∀ g, r ≠ .plain (.addField g))
    {prev : List Slot} {x : Slot} {s s1 : St} (hc : s.Code = prev ++ [x])
    (h : evalRef r s = .ok (true, s1)) : ∃ x1, s1.Code = prev ++ [x1] := by
  have hset : ∀ (y : Slot) (s0 s2 : St), setLastCode y s0 = .ok s2 → s0.Code = s.Code →
      ∃ x1, s2.Code = prev ++ [x1] := by
    intro y s0 s2 h2 h0
    refine ⟨y, ?_⟩
    rw [setLastCode_code h2, h0, hc, List.dropLast_concat]
  cases r with
  | copy idx =>
    simp only [evalRef] at h
    rw [evalCopy_true h]
    exact ⟨x, hc⟩
  | plain t =>
    cases t with
    | nil =>
      simp only [evalRef, evalTransform] at h
      cases h
      exact ⟨x, hc⟩
    | addField g => exact absurd rfl (hr g)
    | excludeType m =>
      simp only [evalRef, evalTransform, evalExcludeType] at h
      split at h
      · rw [except_map_eq_ok] at h
        obtain ⟨s2, _, h3⟩ := h
        cases h3
      · cases h
        exact ⟨x, by rw [(filterFields_spec _ s).2.1]; exact hc⟩
    | excludeField m =>
      simp only [evalRef, evalTransform] at h
      cases h
      exact ⟨x, by rw [(filterFields_spec _ s).2.1]; exact hc⟩
    | copyIntoStruct ci =>
      simp only [evalRef, evalTransform] at h
      rw [evalCopy_true h]
      exact ⟨x, hc⟩
    | excludeImport m =>
      simp only [evalRef, evalTransform] at h
      cases h
      exact ⟨x, hc⟩
    | modifyType apply =>
      simp only [evalRef, evalTransform, evalModifyType] at h
      split at h
      · rw [except_map_eq_ok] at h
        obtain ⟨s2, h2, h3⟩ := h
        cases h3
        exact hset _ _ _ h2 rfl
      · rw [except_map_eq_ok] at h
        obtain ⟨s2, h2, h3⟩ := h
        cases h3
        exact hset _ _ _ h2 rfl
    | modifyField apply =>
      simp only [evalRef, evalTransform, evalModifyField] at h
      split at h
      · cases h
        exact ⟨x, hc⟩
      · rw [except_map_eq_ok] at h
        obtain ⟨s2, h2, h3⟩ := h
        cases h3
        exact hset _ _ _ h2 rfl

/-- A run of transforms without an `AddField` in which every transform
returns `true` leaves the entries of `Code` before the last one and keeps a
last one. -/
theorem runFlagged_keeps_tail (pre : List TRef)
    (hpre : ∀ r ∈ pre, ∀ g, r ≠ TRef.plain (.addField g)) {prev : List Slot} :
    ∀ (x : Slot) (s s2 : St), s.Code = prev ++ [x] → runFlagged pre s = .ok (true, s2) →
      ∃ x1, s2.Code = prev ++ [x1] := by
  induction pre with
  | nil =>
    intro x s s2 hc h
    simp only [runFlagged] at h
    cases h
    exact ⟨x, hc⟩
  | cons r pre ih =>
    intro x s s2 hc h
    simp only [runFlagged] at h
    rw [except_bind_eq_ok] at h
    obtain ⟨⟨b, s3⟩, h1, h2⟩ := h
    cases b with
    | true =>
      simp only [if_true] at h2
      obtain ⟨x1, hx1⟩ := evalRef_keeps_tail (hpre r (List.mem_cons_self _ _)) hc h1
      exact ih (fun r1 hr1 => hpre r1 (List.mem_cons_of_mem _ hr1)) x1 s3 s2 hx1 h2
    | false =>
      simp at h2

/-- An `ExcludeType` reached through transforms that are no `AddField` and
return `true`, and that matches the type: the type spec ends there, with
`Code` as it was before the spec. -/
theorem walkTypeSpec_excluded (s : St) (pre post : List TRef) (m : Node → Bool)
    (docs name : String) (typ : Expr) (t : Ty) (s2 : St)
    (hs : s.settled)
    (hT : s.transforms = pre ++ TRef.plain (.excludeType m) :: post)
    (hpre : ∀ r ∈ pre, ∀ g, r ≠ TRef.plain (.addField g))
    (ht : ParseExpr [name] docs typ = .ok (some t))
    (hreach : runFlagged pre (beginSpec t s) = .ok (true, s2))
    (hm : m (.type s2.curTy) = true) :
    walkTypeSpec docs name typ s = .ok (endSpec { s2 with Code := s.Code }) ∧
    (endSpec { s2 with Code := s.Code }).Code = s.Code := by
  obtain ⟨x1, hx1⟩ := runFlagged_keeps_tail pre hpre .cur (beginSpec t s) s2
    (beginSpec_code t s) hreach
  constructor
  · rw [walkTypeSpec_lifted s ht, hT, runTransforms_append_reached pre _ _ _ hreach,
      runTransforms_cons]
    simp only [evalRef, evalTransform, evalExcludeType, hm, if_true]
    have hdrop : dropLastCode s2 = .ok { s2 with Code := s.Code } := by
      unfold dropLastCode
      rw [hx1]
      have hd : (s.Code ++ [x1]).dropLast = s.Code := List.dropLast_concat
      cases hprev : s.Code ++ [x1] with
      | nil => simp at hprev
      | cons y ys =>
        rw [hprev] at hd
        simp only
        rw [hd]
    rw [hdrop]
    rfl
  · show (s.Code.map (fun x => Slot.val (St.slotTy { s2 with Code := s.Code } x))) = s.Code
    exact map_slotTy_of_settled hs

/-! ## The tracker in the words of the statements -/

theorem prefixBefore_eq_some (c : Char) :
    ∀ (l p : List Char), prefixBefore c l = some p ↔ ∃ rest, l = p ++ c :: rest ∧ c ∉ p := by
  intro l
  induction l with
  | nil =>
    intro p
    simp [prefixBefore]
  | cons x xs ih =>
    intro p
    constructor
    · intro h
      rw [prefixBefore] at h
      split at h
      · rename_i hx
        cases h
        exact ⟨xs, by rw [hx]; rfl, List.not_mem_nil _⟩
      · rename_i hx
        cases hp : prefixBefore c xs with
        | none => rw [hp] at h; cases h
        | some q =>
          rw [hp] at h
          cases h
          obtain ⟨rest, h1, h2⟩ := (ih q).1 hp
          refine ⟨rest, by rw [h1]; rfl, ?_⟩
          intro hmem
          rcases List.mem_cons.1 hmem with h3 | h3
          · exact hx h3.symm
          · exact h2 h3
    · rintro ⟨rest, h1, h2⟩
      rw [h1]
      exact prefixBefore_append c p rest h2

theorem hasQualifier_iff (n k : String) : HasQualifier n k ↔ qualifier n = some k := by
  unfold HasQualifier qualifier
  constructor
  · rintro ⟨p, rest, h1, h2, h3⟩
    rw [(prefixBefore_eq_some '.' _ p).2 ⟨rest, h1, h2⟩, h3]
    rfl
  · intro h
    cases hp : prefixBefore '.' n.toList with
    | none => rw [hp] at h; cases h
    | some p =>
      rw [hp] at h
      obtain ⟨rest, h1, h2⟩ := (prefixBefore_eq_some '.' _ p).1 hp
      refine ⟨p, rest, h1, h2, ?_⟩
      simp only [Option.map_some', Option.some.injEq] at h
      rw [← h]
      rfl

theorem reportsName_iff (t : Ty) (n : String) : ReportsName t n ↔ n ∈ trackedNames t := by
  unfold ReportsName
  cases t with
  | struct nm d fs =>
    simp only [trackedNames, List.mem_flatMap]
    constructor
    · rintro (⟨nm1, d1, fs1, h1, fld, h2, h3⟩ | ⟨h1, _⟩)
      · cases h1
        exact ⟨fld, h2, h3⟩
      · exact absurd rfl (h1 nm d fs)
    · rintro ⟨fld, h2, h3⟩
      exact Or.inl ⟨nm, d, fs, rfl, fld, h2, h3⟩
  | plain nm d x =>
    simp only [trackedNames]
    constructor
    · rintro (⟨_, _, _, h1, _⟩ | ⟨_, h2⟩)
      · cases h1
      · exact h2
    · intro h
      exact Or.inr ⟨fun _ _ _ e => Ty.noConfusion e, h⟩
  | array nm d x =>
    simp only [trackedNames]
    constructor
    · rintro (⟨_, _, _, h1, _⟩ | ⟨_, h2⟩)
      · cases h1
      · exact h2
    · intro h
      exact Or.inr ⟨fun _ _ _ e => Ty.noConfusion e, h⟩
  | map nm d x y =>
    simp only [trackedNames]
    constructor
    · rintro (⟨_, _, _, h1, _⟩ | ⟨_, h2⟩)
      · cases h1
      · exact h2
    · intro h
      exact Or.inr ⟨fun _ _ _ e => Ty.noConfusion e, h⟩

/-! ## Heads of `Code` while a type spec is processed -/

theorem listReach_trans {α : Type} {A : α → Prop} {l1 l2 l3 : List α}
    (h1 : ListReach A l1 l2) (h2 : ListReach A l2 l3) : ListReach A l1 l3 := by
  induction h2 with
  | refl => exact h1
  | drop _ ih => exact .drop ih
  | set x hx hne _ ih => exact .set x hx hne ih

theorem headEvolves_refl (R : Ty → Ty → Prop) (s : St) : HeadEvolves R s s :=
  ⟨rfl, rfl, .refl _, fun h => h⟩

theorem headEvolves_trans {R : Ty → Ty → Prop} {s1 s2 s3 : St}
    (h1 : HeadEvolves R s1 s2) (h2 : HeadEvolves R s2 s3) : HeadEvolves R s1 s3 := by
  refine ⟨h2.curHead.trans h1.curHead, h2.curPlain.trans h1.curPlain, ?_,
    fun h => h2.transforms (h1.transforms h)⟩
  have h3 := h2.heads
  rw [h1.curHead, h1.curPlain] at h3
  exact listReach_trans h1.heads h3

/-- A change of the state that leaves `Code`, the head behind `t` and
`transforms` alone. -/
theorem headEvolves_of_eq (R : Ty → Ty → Prop) {s s1 : St}
    (hn : s1.cur.head = s.cur.head) (hp : s1.cur.plainOf = s.cur.plainOf)
    (hc : s1.Code = s.Code) (ht : s1.transforms = s.transforms) : HeadEvolves R s s1 := by
  refine ⟨hn, hp, ?_, fun h => by rw [ht]; exact h⟩
  have : s1.heads = s.heads := by simp [St.heads, hc, hn]
  rw [this]
  exact .refl _

theorem dropLastCode_heads (R : Ty → Ty → Prop) {s s1 : St}
    (h : dropLastCode s = .ok s1) : HeadEvolves R s s1 := by
  unfold dropLastCode at h
  split at h
  · cases h
  · cases h
    refine ⟨rfl, rfl, ?_, fun h => h⟩
    have : St.heads { s with Code := s.Code.dropLast } = s.heads.dropLast := by
      simp [St.heads, List.map_dropLast]
    rw [this]
    exact .drop (.refl _)

theorem setLastCode_heads (R : Ty → Ty → Prop) {s s1 : St} (x : Slot)
    (hx : slotHead s.cur.head x = s.cur.head ∨
      ∃ t, s.cur.plainOf = some t ∧ R t (slotHead s.cur.head x))
    (h : setLastCode x s = .ok s1) : HeadEvolves R s s1 := by
  unfold setLastCode at h
  split at h
  · cases h
  · cases h
    refine ⟨rfl, rfl, ?_, fun h => h⟩
    have : St.heads { s with Code := s.Code.dropLast ++ [x] }
        = s.heads.dropLast ++ [slotHead s.cur.head x] := by
      simp [St.heads, List.map_dropLast]
    rw [this]
    refine .set _ hx ?_ (.refl _)
    rename_i hcode
    simp [St.heads, hcode]

theorem filterFields_heads (R : Ty → Ty → Prop) (keep : Field → Bool) (s : St) :
    HeadEvolves R s (filterFields keep s) := by
  unfold filterFields
  split
  · exact headEvolves_refl R s
  · rename_i n d a hcur
    apply headEvolves_of_eq <;> simp [Cur.head, Cur.plainOf, hcur]

theorem evalCopy_heads (R : Ty → Ty → Prop) {idx : Nat} {s s1 : St} {b : Bool}
    (h : evalCopy idx s = .ok (b, s1)) : HeadEvolves R s s1 := by
  unfold evalCopy at h
  split at h
  · cases h
    exact headEvolves_refl R s
  · split at h
    · rw [except_map_eq_ok] at h
      obtain ⟨s2, h2, h3⟩ := h
      cases h3
      refine headEvolves_trans ?_ (dropLastCode_heads R h2)
      apply headEvolves_of_eq <;> rfl
    · cases h
      exact headEvolves_refl R s

theorem evalModifyType_heads {R : Ty → Ty → Prop} {apply : Ty → Ty}
    (hf : ∀ t, R t (apply t).head) {s s1 : St} {b : Bool}
    (h : evalModifyType apply s = .ok (b, s1)) : HeadEvolves R s s1 := by
  unfold evalModifyType at h
  split at h
  · rename_i t hcur
    rw [except_map_eq_ok] at h
    obtain ⟨s2, h2, h3⟩ := h
    cases h3
    refine setLastCode_heads R _ ?_ h2
    right
    exact ⟨t, by rw [hcur]; rfl, hf t⟩
  · rw [except_map_eq_ok] at h
    obtain ⟨s2, h2, h3⟩ := h
    cases h3
    refine headEvolves_trans ?_ (setLastCode_heads R .cur (Or.inl rfl) h2)
    apply headEvolves_of_eq <;> rfl

theorem evalModifyField_heads (R : Ty → Ty → Prop) {apply : Field → Field}
    {s s1 : St} {b : Bool} (h : evalModifyField apply s = .ok (b, s1)) :
    HeadEvolves R s s1 := by
  unfold evalModifyField at h
  split at h
  · cases h
    exact headEvolves_refl R s
  · rw [except_map_eq_ok] at h
    obtain ⟨s2, h2, h3⟩ := h
    cases h3
    refine headEvolves_trans ?_ (setLastCode_heads R .cur (Or.inl rfl) h2)
    apply headEvolves_of_eq <;> rfl

theorem evalExcludeType_heads (R : Ty → Ty → Prop) {m : Node → Bool}
    {s s1 : St} {b : Bool} (h : evalExcludeType m s = .ok (b, s1)) : HeadEvolves R s s1 := by
  unfold evalExcludeType at h
  split at h
  · rw [except_map_eq_ok] at h
    obtain ⟨s2, h2, h3⟩ := h
    cases h3
    exact dropLastCode_heads R h2
  · cases h
    exact filterFields_heads R _ s

theorem append_heads (R : Ty → Ty → Prop) (s : St) (cs : List Nat) (r : TRef)
    (hr : TRef.HeadsRel R r) :
    HeadEvolves R s { s with copies := s.copies ++ cs, transforms := s.transforms ++ [r] } := by
  refine ⟨rfl, rfl, .refl _, ?_⟩
  intro h r1 hr1
  simp only [List.mem_append, List.mem_singleton] at hr1
  rcases hr1 with hr1 | hr1
  · exact h r1 hr1
  · rw [hr1]; exact hr

theorem addFieldRound_heads {R : Ty → Ty → Prop} {gen : Ty → Field → Transform}
    {evalGen : Ty → Field → St → Except Panic (Bool × St)}
    (hgen : ∀ st fld, (gen st fld).HeadsRel R)
    (hev : ∀ st fld s b s1, evalGen st fld s = .ok (b, s1) → HeadEvolves R s s1)
    {a i : Nat} {s s1 : St} (h : addFieldRound gen evalGen a i s = .ok s1) :
    HeadEvolves R s s1 := by
  unfold addFieldRound at h
  split at h
  · cases h
    exact headEvolves_refl R s
  · rw [except_map_eq_ok] at h
    obtain ⟨r, h2, h3⟩ := h
    cases h3
    have e1 := hev _ _ _ _ _ h2
    have e2 := append_heads R r.2 [s.store.length] (.copy s.store.length) trivial
    exact headEvolves_trans e1 e2
  · rw [except_map_eq_ok] at h
    obtain ⟨r, h2, h3⟩ := h
    cases h3
    have e1 := hev _ _ _ _ _ h2
    have hgr : TRef.HeadsRel R (.plain (gen s.curTy (s.fieldAt ((s.arrs.getD a []).getD i 0)))) :=
      hgen _ _
    have e2 := append_heads R r.2 [] (.plain _) hgr
    simp only [List.append_nil] at e2
    exact headEvolves_trans e1 e2

theorem addFieldLoop_heads {R : Ty → Ty → Prop} {gen : Ty → Field → Transform}
    {evalGen : Ty → Field → St → Except Panic (Bool × St)}
    (hgen : ∀ st fld, (gen st fld).HeadsRel R)
    (hev : ∀ st fld s b s1, evalGen st fld s = .ok (b, s1) → HeadEvolves R s s1)
    {s s1 : St} {b : Bool} (h : addFieldLoop gen evalGen s = .ok (b, s1)) :
    HeadEvolves R s s1 := by
  unfold addFieldLoop at h
  split at h
  · cases h
    exact headEvolves_refl R s
  · rename_i n d a hcur
    rw [except_map_eq_ok] at h
    obtain ⟨s2, h2, h3⟩ := h
    cases h3
    exact foldlM_except_invariant _ (HeadEvolves R) (headEvolves_refl R)
      (fun _ _ _ => headEvolves_trans) (fun _ _ _ hr => addFieldRound_heads hgen hev hr) _ _ _ h2

theorem evalTransform_heads {R : Ty → Ty → Prop} (tr : Transform) :
    tr.HeadsRel R → ∀ (s : St) (b : Bool) (s1 : St),
      evalTransform tr s = .ok (b, s1) → HeadEvolves R s s1 := by
  induction tr with
  | nil =>
    intro _ s b s1 h
    simp only [evalTransform] at h
    cases h
    exact headEvolves_refl R s
  | addField gen ih =>
    intro hR s b s1 h
    simp only [evalTransform] at h
    exact addFieldLoop_heads hR (fun st fld => ih st fld (hR st fld)) h
  | excludeType m =>
    intro _ s b s1 h
    simp only [evalTransform] at h
    exact evalExcludeType_heads R h
  | excludeField m =>
    intro _ s b s1 h
    simp only [evalTransform] at h
    cases h
    exact filterFields_heads R _ s
  | copyIntoStruct ci =>
    intro _ s b s1 h
    simp only [evalTransform] at h
    refine headEvolves_trans ?_ (evalCopy_heads R h)
    apply headEvolves_of_eq <;> rfl
  | excludeImport m =>
    intro _ s b s1 h
    simp only [evalTransform] at h
    cases h
    exact headEvolves_refl R s
  | modifyType apply =>
    intro hR s b s1 h
    simp only [evalTransform] at h
    exact evalModifyType_heads hR h
  | modifyField apply =>
    intro _ s b s1 h
    simp only [evalTransform] at h
    exact evalModifyField_heads R h

theorem evalRef_heads {R : Ty → Ty → Prop} {r : TRef} (hr : TRef.HeadsRel R r)
    {s s1 : St} {b : Bool} (h : evalRef r s = .ok (b, s1)) : HeadEvolves R s s1 := by
  cases r with
  | plain t => exact evalTransform_heads t hr s b s1 h
  | copy idx => exact evalCopy_heads R h

theorem runTransforms_heads {R : Ty → Ty → Prop} (l : List TRef)
    (hl : ∀ r ∈ l, TRef.HeadsRel R r) :
    ∀ (s s1 : St), runTransforms l s = .ok s1 → HeadEvolves R s s1 := by
  induction l with
  | nil =>
    intro s s1 h
    simp only [runTransforms] at h
    cases h
    exact headEvolves_refl R s
  | cons r rest ih =>
    intro s s1 h
    simp only [runTransforms] at h
    rw [except_bind_eq_ok] at h
    obtain ⟨⟨b, s2⟩, h1, h2⟩ := h
    have e1 := evalRef_heads (hl r (List.mem_cons_self _ _)) h1
    cases b with
    | true =>
      simp only [if_true] at h2
      exact headEvolves_trans e1 (ih (fun r1 hr1 => hl r1 (List.mem_cons_of_mem _ hr1)) _ _ h2)
    | false =>
      simp at h2
      cases h2
      exact e1

/-! ## The origin of the entries of `Code` -/

theorem ty_head_name (t : Ty) : t.head.GetName = t.GetName := by
  cases t <;> rfl

theorem curTy_head (s : St) : s.curTy.head = s.cur.head := by
  unfold St.curTy
  cases s.cur <;> rfl

theorem slotTy_head (s : St) (x : Slot) : (s.slotTy x).head = slotHead s.cur.head x := by
  cases x with
  | val t => rfl
  | cur => exact curTy_head s

theorem heads_of_settled {s : St} (hs : s.settled) (h : Ty) :
    s.Code.map (slotHead h) = s.heads := by
  unfold St.heads
  apply List.map_congr_left
  intro x hx
  cases x with
  | val t => rfl
  | cur => exact absurd rfl (hs _ hx)

theorem beginSpec_curHead (t : Ty) (s : St) : (beginSpec t s).cur.head = t.head := by
  cases t <;> rfl

theorem beginSpec_plainOf (t t1 : Ty) (s : St)
    (h : (beginSpec t s).cur.plainOf = some t1) : t1 = t ∧ ∀ n d fs, t ≠ .struct n d fs := by
  cases t with
  | struct n d fs => cases h
  | plain n d x =>
    cases h
    exact ⟨rfl, fun _ _ _ e => Ty.noConfusion e⟩
  | array n d x =>
    cases h
    exact ⟨rfl, fun _ _ _ e => Ty.noConfusion e⟩
  | map n d x y =>
    cases h
    exact ⟨rfl, fun _ _ _ e => Ty.noConfusion e⟩

theorem endSpec_heads (s : St) : (endSpec s).heads = s.heads := by
  simp only [St.heads, endSpec, List.map_map]
  apply List.map_congr_left
  intro x _
  exact slotTy_head s x

theorem listReach_mono {α : Type} {A B : α → Prop} (hAB : ∀ x, A x → B x) {l l1 : List α}
    (h : ListReach A l l1) : ListReach B l l1 := by
  induction h with
  | refl => exact .refl _
  | drop _ ih => exact .drop ih
  | set x hx hne _ ih => exact .set x (hAB x hx) hne ih

/-- What one type spec does to the heads of `Code`: nothing, or the spec lifts
to a type whose head is appended, and the list then changes by `ListReach`. -/
theorem walkTypeSpec_heads {R : Ty → Ty → Prop} {docs name : String} {typ : Expr}
    {s s1 : St} (hs : s.settled) (hT : ∀ r ∈ s.transforms, TRef.HeadsRel R r)
    (h : walkTypeSpec docs name typ s = .ok s1) :
    s1.settled ∧ (∀ r ∈ s1.transforms, TRef.HeadsRel R r) ∧
    (s1.heads = s.heads ∨
      ∃ t, ParseExpr [name] docs typ = .ok (some t) ∧
        ListReach (fun x => x = t.head ∨ ((∀ n d fs, t ≠ .struct n d fs) ∧ R t x))
          (s.heads ++ [t.head]) s1.heads) := by
  unfold walkTypeSpec at h
  rw [except_bind_eq_ok] at h
  obtain ⟨r, h1, h2⟩ := h
  cases r with
  | none =>
    cases h2
    exact ⟨hs, hT, Or.inl rfl⟩
  | some t =>
    simp only at h2
    rw [except_map_eq_ok] at h2
    obtain ⟨s2, h3, h4⟩ := h2
    cases h4
    obtain ⟨_, _, _, f4, _, _⟩ := beginSpec_frame t s
    have hT2 : ∀ r ∈ (beginSpec t s).transforms, TRef.HeadsRel R r := by
      rw [f4]; exact hT
    have e : HeadEvolves R (beginSpec t s) s2 :=
      runTransforms_heads (beginSpec t s).transforms hT2 _ _ (by rw [f4]; exact h3)
    refine ⟨endSpec_settled s2, e.transforms hT2, Or.inr ⟨t, h1, ?_⟩⟩
    rw [endSpec_heads]
    have hn := e.heads
    have h0 : (beginSpec t s).heads = s.heads ++ [t.head] := by
      simp only [St.heads, beginSpec_code, beginSpec_curHead, List.map_append,
        List.map_cons, List.map_nil, slotHead]
      rw [heads_of_settled hs]
      rfl
    rw [h0] at hn
    refine listReach_mono ?_ hn
    intro x hx
    rcases hx with hx | ⟨t1, ht1, hR⟩
    · left
      rw [hx, beginSpec_curHead]
    · right
      obtain ⟨e1, e2⟩ := beginSpec_plainOf t t1 s ht1
      subst e1
      exact ⟨e2, hR⟩

theorem forall₂_dropLast {α β : Type} {P : α → β → Prop} {l1 : List α} {l2 : List β}
    (h : List.Forall₂ P l1 l2) : List.Forall₂ P l1.dropLast l2.dropLast := by
  induction h with
  | nil => exact .nil
  | @cons a b l1 l2 hab hrest ih =>
    cases hrest with
    | nil => exact .nil
    | @cons a1 b1 l3 l4 h1 h2 =>
      rw [List.dropLast_cons₂, List.dropLast_cons₂]
      exact .cons hab ih

/-- A list reached from `l ++ [h0]`, where `l` is matched by a sublist of `ps`
and `p` matches `h0` and every element written, is matched by a sublist of
`ps ++ [p]`. -/
theorem listReach_forall₂ {α β : Type} {O : α → β → Prop} {A : β → Prop} {p : α}
    (hA : ∀ x, A x → O p x) {ps : List α} {l0 l1 : List β}
    (h : ListReach A l0 l1)
    (h0 : ∃ kept, List.Sublist kept (ps ++ [p]) ∧ List.Forall₂ O kept l0) :
    ∃ kept, List.Sublist kept (ps ++ [p]) ∧ List.Forall₂ O kept l1 := by
  induction h with
  | refl => exact h0
  | drop _ ih =>
    obtain ⟨kept, hk1, hk2⟩ := ih
    exact ⟨kept.dropLast, (List.dropLast_sublist _).trans hk1, forall₂_dropLast hk2⟩
  | set x hx _ _ ih =>
    obtain ⟨kept, hk1, hk2⟩ := ih
    refine ⟨kept.dropLast ++ [p], ?_, ?_⟩
    · have := sublist_dropLast hk1
      rw [List.dropLast_concat] at this
      exact this.append_right [p]
    · exact List.rel_append (forall₂_dropLast hk2) (.cons (hA x hx) .nil)

/-- The heads of `Code` after the walk, from an empty `Code`: they come, one
by one and in order, from a sublist of the specs gone through. -/
theorem walk_heads_origin {R : Ty → Ty → Prop} (decls : List Decl) (s s1 : St)
    (h : walk decls s = .ok s1) (hs : s.Code = [])
    (hT : ∀ r ∈ s.transforms, TRef.HeadsRel R r) :
    ∃ kept, List.Sublist kept (allSpecs decls) ∧ List.Forall₂ (HeadFrom R) kept s1.heads := by
  rw [walk_eq_foldlM] at h
  have key := foldlM_except_rel (fun s1 p => walkSpec p.1 s1 p.2)
    (fun s l s1 => s.Code = [] → (∀ r ∈ s.transforms, TRef.HeadsRel R r) →
      s1.settled ∧ (∀ r ∈ s1.transforms, TRef.HeadsRel R r) ∧
      ∃ kept, List.Sublist kept l ∧ List.Forall₂ (HeadFrom R) kept s1.heads)
    (fun b hb hT => ⟨(by intro x hx; rw [hb] at hx; cases hx), hT,
      [], List.Sublist.refl _, by simp [St.heads, hb]⟩)
    (by
      intro b l b1 a b2 ih hstep hb hbT
      obtain ⟨i1, i2, kept, i3, i4⟩ := ih hb hbT
      obtain ⟨docs, sp⟩ := a
      cases sp with
      | importSpec n p =>
        simp only [walkSpec] at hstep
        cases hstep
        obtain ⟨f1, f2, f3, _⟩ := walkImportSpec_frame n p b1
        refine ⟨?_, ?_, kept, i3.trans (List.sublist_append_left _ _), ?_⟩
        · intro x hx; rw [f1] at hx; exact i1 x hx
        · rw [f3]; exact i2
        · have : (walkImportSpec n p b1).heads = b1.heads := by
            simp only [St.heads, f1, f2]
          rw [this]
          exact i4
      | typeSpec name typ =>
        simp only [walkSpec] at hstep
        obtain ⟨j1, j2, j3⟩ := walkTypeSpec_heads i1 i2 hstep
        refine ⟨j1, j2, ?_⟩
        rcases j3 with j3 | ⟨t, ht, hreach⟩
        · rw [j3]
          exact ⟨kept, i3.trans (List.sublist_append_left _ _), i4⟩
        · refine listReach_forall₂ (O := HeadFrom R) (p := (docs, Spec.typeSpec name typ))
            ?_ hreach ?_
          · intro x hx
            exact ⟨name, typ, t, rfl, ht, hx⟩
          · refine ⟨kept ++ [(docs, Spec.typeSpec name typ)], i3.append_right _, ?_⟩
            exact List.rel_append i4 (.cons ⟨name, typ, t, rfl, ht, Or.inl rfl⟩ .nil)
      | valueSpec =>
        simp only [walkSpec] at hstep
        cases hstep
        exact ⟨i1, i2, kept, i3.trans (List.sublist_append_left _ _), i4⟩)
    _ _ _ h
  exact (key hs hT).2.2

theorem copyStep_heads {ci : CopyIntoStruct} {code code1 : List Ty}
    (h : copyStep ci code = .ok code1) : code1.map Ty.head = code.map Ty.head := by
  unfold copyStep at h
  split at h
  · cases h
  · rename_i n d fields hget
    split at h
    · cases h
      exact map_set_of_eq Ty.head code _ _ _ hget rfl
    · cases h
  · cases h
    rfl

theorem secondPass_heads (copies : List CopyIntoStruct) :
    ∀ (code code1 : List Ty), secondPass copies code = .ok code1 →
      code1.map Ty.head = code.map Ty.head := by
  unfold secondPass
  exact foldlM_except_invariant (fun c ci => copyStep ci c)
    (fun c c1 => c1.map Ty.head = c.map Ty.head)
    (fun _ => rfl) (fun _ _ _ h1 h2 => Eq.trans h2 h1) (fun _ _ _ h => copyStep_heads h) copies

theorem finish_heads {s : St} {out : File} (h : finish s = .ok out) :
    out.Code.map Ty.head = s.heads := by
  unfold finish at h
  rw [except_map_eq_ok] at h
  obtain ⟨code, h1, h2⟩ := h
  cases h2
  rw [secondPass_heads _ _ _ h1]
  simp only [St.heads, List.map_map]
  apply List.map_congr_left
  intro x _
  exact slotTy_head s x

/-- Every transform keeps `HeadsRel` for the relation "the head of the result
of a `ModifyType` function of the transform". -/
theorem headsRel_of_applies {R : Ty → Ty → Prop} (tr : Transform) :
    (∀ apply, Transform.Applies tr apply → ∀ t, R t (apply t).head) → tr.HeadsRel R := by
  induction tr with
  | addField gen ih =>
    intro h st fld
    exact ih st fld (fun apply ha => h apply (.addField gen st fld apply ha))
  | modifyType apply =>
    intro h t
    exact h apply (.modifyType apply) t
  | _ => intro _; trivial

theorem sublist_flatMap {α β : Type} (f : α → List β) {l1 l2 : List α}
    (h : List.Sublist l1 l2) : List.Sublist (l1.flatMap f) (l2.flatMap f) := by
  induction h with
  | slnil => exact List.Sublist.refl _
  | cons a _ ih =>
    rw [List.flatMap_cons]
    exact ih.trans (List.sublist_append_right _ _)
  | cons₂ a _ ih =>
    rw [List.flatMap_cons, List.flatMap_cons]
    exact List.Sublist.append (List.Sublist.refl _) ih

/-- The output code of a run: its entries originate, one by one and in
order, from a sublist of the specs of the file. -/
theorem fileFromAST_origin {file : AstFile} {pkgName : String} {transforms : List Transform}
    {out : File} (h : FileFromAST file pkgName transforms = .ok out) :
    ∃ kept, List.Sublist kept (allSpecs file.Decls) ∧
      List.Forall₂ (OriginatesFrom transforms) kept out.Code := by
  obtain ⟨s, hw, hf⟩ := fileFromAST_ok h
  have hcode0 : (partitionTransforms transforms (initialState file pkgName)).Code = [] := by
    rw [(partitionTransforms_spec transforms (initialState file pkgName)).1]
    rfl
  have hT : ∀ r ∈ (partitionTransforms transforms (initialState file pkgName)).transforms,
      TRef.HeadsRel (fun t x => ∃ tr ∈ transforms, ∃ apply,
        Transform.Applies tr apply ∧ x = (apply t).head) r := by
    obtain ⟨_, _, _, _, h5, _⟩ := partitionTransforms_spec transforms (initialState file pkgName)
    intro r hr
    rcases h5 r hr with h | ⟨t, ht, rfl⟩
    · simp [initialState] at h
    · exact headsRel_of_applies t (fun apply ha t1 => ⟨t, ht, apply, ha, rfl⟩)
  obtain ⟨kept, k1, k2⟩ := walk_heads_origin _ _ _ hw hcode0 hT
  refine ⟨kept, k1, ?_⟩
  rw [← finish_heads hf] at k2
  rw [List.forall₂_map_right_iff] at k2
  exact k2.imp (fun p e hpe => hpe)

/-- Entries that originate from specs under `ModifyType` functions that keep
the names of the lifted types have the names the specs declare. -/
theorem origin_names {transforms : List Transform} {all : List (String × Spec)}
    (hkeep : ∀ tr ∈ transforms, ∀ apply, Transform.Applies tr apply →
      ∀ p ∈ all, ∀ name typ t, p.2 = .typeSpec name typ →
        ParseExpr [name] p.1 typ = .ok (some t) → (∀ n d fs, t ≠ .struct n d fs) →
        (apply t).GetName = t.GetName) :
    ∀ (kept : List (String × Spec)) (code : List Ty), (∀ p ∈ kept, p ∈ all) →
      List.Forall₂ (OriginatesFrom transforms) kept code →
      code.map Ty.GetName = kept.flatMap specTypeNames := by
  intro kept code hsub h
  induction h with
  | nil => rfl
  | @cons p e kept code hpe _ ih =>
    rw [List.map_cons, List.flatMap_cons, ih (fun q hq => hsub q (List.mem_cons_of_mem _ hq))]
    obtain ⟨name, typ, t, hp, ht, horig⟩ := hpe
    have hname : t.GetName = name := by
      have := parseExpr_name ht
      simpa [firstName] using this
    have he : e.GetName = name := by
      rcases horig with h1 | ⟨hns, tr, htr, apply, ha, h1⟩
      · rw [← ty_head_name e, h1, ty_head_name, hname]
      · rw [← ty_head_name e, h1, ty_head_name,
          hkeep tr htr apply ha p (hsub p (List.mem_cons_self _ _)) name typ t hp ht hns, hname]
    obtain ⟨docs, sp⟩ := p
    simp only at hp
    subst hp
    simp [specTypeNames, he]

/-! ## `AddField` with generated `ModifyField` transforms, in terms of values -/

theorem updateAt_getD_self {α : Type} (f : α → α) (d : α) (hf : f d = d) :
    ∀ (l : List α) (a : Nat), (updateAt l a f).getD a d = f (l.getD a d) := by
  intro l
  induction l with
  | nil => intro a; simp [updateAt, hf]
  | cons x xs ih =>
    intro a
    cases a with
    | zero => simp [updateAt]
    | succ a => simpa [updateAt] using ih a

theorem range_map_getD_append {α : Type} (l1 l2 : List α) (d : α) :
    (List.range l2.length).map (fun i => (l1 ++ l2).getD (l1.length + i) d) = l2 := by
  apply List.ext_getElem
  · simp
  · intro i h1 h2
    simp [List.getD_eq_getElem?_getD, List.getElem?_append_right, h2]

/-- The field a round of `AddField` reads is the field at its index. -/
theorem fieldAt_round (s : St) (a k : Nat) (hk : k < (s.fieldsOf a).length) :
    s.fieldAt ((s.arrs.getD a []).getD k 0) = (s.fieldsOf a).getD k default := by
  unfold St.fieldsOf at hk ⊢
  rw [List.length_map] at hk
  generalize s.arrs.getD a [] = ids at hk ⊢
  simp [List.getD_eq_getElem?_getD, List.getElem?_eq_getElem hk]

/-- A `ModifyField` on a struct: every field is replaced by its image, and
nothing else of the file changes but the last entry of `Code`, which is the
struct. -/
theorem evalModifyField_struct (f : Field → Field) {s : St} {n d : String} {a : Nat}
    {prev : List Slot} {x : Slot} (hcur : s.cur = .struct n d a) (hcode : s.Code = prev ++ [x]) :
    ∃ s1, evalModifyField f s = .ok (true, s1) ∧ s1.cur = .struct n d a ∧
      s1.fieldsOf a = (s.fieldsOf a).map f ∧ s1.Code = prev ++ [.cur] ∧
      s1.transforms = s.transforms ∧ s1.copies = s.copies := by
  unfold evalModifyField
  split
  · rename_i t ht
    rw [hcur] at ht
    cases ht
  · rename_i n1 d1 a1 hcur1
    rw [hcur] at hcur1
    cases hcur1
    unfold setLastCode
    split
    · rename_i hnil
      simp only [hcode] at hnil
      simp at hnil
    · refine ⟨_, rfl, hcur, ?_, ?_, rfl, rfl⟩
      · show List.map (fun id => (s.objs ++ (s.fieldsOf a).map f).getD id default)
          ((updateAt s.arrs a
            (fun ids => (List.range ids.length).map (fun i => s.objs.length + i))).getD a [])
          = (s.fieldsOf a).map f
        rw [updateAt_getD_self _ _ rfl, List.map_map]
        have h1 := range_map_getD_append s.objs ((s.fieldsOf a).map f) default
        have hlen : ((s.fieldsOf a).map f).length = (s.arrs.getD a []).length := by
          simp [St.fieldsOf]
        rw [hlen] at h1
        exact h1
      · show s.Code.dropLast ++ [Slot.cur] = prev ++ [Slot.cur]
        rw [hcode, List.dropLast_concat]

theorem addFieldRound_nil {gen : Ty → Field → Transform}
    {evalGen : Ty → Field → St → Except Panic (Bool × St)} {a i : Nat} {s : St}
    (h : gen s.curTy (s.fieldAt ((s.arrs.getD a []).getD i 0)) = .nil) :
    addFieldRound gen evalGen a i s = .ok s := by
  unfold addFieldRound
  rw [h]

theorem addFieldRound_modifyField {gen : Ty → Field → Transform}
    {evalGen : Ty → Field → St → Except Panic (Bool × St)} {a i : Nat} {s : St}
    {f : Field → Field}
    (h : gen s.curTy (s.fieldAt ((s.arrs.getD a []).getD i 0)) = .modifyField f) :
    addFieldRound gen evalGen a i s
      = (evalGen s.curTy (s.fieldAt ((s.arrs.getD a []).getD i 0)) s).map (fun r =>
          { r.2 with transforms := r.2.transforms ++ [.plain (.modifyField f)] }) := by
  unfold addFieldRound
  rw [h]

/-- The rounds of an `AddField` with the generator `fieldGen ap` on a struct,
for the `m` fields from index `k` on, are the rounds of `pureRounds`: the
fields after them, and the generated transforms appended to `f.transforms`
in order. -/
theorem rounds_fieldGen (ap : Ty → Field → Option (Field → Field)) (n d : String) (a : Nat)
    (prev : List Slot) :
    ∀ (m k : Nat) (s : St), s.cur = .struct n d a → s.Code = prev ++ [.cur] →
      k + m = (s.fieldsOf a).length →
      ∃ s1,
        (List.range' k m).foldlM
          (fun s1 i => addFieldRound (fieldGen ap)
            (fun st fld => evalTransform (fieldGen ap st fld)) a i s1) s = .ok s1 ∧
        s1.cur = .struct n d a ∧
        s1.fieldsOf a = (pureRounds ap n d m k (s.fieldsOf a)).2 ∧
        s1.Code = prev ++ [.cur] ∧
        s1.transforms = s.transforms ++
          (pureRounds ap n d m k (s.fieldsOf a)).1.map (fun g => TRef.plain (.modifyField g)) ∧
        s1.copies = s.copies := by
  intro m
  induction m with
  | zero =>
    intro k s hcur hcode _
    exact ⟨s, rfl, hcur, rfl, hcode, by simp [pureRounds], rfl⟩
  | succ m ih =>
    intro k s hcur hcode hlen
    have hk : k < (s.fieldsOf a).length := by omega
    have harg : s.fieldAt ((s.arrs.getD a []).getD k 0) = (s.fieldsOf a).getD k default :=
      fieldAt_round s a k hk
    rw [List.range'_succ, foldlM_except_cons]
    cases hap : ap (.struct n d (s.fieldsOf a)) ((s.fieldsOf a).getD k default) with
    | none =>
      have hg : fieldGen ap s.curTy (s.fieldAt ((s.arrs.getD a []).getD k 0)) = .nil := by
        rw [curTy_struct hcur, harg]
        unfold fieldGen
        rw [hap]
      rw [addFieldRound_nil hg]
      obtain ⟨s1, h1, h2, h3, h4, h5, h6⟩ := ih (k + 1) s hcur hcode (by omega)
      refine ⟨s1, h1, h2, ?_, h4, ?_, h6⟩
      · rw [h3]; simp only [pureRounds, hap]
      · rw [h5]; simp only [pureRounds, hap]
    | some f =>
      have hg : fieldGen ap s.curTy (s.fieldAt ((s.arrs.getD a []).getD k 0))
          = .modifyField f := by
        rw [curTy_struct hcur, harg]
        unfold fieldGen
        rw [hap]
      rw [addFieldRound_modifyField hg]
      obtain ⟨s2, e1, e2, e3, e4, e5, e6⟩ := evalModifyField_struct f hcur hcode
      have hev : evalTransform (fieldGen ap s.curTy (s.fieldAt ((s.arrs.getD a []).getD k 0))) s
          = .ok (true, s2) := by
        rw [hg]
        simp only [evalTransform]
        exact e1
      simp only [hev, Except.map, Except.bind]
      obtain ⟨s1, h1, h2, h3, h4, h5, h6⟩ :=
        ih (k + 1) { s2 with transforms := s2.transforms ++ [.plain (.modifyField f)] }
          e2 e4 (by
            show k + 1 + m = (s2.fieldsOf a).length
            rw [e3, List.length_map]
            omega)
      have hf : St.fieldsOf { s2 with transforms := s2.transforms ++ [.plain (.modifyField f)] } a
          = (s.fieldsOf a).map f := e3
      rw [hf] at h3 h5
      refine ⟨s1, h1, h2, ?_, h4, ?_, ?_⟩
      · rw [h3]; simp only [pureRounds, hap]
      · rw [h5]
        show s2.transforms ++ [TRef.plain (.modifyField f)] ++ _ = _
        rw [e5]
        simp only [pureRounds, hap, List.map_cons, List.append_assoc, List.singleton_append]
      · rw [h6]; exact e6

/-- An `AddField` with the generator `fieldGen ap` on a struct: one round for
every field. -/
theorem addField_fieldGen_struct (ap : Ty → Field → Option (Field → Field)) {s : St}
    {n d : String} {a : Nat} {prev : List Slot}
    (hcur : s.cur = .struct n d a) (hcode : s.Code = prev ++ [.cur]) :
    ∃ s1, evalTransform (.addField (fieldGen ap)) s = .ok (true, s1) ∧
      s1.cur = .struct n d a ∧
      s1.fieldsOf a = (pureRounds ap n d (s.fieldsOf a).length 0 (s.fieldsOf a)).2 ∧
      s1.Code = prev ++ [.cur] ∧
      s1.transforms = s.transforms ++
        (pureRounds ap n d (s.fieldsOf a).length 0 (s.fieldsOf a)).1.map
          (fun g => TRef.plain (.modifyField g)) ∧
      s1.copies = s.copies := by
  obtain ⟨s1, h1, h2, h3, h4, h5, h6⟩ :=
    rounds_fieldGen ap n d a prev (s.fieldsOf a).length 0 s hcur hcode (by omega)
  refine ⟨s1, ?_, h2, h3, h4, h5, h6⟩
  simp only [evalTransform]
  unfold addFieldLoop
  split
  · rename_i t ht
    rw [hcur] at ht
    cases ht
  · rename_i n1 d1 a1 hcur1
    rw [hcur] at hcur1
    cases hcur1
    have hlen : (s.arrs.getD a []).length = (s.fieldsOf a).length := by
      simp [St.fieldsOf]
    rw [hlen, List.range_eq_range', h1]
    rfl

/-- The generated `ModifyField` transforms of the list on a struct: each is
applied once to every field, in the order of the list. -/
theorem runTransforms_modifyFields_struct (n d : String) (a : Nat) (prev : List Slot) :
    ∀ (gens : List (Field → Field)) (s : St), s.cur = .struct n d a →
      s.Code = prev ++ [.cur] →
      ∃ s1, runTransforms (gens.map (fun g => TRef.plain (.modifyField g))) s = .ok s1 ∧
        s1.cur = .struct n d a ∧
        s1.fieldsOf a = gens.foldl (fun l g => l.map g) (s.fieldsOf a) ∧
        s1.Code = prev ++ [.cur] ∧ s1.transforms = s.transforms ∧ s1.copies = s.copies := by
  intro gens
  induction gens with
  | nil =>
    intro s hcur hcode
    exact ⟨s, rfl, hcur, rfl, hcode, rfl, rfl⟩
  | cons g gens ih =>
    intro s hcur hcode
    obtain ⟨s2, e1, e2, e3, e4, e5, e6⟩ := evalModifyField_struct g hcur hcode
    obtain ⟨s1, h1, h2, h3, h4, h5, h6⟩ := ih s2 e2 e4
    refine ⟨s1, ?_, h2, ?_, h4, h5.trans e5, h6.trans e6⟩
    · simp only [List.map_cons, runTransforms, evalRef, evalTransform, e1, Except.bind, if_true]
      exact h1
    · rw [h3, e3]
      rfl

/-- On a type that is no struct the transforms of the run do nothing. -/
theorem runTransforms_plainRun_plainLike (gen : Ty → Field → Transform) {t : Ty} :
    ∀ (gens : List (Field → Field)) (s : St), s.cur = .plainLike t →
      runTransforms (.plain (.addField gen) :: gens.map (fun g => TRef.plain (.modifyField g))) s
        = .ok s := by
  have hrest : ∀ (gens : List (Field → Field)) (s : St), s.cur = .plainLike t →
      runTransforms (gens.map (fun g => TRef.plain (.modifyField g))) s = .ok s := by
    intro gens
    induction gens with
    | nil => intro s _; rfl
    | cons g gens ih =>
      intro s hcur
      have e : evalModifyField g s = .ok (true, s) := by
        unfold evalModifyField
        rw [hcur]
      simp only [List.map_cons, runTransforms, evalRef, evalTransform, e, Except.bind, if_true]
      exact ih s hcur
  intro gens s hcur
  have e : evalTransform (.addField gen) s = .ok (true, s) := by
    simp only [evalTransform]
    unfold addFieldLoop
    rw [hcur]
  simp only [runTransforms, evalRef, e, Except.bind, if_true]
  exact hrest gens s hcur

theorem map_val_slotTy (s : St) (code : List Ty) :
    (code.map Slot.val).map (fun x => Slot.val (s.slotTy x)) = code.map Slot.val := by
  rw [List.map_map]
  rfl

/-- One type spec of a run with the list `AddField (fieldGen ap)`: the entry
`pureWalk` gives is appended to `Code`, the functions generated to the list. -/
theorem walkTypeSpec_plainRun (ap : Ty → Field → Option (Field → Field)) {s : St}
    {code : List Ty} {gens : List (Field → Field)} (hW : PlainRun (fieldGen ap) code gens s)
    {docs name : String} {typ : Expr} {r : Option Ty}
    (h : ParseExpr [name] docs typ = .ok r) :
    ∃ s1, walkTypeSpec docs name typ s = .ok s1 ∧
      PlainRun (fieldGen ap) (code ++ pureWalk ap gens r.toList) (pureGens ap gens r.toList)
        s1 := by
  obtain ⟨w1, w2, w3⟩ := hW
  unfold walkTypeSpec
  rw [h]
  cases r with
  | none =>
    refine ⟨s, rfl, ?_, w2, w3⟩
    simp [pureWalk, w1]
  | some t =>
    simp only [Except.bind, Option.toList]
    have hplain : ∀ t : Ty, (∀ n d fs, t ≠ .struct n d fs) →
        (beginSpec t s).cur = .plainLike t ∧ pureWalk ap gens [t] = [t] ∧
        pureGens ap gens [t] = gens := by
      intro t ht
      cases t with
      | struct n d fs => exact absurd rfl (ht n d fs)
      | plain n d x => exact ⟨rfl, rfl, rfl⟩
      | array n d x => exact ⟨rfl, rfl, rfl⟩
      | map n d x y => exact ⟨rfl, rfl, rfl⟩
    have hdone : ∀ t : Ty, (∀ n d fs, t ≠ .struct n d fs) →
        ∃ s1, (runTransforms s.transforms (beginSpec t s)).map endSpec = .ok s1 ∧
          PlainRun (fieldGen ap) (code ++ pureWalk ap gens [t]) (pureGens ap gens [t]) s1 := by
      intro t ht
      obtain ⟨p1, p2, p3⟩ := hplain t ht
      rw [w2, runTransforms_plainRun_plainLike (fieldGen ap) gens _ p1]
      refine ⟨_, rfl, ?_, ?_, ?_⟩
      · show (beginSpec t s).Code.map (fun x => Slot.val ((beginSpec t s).slotTy x)) = _
        rw [beginSpec_code, w1, List.map_append, map_val_slotTy, p2, List.map_append]
        simp only [List.map_cons, List.map_nil, St.slotTy, curTy_plainLike p1]
      · show (beginSpec t s).transforms = _
        rw [(beginSpec_frame t s).2.2.2.1, w2, p3]
      · show (beginSpec t s).copies = _
        rw [(beginSpec_frame t s).2.2.2.2.2, w3]
    cases t with
    | plain n d x => exact hdone _ (fun _ _ _ e => Ty.noConfusion e)
    | array n d x => exact hdone _ (fun _ _ _ e => Ty.noConfusion e)
    | map n d x y => exact hdone _ (fun _ _ _ e => Ty.noConfusion e)
    | struct n d fs =>
      have hcur : (beginSpec (.struct n d fs) s).cur = .struct n d 0 := rfl
      have hcode : (beginSpec (.struct n d fs) s).Code = code.map Slot.val ++ [.cur] := by
        rw [beginSpec_code, w1]
      have hfs : (beginSpec (.struct n d fs) s).fieldsOf 0 = fs := by
        show (List.range fs.length).map (fun id => fs.getD id default) = fs
        have := range_map_getD_append [] fs default
        simpa using this
      obtain ⟨s2, a1, a2, a3, a4, a5, a6⟩ := addField_fieldGen_struct ap hcur hcode
      obtain ⟨s3, b1, b2, b3, b4, b5, b6⟩ :=
        runTransforms_modifyFields_struct n d 0 (code.map Slot.val) gens s2 a2 a4
      have hrun : runTransforms s.transforms (beginSpec (.struct n d fs) s) = .ok s3 := by
        rw [w2, runTransforms_cons]
        simp only [evalRef, a1, Except.bind, if_true]
        exact b1
      rw [hrun]
      refine ⟨_, rfl, ?_, ?_, ?_⟩
      · show s3.Code.map (fun x => Slot.val (s3.slotTy x)) = _
        rw [b4, List.map_append, map_val_slotTy]
        simp only [List.map_cons, List.map_nil, St.slotTy, curTy_struct b2, b3, a3, hfs,
          pureWalk, List.map_append]
      · show s3.transforms = _
        rw [b5, a5, (beginSpec_frame _ s).2.2.2.1, w2, hfs]
        simp only [pureGens, List.map_append, List.cons_append]
      · show s3.copies = _
        rw [b6, a6, (beginSpec_frame _ s).2.2.2.2.2, w3]

theorem pureWalk_append (ap : Ty → Field → Option (Field → Field)) :
    ∀ (l1 l2 : List Ty) (gens : List (Field → Field)),
      pureWalk ap gens (l1 ++ l2) = pureWalk ap gens l1 ++ pureWalk ap (pureGens ap gens l1) l2 ∧
      pureGens ap gens (l1 ++ l2) = pureGens ap (pureGens ap gens l1) l2 := by
  intro l1
  induction l1 with
  | nil => intro l2 gens; exact ⟨rfl, rfl⟩
  | cons t l1 ih =>
    intro l2 gens
    cases t with
    | struct n d fs =>
      simp only [List.cons_append, pureWalk, pureGens]
      exact ⟨congrArg _ (ih l2 _).1, (ih l2 _).2⟩
    | plain n d x =>
      simp only [List.cons_append, pureWalk, pureGens]
      exact ⟨congrArg _ (ih l2 _).1, (ih l2 _).2⟩
    | array n d x =>
      simp only [List.cons_append, pureWalk, pureGens]
      exact ⟨congrArg _ (ih l2 _).1, (ih l2 _).2⟩
    | map n d x y =>
      simp only [List.cons_append, pureWalk, pureGens]
      exact ⟨congrArg _ (ih l2 _).1, (ih l2 _).2⟩

/-- The walk of a run with the list `AddField (fieldGen ap)` over specs whose
types lift to `ts`. -/
theorem walk_plainRun (ap : Ty → Field → Option (Field → Field)) :
    ∀ (l : List (String × Spec)) (s : St) (code : List Ty) (gens : List (Field → Field))
      (ts : List Ty), PlainRun (fieldGen ap) code gens s → liftAll l = .ok ts →
      ∃ s1, l.foldlM (fun s1 p => walkSpec p.1 s1 p.2) s = .ok s1 ∧
        PlainRun (fieldGen ap) (code ++ pureWalk ap gens ts) (pureGens ap gens ts) s1 := by
  intro l
  induction l with
  | nil =>
    intro s code gens ts hW hl
    simp only [liftAll] at hl
    cases hl
    refine ⟨s, rfl, ?_⟩
    simpa [pureWalk, pureGens] using hW
  | cons p l ih =>
    intro s code gens ts hW hl
    obtain ⟨docs, sp⟩ := p
    rw [foldlM_except_cons]
    cases sp with
    | importSpec n v =>
      simp only [liftAll] at hl
      simp only [walkSpec, Except.bind]
      obtain ⟨f1, _, f3, _, _, _, f7⟩ := walkImportSpec_frame n v s
      exact ih _ code gens ts ⟨f1.trans hW.1, f3.trans hW.2.1, f7.trans hW.2.2⟩ hl
    | valueSpec =>
      simp only [liftAll] at hl
      simp only [walkSpec, Except.bind]
      exact ih _ code gens ts hW hl
    | typeSpec name typ =>
      simp only [liftAll] at hl
      rw [except_bind_eq_ok] at hl
      obtain ⟨r, hr, hl2⟩ := hl
      rw [except_bind_eq_ok] at hl2
      obtain ⟨ts2, hts2, hl3⟩ := hl2
      cases hl3
      obtain ⟨s2, e1, e2⟩ := walkTypeSpec_plainRun ap hW hr
      simp only [walkSpec, e1, Except.bind]
      obtain ⟨s1, g1, g2⟩ := ih s2 _ _ ts2 e2 hts2
      refine ⟨s1, g1, ?_⟩
      rw [(pureWalk_append ap r.toList ts2 gens).1, (pureWalk_append ap r.toList ts2 gens).2,
        ← List.append_assoc]
      exact g2

/-- A run with the one transform `AddField (fieldGen ap)` on a file whose
types lift to `ts`: the code is `pureWalk ap [] ts`, the general list is the
`AddField` followed by the transforms generated, and `copies` is empty. -/
theorem fileFromAST_fieldGen (file : AstFile) (pkgName : String)
    (ap : Ty → Field → Option (Field → Field)) (ts : List Ty)
    (hl : liftAll (allSpecs file.Decls) = .ok ts) :
    ∃ out, FileFromAST file pkgName [.addField (fieldGen ap)] = .ok out ∧
      out.Code = pureWalk ap [] ts ∧
      out.transforms = .addField (fieldGen ap) ::
        (pureGens ap [] ts).map (fun g => Transform.modifyField g) ∧
      out.copies = [] := by
  have h0 : PlainRun (fieldGen ap) [] []
      (partitionTransforms [.addField (fieldGen ap)] (initialState file pkgName)) :=
    ⟨rfl, rfl, rfl⟩
  obtain ⟨s1, e1, e2, e3, e4⟩ := walk_plainRun ap _ _ [] [] ts h0 hl
  rw [← walk_eq_foldlM] at e1
  unfold FileFromAST
  rw [e1]
  simp only [Except.bind, finish, e4, List.map_nil, secondPass, foldlM_except_nil, Except.map]
  refine ⟨_, rfl, ?_, ?_, rfl⟩
  · show s1.Code.map s1.slotTy = _
    rw [e2, List.map_map]
    simp only [List.nil_append]
    exact List.map_id _
  · show s1.transforms.map s1.transformOf = _
    rw [e3, List.map_cons, List.map_map]
    rfl

/-! ## The rounds of `AddField`, for every generator -/

/-- A loop over `0, …, n - 1` that returns goes through states `σ 0, …, σ n`,
one round from each to the next. -/
theorem foldlM_range_chain {ε β : Type} (f : β → Nat → Except ε β) :
    ∀ (n : Nat) (b b1 : β), (List.range n).foldlM f b = .ok b1 →
      ∃ σ : Nat → β, σ 0 = b ∧ σ n = b1 ∧ ∀ k < n, f (σ k) k = .ok (σ (k + 1)) := by
  intro n
  induction n with
  | zero =>
    intro b b1 h
    rw [List.range_zero, foldlM_except_nil] at h
    cases h
    exact ⟨fun _ => b, rfl, rfl, fun k hk => absurd hk (Nat.not_lt_zero k)⟩
  | succ n ih =>
    intro b b1 h
    rw [List.range_succ, foldlM_except_append, except_bind_eq_ok] at h
    obtain ⟨b2, h1, h2⟩ := h
    rw [foldlM_except_cons, except_bind_eq_ok] at h2
    obtain ⟨b3, h3, h4⟩ := h2
    rw [foldlM_except_nil] at h4
    cases h4
    obtain ⟨σ, s0, sn, hσ⟩ := ih b b2 h1
    refine ⟨fun k => if k ≤ n then σ k else b1, ?_, ?_, ?_⟩
    · simp [s0]
    · simp
    · intro k hk
      by_cases hkn : k < n
      · have h5 : k ≤ n := by omega
        have h6 : k + 1 ≤ n := by omega
        simp only [h5, h6, if_true]
        exact hσ k hkn
      · have h5 : k = n := by omega
        subst h5
        simp only [Nat.le_refl, if_true, sn]
        have h6 : ¬ (k + 1 ≤ k) := by omega
        simp only [h6, if_false]
        exact h3

/-- Along a chain of states whose steps only append to the lists, every state
is a prefix, as far as the lists go, of the last one. -/
theorem chain_grows (σ : Nat → St) (n : Nat) (h : ∀ k < n, Grows (σ k) (σ (k + 1))) :
    ∀ k ≤ n, Grows (σ k) (σ n) := by
  induction n with
  | zero =>
    intro k hk
    have : k = 0 := by omega
    subst this
    exact grows_refl _
  | succ n ih =>
    intro k hk
    by_cases hkn : k ≤ n
    · exact grows_trans (ih (fun j hj => h j (by omega)) k hkn) (h n (by omega))
    · have : k = n + 1 := by omega
      subst this
      exact grows_refl _

/-- An `AddField` on a struct: one round for every field the struct holds
when the `AddField` starts; a round whose generator returns nil changes
nothing; a round whose generator returns a transform evaluates it once, on
the state of the round, and appends it to `f.transforms` (and a
`CopyIntoStruct` to `f.copies`), where it still is when the `AddField`
returns. -/
theorem addField_rounds (gen : Ty → Field → Transform) (s : St) (n d : String) (a : Nat)
    (b : Bool) (s1 : St) (hcur : s.cur = .struct n d a)
    (h : evalTransform (.addField gen) s = .ok (b, s1)) :
    b = true ∧ ∃ σ : Nat → St, σ 0 = s ∧ σ (s.fieldsOf a).length = s1 ∧
      ∀ k < (s.fieldsOf a).length,
        (gen (σ k).curTy ((σ k).fieldAt (((σ k).arrs.getD a []).getD k 0)) = .nil ∧
          σ (k + 1) = σ k) ∨
        (gen (σ k).curTy ((σ k).fieldAt (((σ k).arrs.getD a []).getD k 0)) ≠ .nil ∧
          ∃ b2 s2,
            evalTransform (gen (σ k).curTy ((σ k).fieldAt (((σ k).arrs.getD a []).getD k 0)))
              (σ k) = .ok (b2, s2) ∧
            σ (k + 1) = { s2 with
              copies := s2.copies ++
                genCopies (gen (σ k).curTy ((σ k).fieldAt (((σ k).arrs.getD a []).getD k 0)))
                  (σ k).store.length
              transforms := s2.transforms ++
                [genRef (gen (σ k).curTy ((σ k).fieldAt (((σ k).arrs.getD a []).getD k 0)))
                  (σ k).store.length] } ∧
            ∃ post, s1.transforms = s2.transforms ++
              genRef (gen (σ k).curTy ((σ k).fieldAt (((σ k).arrs.getD a []).getD k 0)))
                (σ k).store.length :: post) := by
  simp only [evalTransform] at h
  unfold addFieldLoop at h
  split at h
  · rename_i t ht
    rw [hcur] at ht
    cases ht
  · rename_i n1 d1 a1 hcur1
    rw [hcur] at hcur1
    cases hcur1
    rw [except_map_eq_ok] at h
    obtain ⟨s2, h2, h3⟩ := h
    cases h3
    have hlen : (s.arrs.getD a []).length = (s.fieldsOf a).length := by
      simp [St.fieldsOf]
    rw [hlen] at h2
    obtain ⟨σ, s0, sn, hσ⟩ := foldlM_range_chain _ _ _ _ h2
    refine ⟨rfl, σ, s0, sn, ?_⟩
    have hgrow : ∀ k ≤ (s.fieldsOf a).length, Grows (σ k) (σ (s.fieldsOf a).length) :=
      chain_grows σ _ (fun k hk =>
        addFieldRound_grows (fun st fld s b s1 hev => evalTransform_grows _ s b s1 hev) (hσ k hk))
    intro k hk
    rcases addFieldRound_spec gen _ a k (σ k) (σ (k + 1)) (hσ k hk) with h1 | ⟨h1, b2, s3, h4, h5⟩
    · exact Or.inl h1
    · refine Or.inr ⟨h1, b2, s3, h4, h5, ?_⟩
      obtain ⟨⟨ext, hext⟩, _⟩ := hgrow (k + 1) (by omega)
      rw [sn] at hext
      refine ⟨ext, ?_⟩
      rw [hext, h5]
      simp

/-- An entry of `f.transforms` stays in the list, at its place, through the
rest of the walk; on a later type spec it is evaluated, on the state the
entries before it leave, once each of them has returned `true`. -/
theorem entry_on_later_spec (decls : List Decl) (s s1 : St) (pre post : List TRef) (r : TRef)
    (hT : s.transforms = pre ++ r :: post) (hw : walk decls s = .ok s1) :
    ∃ ext, s1.transforms = pre ++ r :: (post ++ ext) ∧
      ∀ (docs name : String) (typ : Expr) (t : Ty) (s2 : St),
        ParseExpr [name] docs typ = .ok (some t) →
        runFlagged pre (beginSpec t s1) = .ok (true, s2) →
        walkTypeSpec docs name typ s1
          = ((evalRef r s2).bind
              (fun q => if q.1 then runTransforms (post ++ ext) q.2 else .ok q.2)).map
            endSpec := by
  obtain ⟨⟨ext, hext⟩, _⟩ := walk_grows decls s s1 hw
  refine ⟨ext, by rw [hext, hT]; simp, ?_⟩
  intro docs name typ t s2 ht hreach
  rw [walkTypeSpec_lifted s1 ht, hext, hT]
  have : pre ++ r :: post ++ ext = pre ++ r :: (post ++ ext) := by simp
  rw [this, runTransforms_append_reached pre _ _ _ hreach, runTransforms_cons]

/-! ## Runs with an `ExcludeType`: the steps -/

/-- C1 (defect of the code): a `CopyIntoStruct` the caller passes goes to
`f.copies` only, so the walk never evaluates it: on scenario S4 the struct
`Src` stays in `Code` and `Dst` loses `Slot` without receiving `X` and `Y`.
The case `*CopyIntoStruct` of `evalTransform` itself would absorb `Src`: on
the state right after `Src` is appended it returns `false` and empties
`Code`. -/
theorem C1_supplied_copy_never_evaluated :
    (FileFromAST s4File "" [.copyIntoStruct s4Copy]).toOption.map
        (fun f => f.Code.map summary)
      = some [("Src", ["X", "Y"]), ("Dst", ["Before", "After"])] ∧
    (evalTransform (.copyIntoStruct s4Copy)
        (beginSpec (.struct "Src" "" [.mk (.plain "X" "" "int") (fun _ => none)])
          (initialState s4File ""))).toOption.map (fun r => (r.1, r.2.Code.length))
      = some (false, 0) := by
  constructor <;> decide

/-- C2 as stated fails when two entries of `Code` have the name of the target:
the pass takes the last of them.  With `type Dst struct{ Slot int }; type Dst
struct{ Other int }` and the target `Dst.Slot`, the first `Dst` (whose field
`Slot` is at index 0) keeps `Slot`, and the second `Dst` loses `Other`. -/
theorem C2_counterexample_two_targets :
    (FileFromAST twoDstFile "" []).toOption.map (fun f => f.Code.map summary)
      = some [("Dst", ["Slot"]), ("Dst", ["Other"])] ∧
    (FileFromAST twoDstFile "" [.copyIntoStruct s4Copy]).toOption.map
      (fun f => f.Code.map summary) = some [("Dst", ["Slot"]), ("Dst", [])] := by
  constructor <;> decide

/-- C2, amended: at the turn of a `CopyIntoStruct` `ci` in the second pass,
when the last entry of `Code` named `ci.StructName` (at index `j`) is a
struct whose first field named `ci.FieldToReplace` is at index `i`, the round
sets the fields of that struct to `fields[0..i) ++ ci.with ++ fields[i+1..]`
and leaves every other entry as it is; the pass goes on from there. -/
theorem C2_second_pass_splices (pre post : List CopyIntoStruct) (ci : CopyIntoStruct)
    (code c : List Ty) (j i : Nat) (n d : String) (fields : List Field) (fld : Field)
    (hpre : secondPass pre code = .ok c)
    (hj : c.get? j = some (.struct n d fields)) (hn : n = ci.StructName)
    (hlast : ∀ j1 t, j < j1 → c.get? j1 = some t → t.GetName ≠ ci.StructName)
    (hi : fields.get? i = some fld) (hf : fld.GetName = ci.FieldToReplace)
    (hfirst : ∀ i1 f1, i1 < i → fields.get? i1 = some f1 → f1.GetName ≠ ci.FieldToReplace) :
    copyStep ci c
      = .ok (c.set j (.struct n d (fields.take i ++ ci.with_ ++ fields.drop (i + 1)))) ∧
    secondPass (pre ++ ci :: post) code
      = secondPass post
          (c.set j (.struct n d (fields.take i ++ ci.with_ ++ fields.drop (i + 1)))) := by
  have hsi : structIdxFrom ci.StructName 0 0 c = j := by
    rw [structIdxFrom_last ci.StructName c 0 0 j _ hj hn hlast]
    omega
  have hfi : fieldIdxFrom ci.FieldToReplace 0 fields = i := by
    rw [fieldIdxFrom_first ci.FieldToReplace fields 0 i fld hi hf hfirst]
    omega
  have hlen : i + 1 ≤ fields.length := by
    rcases Nat.lt_or_ge i fields.length with h | h
    · exact h
    · rw [List.get?_eq_none.2 h] at hi
      cases hi
  have hstep : copyStep ci c
      = .ok (c.set j (.struct n d (fields.take i ++ ci.with_ ++ fields.drop (i + 1)))) := by
    unfold copyStep
    rw [hsi, hj]
    simp only [hfi, if_pos hlen]
  refine ⟨hstep, ?_⟩
  rw [secondPass_append, hpre]
  show secondPass (ci :: post) c = _
  unfold secondPass
  rw [foldlM_except_cons, hstep]
  rfl

/-- C2, witness: the `Code` of scenario S4 (`Src`, then `Dst` with `Before`,
`Slot`, `After`) and the `CopyIntoStruct` with `X`, `Y` accumulated: `Dst`
gets `Before`, `X`, `Y`, `After`. -/
theorem C2_second_pass_splices_witness :
    copyStep s4CopyFull s4Code
      = .ok (s4Code.set 1 (.struct "Dst" ""
          ([intField "Before", intField "Slot", intField "After"].take 1 ++ s4CopyFull.with_ ++
            [intField "Before", intField "Slot", intField "After"].drop (1 + 1)))) ∧
    secondPass ([] ++ s4CopyFull :: []) s4Code
      = secondPass []
          (s4Code.set 1 (.struct "Dst" ""
            ([intField "Before", intField "Slot", intField "After"].take 1 ++
              s4CopyFull.with_ ++
              [intField "Before", intField "Slot", intField "After"].drop (1 + 1)))) :=
  C2_second_pass_splices [] [] s4CopyFull s4Code s4Code 1 1 "Dst" ""
    [intField "Before", intField "Slot", intField "After"] (intField "Slot")
    rfl rfl rfl
    (by
      intro j1 t hlt hget
      match j1, hlt, hget with
      | j + 2, _, hget => simp [s4Code] at hget)
    rfl rfl
    (by
      intro i1 f1 hlt hget
      match i1, hlt, hget with
      | 0, _, hget =>
        simp only [List.get?_cons_zero, Option.some.injEq] at hget
        subst hget
        decide)

/-- C3 (defect of the code): when no entry of `Code` is named `StructName`,
`structIdx` stays 0 and the first entry is taken for the target; when the
target has no field named `FieldToReplace`, `fieldIdx` stays 0 and the first
field is replaced.  With `type A struct{ X int }` both runs return `A` without
its field `X`, where the claim promises `Code` as it was. -/
theorem C3_missing_target_is_not_a_noop :
    (FileFromAST oneStructFile "" []).toOption.map (fun f => f.Code.map summary)
      = some [("A", ["X"])] ∧
    (FileFromAST oneStructFile "" [.copyIntoStruct missingCopy]).toOption.map
        (fun f => f.Code.map summary) = some [("A", [])] ∧
    (FileFromAST oneStructFile "" [.copyIntoStruct missingFieldCopy]).toOption.map
        (fun f => f.Code.map summary) = some [("A", [])] := by
  refine ⟨?_, ?_, ?_⟩ <;> decide

/-- C6 as stated fails: with `import "x/k"` and `type A **k.T` the output
keeps the key `k`, although no type name of the output code has the
qualifier `k` once a single leading `*` is stripped (the prefix of `**k.T` is
then `*k`). -/
theorem C6_counterexample_double_pointer :
    ((resultOf (FileFromAST doublePointerFile "" [])).Imports "k").isSome = true ∧
    (resultOf (FileFromAST doublePointerFile "" [])).Code.map Ty.GetTypeNames = [["**k.T"]] ∧
    ((resultOf (FileFromAST doublePointerFile "" [])).Code.flatMap trackedNames).any
      (fun n => decide (specQualifier n = some "k")) = false := by
  refine ⟨?_, ?_, ?_⟩ <;> decide

/-- C6, amended: the keys of the output `Imports` are exactly the keys `k`
under which the walk stored an import (an import spec of the file matched by
no `ExcludeImport`, with key `k`) and for which an entry of the output code
reports (a struct through one of its fields, another type itself) a type name
that holds a `.` and whose text before the first `.`, with every `*` left
out, is `k`. -/
theorem C6_import_keys (file : AstFile) (pkgName : String) (transforms : List Transform)
    (out : File) (h : FileFromAST file pkgName transforms = .ok out) (k : String) :
    (out.Imports k).isSome = true ↔
      (∃ imp ∈ importsOf file, importKey imp = k ∧
        ∀ m, Transform.excludeImport m ∈ transforms → m imp = false) ∧
      (∃ t ∈ out.Code, ∃ n, ReportsName t n ∧ HasQualifier n k) := by
  obtain ⟨s, hw, hf⟩ := fileFromAST_ok h
  obtain ⟨w1, w2⟩ := walk_imports_of_file hw
  have hany : (out.Code.flatMap trackedNames).any (fun n => decide (qualifier n = some k)) = true
      ↔ ∃ t ∈ out.Code, ∃ n, ReportsName t n ∧ HasQualifier n k := by
    simp only [List.any_eq_true, List.mem_flatMap, decide_eq_true_eq]
    constructor
    · rintro ⟨n, ⟨t, ht, hn⟩, hq⟩
      exact ⟨t, ht, n, (reportsName_iff t n).2 hn, (hasQualifier_iff n k).2 hq⟩
    · rintro ⟨t, ht, n, hn, hq⟩
      exact ⟨n, ⟨t, ht, (reportsName_iff t n).1 hn⟩, (hasQualifier_iff n k).1 hq⟩
  rw [← w2 k, ← hany]
  constructor
  · intro hsome
    obtain ⟨v, hv⟩ := Option.isSome_iff_exists.1 hsome
    obtain ⟨v0, _, _, _, ⟨s2, hw2, hk⟩, hq⟩ := (output_import h k v).1 hv
    rw [hw] at hw2
    cases hw2
    exact ⟨by rw [hk]; rfl, hq⟩
  · rintro ⟨hsome, hq⟩
    obtain ⟨v0, hv0⟩ := Option.isSome_iff_exists.1 hsome
    obtain ⟨m1, _, m3, _⟩ := w1 k v0 hv0
    have := (output_import h k { v0 with used := true }).2
      ⟨v0, rfl, m1, m3, ⟨s, hw, hv0⟩, hq⟩
    rw [this]
    rfl

/-- C6, witness: scenario S2, the imports `"x/y/z"` and `"u/v"` with `type A
struct{ F z.T }`: the output holds the key `z`, not the key `v`, and no other
key. -/
theorem C6_import_keys_witness :
    (resultOf (FileFromAST s2File "" [])).Imports "z" = some ⟨"", "x/y/z", true⟩ ∧
    (resultOf (FileFromAST s2File "" [])).Imports "v" = none ∧
    (∀ k, ((resultOf (FileFromAST s2File "" [])).Imports k).isSome = true → k = "z") :=
  ⟨by decide, by decide, fun k hk => by
    obtain ⟨_, t, ht, n, hn, hq⟩ :=
      (C6_import_keys s2File "" [] (resultOf (FileFromAST s2File "" [])) rfl k).1 hk
    have hcode : (resultOf (FileFromAST s2File "" [])).Code
        = [.struct "A" "" [.mk (.plain "F" "" "z.T") (fun _ => none)]] := rfl
    rw [hcode, List.mem_singleton] at ht
    subst ht
    have hn1 : n = "z.T" := by
      have := (reportsName_iff _ _).1 hn
      simpa [trackedNames, Field.GetTypeNames, Ty.GetTypeNames] using this
    subst hn1
    have hq1 := (hasQualifier_iff _ _).1 hq
    have hz : qualifier "z.T" = some "z" := by decide
    rw [hz] at hq1
    exact (Option.some.inj hq1).symm⟩

/-- C7 (defect of the code): the tracker takes the text before the first `.`
of a reported name and removes `*` only; a name such as `[]k.T` (the element
text of `type A [][]k.T`) or `map[string]k.T` gives `[]k` or `map[string]k`,
which is no import key, so the import `k` is deleted although `k.T` appears
in the code.  For `type A []k.T` the import is kept. -/
theorem C7_nested_qualifier_loses_import :
    (resultOf (FileFromAST nestedSliceFile "" [])).Code.map Ty.GetTypeNames = [["[]k.T"]] ∧
    (resultOf (FileFromAST nestedSliceFile "" [])).Imports "k" = none ∧
    (resultOf (FileFromAST nestedMapFile "" [])).Code.map Ty.GetTypeNames
      = [["string", "map[string]k.T"]] ∧
    (resultOf (FileFromAST nestedMapFile "" [])).Imports "k" = none ∧
    (resultOf (FileFromAST sliceFile "" [])).Imports "k" = some ⟨"", "x/k", true⟩ := by
  refine ⟨?_, ?_, ?_, ?_, ?_⟩ <;> decide

/-- C8 (defect of the code): `FileFromAST` panics.  With a `CopyIntoStruct`
and no type in `Code`, `f.Code[structIdx]` is out of range; with a target
struct without fields, `st.Fields[fieldIdx+1:]` is out of bounds; with an
`AddField` whose generator returns an `ExcludeType` that matches the struct,
the second field truncates a `Code` that is already empty. -/
theorem C8_construction_panics :
    panicOf (FileFromAST emptyFile "" [.copyIntoStruct s4Copy]) = some .indexOutOfRange ∧
    panicOf (FileFromAST emptyStructFile "" [.copyIntoStruct s4Copy]) = some .sliceBounds ∧
    panicOf (FileFromAST s4File "" [.addField excludeOwner]) = some .sliceBounds := by
  refine ⟨?_, ?_, ?_⟩ <;> decide

/-- C9: the entries of the output `Code` originate, one by one and in order,
from a sublist of the specs of the file in source order: every entry from a
type spec of its own, later entries from later specs.  An entry originates
from a type spec when the spec lifts to a type `t` and the entry is `t` or,
for a `t` that is no struct, the result on `t` of a `ModifyType` function of
the list (or of a transform a generator returns), up to the fields of a
struct.  When these functions keep the name of every type that is no struct
and that a type spec of the file lifts to, the names of the entries are a
sublist of the names of the type specs in source order. -/
theorem C9_code_in_source_order (file : AstFile) (pkgName : String)
    (transforms : List Transform) (out : File)
    (h : FileFromAST file pkgName transforms = .ok out) :
    (∃ kept, List.Sublist kept (allSpecs file.Decls) ∧
      List.Forall₂ (OriginatesFrom transforms) kept out.Code) ∧
    ((∀ tr ∈ transforms, ∀ apply, Transform.Applies tr apply →
        ∀ p ∈ allSpecs file.Decls, ∀ name typ t, p.2 = .typeSpec name typ →
          ParseExpr [name] p.1 typ = .ok (some t) → (∀ n d fs, t ≠ .struct n d fs) →
          (apply t).GetName = t.GetName) →
      List.Sublist (out.Code.map Ty.GetName) (declaredTypeNames file)) := by
  obtain ⟨kept, k1, k2⟩ := fileFromAST_origin h
  refine ⟨⟨kept, k1, k2⟩, ?_⟩
  intro hkeep
  rw [origin_names hkeep kept out.Code (fun p hp => k1.subset hp) k2]
  exact sublist_flatMap specTypeNames k1

/-- C9, witness: `mixedFile` (types `A`, `F`, `B`, `C`).  With a `ModifyType`
that renames every type to `B` and an `ExcludeType` on the name `C`, the
output entries `A`, `B` originate in order from specs of the file.  With an
`ExcludeType` on the name `B` and an `AddField` that generates a
`ModifyField` per field, nothing is renamed and the output names `A`, `C` are
a sublist of the declared names. -/
theorem C9_code_in_source_order_witness :
    (∃ kept, List.Sublist kept (allSpecs mixedFile.Decls) ∧
      List.Forall₂ (OriginatesFrom [.modifyType renameToB, .excludeType (nameIs "C")]) kept
        (resultOf (FileFromAST mixedFile ""
          [.modifyType renameToB, .excludeType (nameIs "C")])).Code) ∧
    (resultOf (FileFromAST mixedFile ""
      [.modifyType renameToB, .excludeType (nameIs "C")])).Code.map Ty.GetName = ["A", "B"] ∧
    List.Sublist
      ((resultOf (FileFromAST mixedFile ""
        [.excludeType (nameIs "B"), .addField tagWithName])).Code.map Ty.GetName)
      (declaredTypeNames mixedFile) ∧
    (resultOf (FileFromAST mixedFile ""
      [.excludeType (nameIs "B"), .addField tagWithName])).Code.map Ty.GetName = ["A", "C"] ∧
    declaredTypeNames mixedFile = ["A", "F", "B", "C"] :=
  ⟨(C9_code_in_source_order mixedFile "" [.modifyType renameToB, .excludeType (nameIs "C")]
      (resultOf (FileFromAST mixedFile "" [.modifyType renameToB, .excludeType (nameIs "C")]))
      rfl).1,
    by decide,
    (C9_code_in_source_order mixedFile "" [.excludeType (nameIs "B"), .addField tagWithName]
      (resultOf (FileFromAST mixedFile "" [.excludeType (nameIs "B"), .addField tagWithName]))
      rfl).2
      (by
        intro tr htr apply ha
        simp only [List.mem_cons, List.mem_singleton, List.not_mem_nil, or_false] at htr
        rcases htr with rfl | rfl
        · cases ha
        · cases ha with
          | addField gen st fld apply ha1 =>
            simp only [tagWithName] at ha1
            cases ha1),
    by decide, by decide⟩

/-- C10 as stated fails: a `ModifyType` may return a type without a name; with
`type A int` and such a function the entry of `Code` has the empty name. -/
theorem C10_counterexample_unnamed :
    declaredTypeNames oneIntFile = ["A"] ∧
    (FileFromAST oneIntFile "" [.modifyType unname]).toOption.map
      (fun f => f.Code.map Ty.GetName) = some [""] := by
  constructor <;> decide

/-- C10, amended: when every type spec declares a non-empty name and no
`ModifyType` function (passed in or generated) returns a type with an empty
name for a type that has a name, every entry of the output `Code` has a
non-empty name. -/
theorem C10_names_nonempty (file : AstFile) (pkgName : String)
    (transforms : List Transform) (out : File)
    (hdecl : ∀ n ∈ declaredTypeNames file, n ≠ "")
    (hkeep : ∀ tr ∈ transforms, Transform.KeepsNamed tr)
    (h : FileFromAST file pkgName transforms = .ok out) :
    ∀ t ∈ out.Code, t.GetName ≠ "" := by
  obtain ⟨s, hw, hf⟩ := fileFromAST_ok h
  have hn := walk_names_nonempty _ _ _ hw (initialState_settled file pkgName transforms).1
    (initialState_namesRel file pkgName transforms hkeep) hdecl
    (by rw [(initialState_settled file pkgName transforms).2]; simp)
  rw [← finish_names hf] at hn
  intro t ht
  exact hn _ (List.mem_map_of_mem _ ht)

/-- C10, witness: `mixedFile` with a `ModifyType` that renames every type to
`B`. -/
theorem C10_names_nonempty_witness :
    (resultOf (FileFromAST mixedFile "" [.modifyType renameToB])).Code.map Ty.GetName
      = ["A", "B", "B"] ∧
    ∀ t ∈ (resultOf (FileFromAST mixedFile "" [.modifyType renameToB])).Code,
      t.GetName ≠ "" :=
  ⟨by decide, C10_names_nonempty mixedFile "" [.modifyType renameToB]
    (resultOf (FileFromAST mixedFile "" [.modifyType renameToB]))
    (by decide)
    (by
      intro tr htr
      simp only [List.mem_singleton] at htr
      subst htr
      intro t _
      cases t <;> simp [renameToB, Ty.GetName])
    rfl⟩

/-- C11: the function `ParseExpr` follows the dispatch table.  An identifier,
a qualified identifier, a pointer, an array, a map and an interface body give
the `PlainType`, `ArrayType` or `MapType` of the table; a struct body gives a
`StructType` (whenever the lift returns; it returns when the lift of the
fields does, and so when every tag literal in the body is absent or goes
through the tag loop); a function type and every other kind give nil.  A result that
is not nil has the first name supplied (the empty name when there is none)
and the doc string supplied.  The function `stringFromExpr` renders by the
same rules, a struct body as `struct{}` and a function type as `func()`. -/
theorem C11_parseExpr_dispatch (names : List String) (docs : String) :
    (∀ n, ParseExpr names docs (.ident n)
      = .ok (some (.plain (firstName names) docs n))) ∧
    (∀ x sel, ParseExpr names docs (.selectorExpr x sel)
      = .ok (some (.plain (firstName names) docs (x ++ "." ++ sel)))) ∧
    (∀ e, ParseExpr names docs (.starExpr e)
      = .ok (some (.plain (firstName names) docs ("*" ++ stringFromExpr e)))) ∧
    (∀ e, ParseExpr names docs (.arrayType e)
      = .ok (some (.array (firstName names) docs (stringFromExpr e)))) ∧
    (∀ k v, ParseExpr names docs (.mapType k v)
      = .ok (some (.map (firstName names) docs (stringFromExpr k) (stringFromExpr v)))) ∧
    (∀ fields r, ParseExpr names docs (.structType fields) = .ok r →
      ∃ fs, r = some (.struct (firstName names) docs fs)) ∧
    (∀ fields raws, liftFields fields = .ok raws →
      ParseExpr names docs (.structType fields)
        = .ok (some (.struct (firstName names) docs (raws.filterMap RawField.toField)))) ∧
    (∀ fields, tagsParseAll fields = true →
      ∃ fs, ParseExpr names docs (.structType fields)
        = .ok (some (.struct (firstName names) docs fs))) ∧
    (∀ doc ns typ, (AstField.mk doc ns typ none).tagsParse = typ.tagsParse) ∧
    ParseExpr names docs .interfaceType
      = .ok (some (.plain (firstName names) docs "interface\x7b\x7d")) ∧
    ParseExpr names docs .funcType = .ok none ∧
    ParseExpr names docs .other = .ok none ∧
    (∀ e t, ParseExpr names docs e = .ok (some t) →
      t.GetName = firstName names ∧ t.GetDocs = docs) ∧
    firstName [] = "" ∧ (∀ n rest, firstName (n :: rest) = n) ∧
    (∀ n, stringFromExpr (.ident n) = n) ∧
    (∀ x sel, stringFromExpr (.selectorExpr x sel) = x ++ "." ++ sel) ∧
    (∀ e, stringFromExpr (.starExpr e) = "*" ++ stringFromExpr e) ∧
    (∀ e, stringFromExpr (.arrayType e) = "[]" ++ stringFromExpr e) ∧
    (∀ k v, stringFromExpr (.mapType k v)
      = "map[" ++ stringFromExpr k ++ "]" ++ stringFromExpr v) ∧
    stringFromExpr .interfaceType = "interface\x7b\x7d" ∧
    (∀ fields, stringFromExpr (.structType fields) = "struct\x7b\x7d") ∧
    stringFromExpr .funcType = "func()" := by
  refine ⟨fun _ => by simp only [ParseExpr], fun _ _ => by simp only [ParseExpr],
    fun _ => by simp only [ParseExpr], fun _ => by simp only [ParseExpr],
    fun _ _ => by simp only [ParseExpr], ?_, ?_, ?_, ?_, by simp only [ParseExpr],
    by simp only [ParseExpr], by simp only [ParseExpr], ?_, rfl, fun _ _ => rfl,
    fun _ => rfl, fun _ _ => rfl, fun _ => rfl, fun _ => rfl, fun _ _ => rfl, rfl,
    fun _ => rfl, rfl⟩
  · intro fields r h
    obtain ⟨raws, _, hr⟩ := (parseExpr_struct names docs fields r).1 h
    exact ⟨_, hr⟩
  · intro fields raws h
    exact (parseExpr_struct names docs fields _).2
      ⟨raws, (liftFields_eq_ok fields raws).1 h, rfl⟩
  · intro fields h
    obtain ⟨raws, hr⟩ := liftFields_returns fields h
    exact ⟨_, (parseExpr_struct names docs fields _).2
      ⟨raws, (liftFields_eq_ok fields raws).1 hr, rfl⟩⟩
  · intro doc ns typ
    simp [AstField.tagsParse, parseTag, Except.toBool]
  · intro e t h
    exact ⟨parseExpr_name h, parseExpr_docs h⟩

/-- C14: the lift of a struct body returns exactly when `FieldFromSpec`
returns for every field spec; the type part of each result is the lift of the
type expression of its spec, and the fields of the struct are the results
whose type part is not nil, in source order: a field spec whose type does not
lift is left out and the others stay.  A `Field` of the result has a type (it
holds a `Ty`, which is never nil). -/
theorem C14_struct_fields (names : List String) (docs : String) (fields : List AstField)
    (r : Option Ty) :
    ParseExpr names docs (.structType fields) = .ok r ↔
      ∃ raws : List RawField,
        List.Forall₂
          (fun f raw =>
            ParseExpr f.Names (DocsFromCommentGroup f.Doc) f.Typ = .ok raw.Typ ∧
            parseTag f.Tag = .ok raw.Tags) fields raws ∧
        r = some (.struct (firstName names) docs (raws.filterMap RawField.toField)) := by
  rw [parseExpr_struct]
  constructor
  · rintro ⟨raws, h1, h2⟩
    refine ⟨raws, ?_, h2⟩
    exact h1.imp (fun f raw h => (fieldFromSpec_eq_ok f raw).1 h)
  · rintro ⟨raws, h1, h2⟩
    refine ⟨raws, ?_, h2⟩
    exact h1.imp (fun f raw h => (fieldFromSpec_eq_ok f raw).2 h)

/-- C20: `FieldFromSpec` returns one result for a field spec whose tag
literals go through the tag loop; a result whose type is not nil is named by
the first identifier of the spec (the empty name for a spec without names); the
names of the fields of a lifted struct are the first names of a sublist of its
field specs, those whose type lifts, so every spec gives at most one field;
`struct{ X, Y int }` has the single field `X`. -/
theorem C20_field_first_name :
    (∀ f : AstField, f.tagsParse = true → ∃ raw, FieldFromSpec f = .ok raw) ∧
    (∀ (f : AstField) (raw : RawField) (t : Ty), FieldFromSpec f = .ok raw →
      raw.Typ = some t → t.GetName = firstName f.Names) ∧
    (∀ (names : List String) (docs : String) (fields : List AstField) (t : Ty),
      ParseExpr names docs (.structType fields) = .ok (some t) →
      ∃ kept : List AstField, List.Sublist kept fields ∧
        t.Fields.map Field.GetName = kept.map (fun f => firstName f.Names) ∧
        ∀ f ∈ kept, ∃ ft,
          ParseExpr f.Names (DocsFromCommentGroup f.Doc) f.Typ = .ok (some ft)) ∧
    (ParseExpr ["S"] "" (.structType [.mk none ["X", "Y"] (.ident "int") none])).toOption.map
      (Option.map (fun t => t.Fields.map Field.GetName)) = some (some ["X"]) ∧
    (ParseExpr ["S"] "" (.structType [.mk none [] (.ident "Base") none])).toOption.map
      (Option.map (fun t => t.Fields.map Field.GetName)) = some (some [""]) := by
  refine ⟨fieldFromSpec_returns, ?_, ?_, by decide, by decide⟩
  · intro f raw t h ht
    have hp := ((fieldFromSpec_eq_ok f raw).1 h).1
    rw [ht] at hp
    exact parseExpr_name hp
  · intro names docs fields t h
    obtain ⟨raws, h1, h2⟩ := (parseExpr_struct names docs fields _).1 h
    cases h2
    exact keptFields_names fields raws h1

/-- C12 (defect of the code): the tag loop of `FieldFromSpec` splits a piece
with `strings.Split(tag, ":")`, on every `:`, and reads the second part only;
a value that holds a `:` is cut at it.  The tag `gorm:"column:id,primaryKey"`
gives `gorm: ["column"]`, where one split on `:` and the split of the whole
text between the quotes on `,` give `["column:id", "primaryKey"]`.  The tag
`json:"f,omitempty"` gives `json: ["f", "omitempty"]`. -/
theorem C12_tag_value_cut_at_colon :
    tagOfSpec jsonTagField "json" = some (some ["f", "omitempty"]) ∧
    specTagValue "json:\"f,omitempty\"" = some ["f", "omitempty"] ∧
    tagOfSpec gormTagField "gorm" = some (some ["column"]) ∧
    specTagValue "gorm:\"column:id,primaryKey\"" = some ["column:id", "primaryKey"] := by
  refine ⟨?_, ?_, ?_, ?_⟩ <;> decide

/-- C13: after the walk of `FileFromAST`, under every key stands the import
of the last import spec of the file, in source order, that has this key and
is matched by no `ExcludeImport` of the list (nothing when there is no such
spec).  The key of an import is its alias when the alias is not empty;
otherwise its path when the path holds no `/`, and the text after the last
`/` of its path when it does.  The path is the literal without its quotes. -/
theorem C13_import_stored_under_key (file : AstFile) (pkgName : String)
    (transforms : List Transform) (s : St)
    (h : walk file.Decls (partitionTransforms transforms (initialState file pkgName)) = .ok s) :
    (∀ k, s.Imports k
      = lastWithKey k ((importsOf file).filter (fun imp => !excludedBy transforms imp))) ∧
    (∀ k l imp, importKey imp = k → lastWithKey k (l ++ [imp]) = some imp) ∧
    (∀ k l imp, importKey imp ≠ k → lastWithKey k (l ++ [imp]) = lastWithKey k l) ∧
    (∀ imp : Import, imp.Name ≠ "" → importKey imp = imp.Name) ∧
    (∀ imp : Import, imp.Name = "" → '/' ∉ imp.Path.toList → importKey imp = imp.Path) ∧
    (∀ (imp : Import) (pre suf : List Char), imp.Name = "" →
      imp.Path.toList = pre ++ '/' :: suf → '/' ∉ suf → importKey imp = String.mk suf) ∧
    (∀ n v, (ImportFromSpec n v).Path = String.mk (removeAll (Char.ofNat 34) v.toList) ∧
      (ImportFromSpec n v).Name = n.getD "" ∧ (ImportFromSpec n v).used = false) := by
  refine ⟨?_, ?_, ?_, ?_, ?_, ?_, ?_⟩
  · intro k
    have hw := walk_imports_last _ _ _ h (initialState_settled file pkgName transforms).1 k
    have hfun : (fun imp => !((partitionTransforms transforms
        (initialState file pkgName)).eximports.any (fun m => m imp)))
        = (fun imp => !excludedBy transforms imp) := by
      funext imp
      rw [eximports_any]
    rw [hfun] at hw
    have hnone : (partitionTransforms transforms (initialState file pkgName)).Imports k
        = none := by
      rw [(partitionTransforms_spec transforms (initialState file pkgName)).2.1]
      rfl
    rw [hw, hnone]
    unfold importsOf
    cases lastWithKey k ((importsIn (allSpecs file.Decls)).filter
      (fun imp => !excludedBy transforms imp)) <;> rfl
  · intro k l imp hk
    rw [lastWithKey_append, if_pos hk]
  · intro k l imp hk
    rw [lastWithKey_append, if_neg hk]
  · intro imp hn
    unfold importKey
    rw [if_pos hn]
  · intro imp hn hp
    unfold importKey
    rw [if_neg (fun e => e hn), afterLast_of_not_mem _ _ hp, string_mk_toList]
  · intro imp pre suf hn hp hs
    unfold importKey
    rw [if_neg (fun e => e hn), hp, afterLast_append _ _ _ hs]
  · intro n v
    refine ⟨rfl, ?_, rfl⟩
    cases n <;> rfl

/-- C13, witness: the imports `"a/z"`, `al "c/d"`, `"b/z"`, `"u/v"` and
`"plain"` with the exclusion "path is `u/v`": under `z` stands `b/z`, under
`al` stands `c/d`, under `plain` stands `plain`, under `v` nothing. -/
theorem C13_import_stored_under_key_witness :
    (walkedState importsFile "" [.excludeImport pathIsUV]).Imports "z"
      = lastWithKey "z"
          ((importsOf importsFile).filter
            (fun imp => !excludedBy [.excludeImport pathIsUV] imp)) ∧
    (walkedState importsFile "" [.excludeImport pathIsUV]).Imports "z"
      = some ⟨"", "b/z", false⟩ ∧
    (walkedState importsFile "" [.excludeImport pathIsUV]).Imports "al"
      = some ⟨"al", "c/d", false⟩ ∧
    (walkedState importsFile "" [.excludeImport pathIsUV]).Imports "plain"
      = some ⟨"", "plain", false⟩ ∧
    (walkedState importsFile "" [.excludeImport pathIsUV]).Imports "v" = none :=
  ⟨(C13_import_stored_under_key importsFile "" [.excludeImport pathIsUV]
      (walkedState importsFile "" [.excludeImport pathIsUV]) rfl).1 "z",
    by decide, by decide, by decide, by decide⟩

/-- C17 (defect of the code): the case `*AddFieldTransform` of `evalTransform`
drops the flag `evalTransform(gen, t, f)` returns and goes on with the next
field, so after a generated transform has dropped `t` the next transform is
evaluated while `t` is not in `Code`.  With `type P int; type A struct{ X int;
Y int }` and an `AddField` that generates an `ExcludeType` on the struct, the
second round truncates `P`: `Code` is empty.  With `type A struct{ X int }`
and a `ModifyField` after the `AddField`, the `ModifyField` overwrites `P` by
`A`. -/
theorem C17_earlier_entry_removed :
    (FileFromAST pThenTwoFieldsFile "" []).toOption.map (fun f => f.Code.map summary)
      = some [("P", []), ("A", ["X", "Y"])] ∧
    (FileFromAST pThenTwoFieldsFile "" [.addField excludeOwner]).toOption.map
      (fun f => f.Code.map summary) = some [] ∧
    (FileFromAST pThenOneFieldFile "" [.addField excludeOwner,
        .modifyField (fun fld => fld)]).toOption.map
      (fun f => f.Code.map summary) = some [("A", ["X"])] := by
  refine ⟨?_, ?_, ?_⟩ <;> decide

/-- C18 (defect of the code): the case `*ModifyType` applies its function to
the pointer `t` the walk holds, not to the last entry of `Code`; for a type
that is not a struct the first replacement is lost.  With `type A int`, a
`ModifyType` that sets the type text to `string` and one that appends `2` to
the name, the entry is `A2` of type `int`, where the second function applied
to the result of the first gives `A2` of type `string`.  On the fields of a
struct, which are written in place, the two functions compose. -/
theorem C18_second_modifyType_on_stale_type :
    (FileFromAST oneIntFile "" [.modifyType toStringType, .modifyType addTwo]).toOption.map
      (fun f => f.Code.map describe) = some [("A2", ["int"], [])] ∧
    describe (addTwo (toStringType (.plain "A" "" "int"))) = ("A2", ["string"], []) ∧
    (FileFromAST oneStructFile "" [.modifyType toStringType,
        .modifyType addTwo]).toOption.map
      (fun f => f.Code.map describe) = some [("A", ["string"], [("X2", ["string"])])] := by
  refine ⟨?_, ?_, ?_⟩ <;> decide

/-- C19 as stated fails: for the name `**k.T` the tracker derives the
qualifier `k` (with one leading `*` stripped it would be `*k`), and with
`import "x/k"` and `type A **k.T` the import `k` is marked and kept. -/
theorem C19_counterexample_all_stars_removed :
    qualifier "**k.T" = some "k" ∧ specQualifier "**k.T" = some "*k" ∧
    (resultOf (FileFromAST doublePointerFile "" [])).Code.map describe
      = [("A", ["**k.T"], [])] ∧
    (resultOf (FileFromAST doublePointerFile "" [])).Imports "k"
      = some ⟨"", "x/k", true⟩ := by
  refine ⟨?_, ?_, ?_, ?_⟩ <;> decide

/-- C19, amended: the tracker removes every `*` of the text before the first
`.`; for a name made of any number of `*`, a qualifier `k` without `*` and
`.`, a `.` and a rest, the derived qualifier is `k`, and the name marks
the import stored under `k` as used. -/
theorem C19_qualifier_without_stars (n : Nat) (k rest : List Char)
    (hdot : '.' ∉ k) (hstar : '*' ∉ k) :
    qualifier (String.mk (List.replicate n '*' ++ k ++ '.' :: rest)) = some (String.mk k) ∧
    ∀ (imports : String → Option Import) (imp : Import),
      imports (String.mk k) = some imp →
      markUsed imports (String.mk (List.replicate n '*' ++ k ++ '.' :: rest)) (String.mk k)
        = some { imp with used := true } := by
  have hq : qualifier (String.mk (List.replicate n '*' ++ k ++ '.' :: rest))
      = some (String.mk k) := by
    unfold qualifier
    have hnot : '.' ∉ List.replicate n '*' ++ k := by
      intro hmem
      rcases List.mem_append.1 hmem with hm | hm
      · have := List.eq_of_mem_replicate hm
        exact absurd this (by decide)
      · exact hdot hm
    show Option.map _ (prefixBefore '.' (List.replicate n '*' ++ k ++ '.' :: rest)) = _
    rw [prefixBefore_append '.' _ rest hnot]
    simp only [Option.map_some']
    rw [removeAll_replicate_append _ _ _ hstar]
  refine ⟨hq, ?_⟩
  intro imports imp himp
  rw [markUsed_apply, himp, hq]
  simp

/-- C19, witness: the name `**k.T`. -/
theorem C19_qualifier_without_stars_witness :
    qualifier (String.mk (List.replicate 2 '*' ++ ['k'] ++ '.' :: ['T']))
      = some (String.mk ['k']) ∧
    ∀ (imports : String → Option Import) (imp : Import),
      imports (String.mk ['k']) = some imp →
      markUsed imports (String.mk (List.replicate 2 '*' ++ ['k'] ++ '.' :: ['T']))
        (String.mk ['k']) = some { imp with used := true } :=
  C19_qualifier_without_stars 2 ['k'] ['T'] (by decide) (by decide)

/-- C15 (defect of the code, the one of C17): the case `*AddFieldTransform`
of `evalTransform` drops the flag `evalTransform(gen, t, f)` returns.  With
`type P int; type A struct{ X int }`, an `AddField` that generates an
`ExcludeType` on the struct and an `ExcludeType` on the name `A` after it in
the list, the generated transform removes `A`, the walk goes on, and the
`ExcludeType` of the list, which matches `A`, removes `P`, the entry of the
earlier spec: `Code` is empty.  Where no `AddField` stands before the
`ExcludeType` and every transform before it returns `true`, the claim holds:
the spec ends at the `ExcludeType`, with `Code` as it was before the spec, and
the result does not depend on the transforms after it; so it is with `type A
struct{ F int }; type B struct{ G int }` and an `ExcludeType` on the name
`B`, where `Code` has `A` only. -/
theorem C15_excludeType_after_addField_removes_earlier :
    (FileFromAST pThenOneFieldFile "" []).toOption.map (fun f => f.Code.map summary)
      = some [("P", []), ("A", ["X"])] ∧
    (FileFromAST pThenOneFieldFile "" [.addField excludeOwner,
        .excludeType (nameIs "A")]).toOption.map (fun f => f.Code.map summary) = some [] ∧
    (FileFromAST pThenOneFieldFile "" [.excludeType (nameIs "A")]).toOption.map
      (fun f => f.Code.map summary) = some [("P", [])] ∧
    (FileFromAST aThenBFile "" [.excludeType (nameIs "B")]).toOption.map
      (fun f => f.Code.map summary) = some [("A", ["F"])] ∧
    (∀ (s : St) (pre post : List TRef) (m : Node → Bool) (docs name : String) (typ : Expr)
        (t : Ty) (s2 : St),
      s.settled →
      s.transforms = pre ++ TRef.plain (.excludeType m) :: post →
      (∀ r ∈ pre, ∀ g, r ≠ TRef.plain (.addField g)) →
      ParseExpr [name] docs typ = .ok (some t) →
      runFlagged pre (beginSpec t s) = .ok (true, s2) →
      m (.type s2.curTy) = true →
      walkTypeSpec docs name typ s = .ok (endSpec { s2 with Code := s.Code }) ∧
      (endSpec { s2 with Code := s.Code }).Code = s.Code) := by
  refine ⟨by decide, by decide, by decide, by decide, ?_⟩
  intro s pre post m docs name typ t s2 hs hT hpre ht hreach hm
  exact walkTypeSpec_excluded s pre post m docs name typ t s2 hs hT hpre ht hreach hm

/-- C16: a run with an `AddField` whose generator returns `ModifyField`
transforms (or nil) gives, on every file, the code `pureWalk` gives: a struct
goes through one round for every field, a generated function is applied once
to the struct of the round (the walk does not run it again on this struct),
and once to every struct declared later; the general list of the output is
the `AddField` followed by the generated transforms in the order of their
generation.  For every generator: an `AddField` on a struct makes one round
for every field; a round whose generator returns a transform that is not nil
evaluates it once and appends it to `f.transforms`, and a `CopyIntoStruct`
(the stored object that was evaluated) to `f.copies` as well; evaluations,
the loop of a spec and the walk only append to the two lists; and an entry of
the list is evaluated on a later type spec once each entry before it has
returned `true`.  With `type A struct{ ID int }` and an `AddField` that
returns a `ModifyField` setting the tag `db` to the field name, `ID` ends with
`db: ["ID"]`. -/
theorem C16_generated_transform_once_then_appended (file : AstFile) (pkgName : String)
    (ap : Ty → Field → Option (Field → Field)) (ts : List Ty)
    (hl : liftAll (allSpecs file.Decls) = .ok ts) :
    (∃ out, FileFromAST file pkgName [.addField (fieldGen ap)] = .ok out ∧
      out.Code = pureWalk ap [] ts ∧
      out.transforms = .addField (fieldGen ap) ::
        (pureGens ap [] ts).map (fun g => Transform.modifyField g) ∧
      out.copies = []) ∧
    (∀ (gen : Ty → Field → Transform) (s : St) (n d : String) (a : Nat) (b : Bool) (s1 : St),
      s.cur = .struct n d a → evalTransform (.addField gen) s = .ok (b, s1) →
      b = true ∧ ∃ σ : Nat → St, σ 0 = s ∧ σ (s.fieldsOf a).length = s1 ∧
        ∀ k < (s.fieldsOf a).length,
          (gen (σ k).curTy ((σ k).fieldAt (((σ k).arrs.getD a []).getD k 0)) = .nil ∧
            σ (k + 1) = σ k) ∨
          (gen (σ k).curTy ((σ k).fieldAt (((σ k).arrs.getD a []).getD k 0)) ≠ .nil ∧
            ∃ b2 s2,
              evalTransform
                (gen (σ k).curTy ((σ k).fieldAt (((σ k).arrs.getD a []).getD k 0)))
                (σ k) = .ok (b2, s2) ∧
              σ (k + 1) = { s2 with
                copies := s2.copies ++
                  genCopies (gen (σ k).curTy ((σ k).fieldAt (((σ k).arrs.getD a []).getD k 0)))
                    (σ k).store.length
                transforms := s2.transforms ++
                  [genRef (gen (σ k).curTy ((σ k).fieldAt (((σ k).arrs.getD a []).getD k 0)))
                    (σ k).store.length] } ∧
              ∃ post, s1.transforms = s2.transforms ++
                genRef (gen (σ k).curTy ((σ k).fieldAt (((σ k).arrs.getD a []).getD k 0)))
                  (σ k).store.length :: post)) ∧
    (∀ (s : St) (k a : Nat), k < (s.fieldsOf a).length →
      s.fieldAt ((s.arrs.getD a []).getD k 0) = (s.fieldsOf a).getD k default) ∧
    (∀ (ci : CopyIntoStruct) (s s2 : St) (b : Bool),
      evalTransform (.copyIntoStruct ci) s = .ok (b, s2) →
      s2.store = s.store ++ [ci] ∧ genRef (.copyIntoStruct ci) s.store.length
        = .copy s.store.length ∧ genCopies (.copyIntoStruct ci) s.store.length
        = [s.store.length]) ∧
    (∀ (g : Transform) (idx : Nat), (∀ ci, g ≠ .copyIntoStruct ci) →
      genRef g idx = .plain g ∧ genCopies g idx = []) ∧
    (∀ (tr : Transform) (s : St) (b : Bool) (s1 : St),
      evalTransform tr s = .ok (b, s1) → Grows s s1) ∧
    (∀ (l : List TRef) (s s1 : St), runTransforms l s = .ok s1 → Grows s s1) ∧
    (∀ s : St, (endSpec s).transforms = s.transforms ∧ (endSpec s).copies = s.copies) ∧
    (∀ (decls : List Decl) (s s1 : St) (pre post : List TRef) (r : TRef),
      s.transforms = pre ++ r :: post → walk decls s = .ok s1 →
      ∃ ext, s1.transforms = pre ++ r :: (post ++ ext) ∧
        ∀ (docs name : String) (typ : Expr) (t : Ty) (s2 : St),
          ParseExpr [name] docs typ = .ok (some t) →
          runFlagged pre (beginSpec t s1) = .ok (true, s2) →
          walkTypeSpec docs name typ s1
            = ((evalRef r s2).bind
                (fun q => if q.1 then runTransforms (post ++ ext) q.2 else .ok q.2)).map
              endSpec) ∧
    (FileFromAST idFile "" [.addField tagWithName]).toOption.map
      (fun f => f.Code.map (nameAndTags "db")) = some [("A", [some ["ID"]])] ∧
    (FileFromAST pThenTwoFieldsFile "" [.addField countTag]).toOption.map
      (fun f => f.Code.map (nameAndTags "n"))
      = some [("P", []), ("A", [some ["x", "x"], some ["x", "x"]])] ∧
    (FileFromAST idThenNameFile "" [.addField countTag]).toOption.map
      (fun f => f.Code.map (nameAndTags "n"))
      = some [("A", [some ["x"]]), ("B", [some ["x", "x"]])] ∧
    (walkedState pThenTwoFieldsFile "" [.addField copyGen]).transforms.map TRef.copyIdx
      = [none, some 0, some 1] ∧
    (walkedState pThenTwoFieldsFile "" [.addField copyGen]).copies = [0, 1] ∧
    (FileFromAST pThenTwoFieldsFile "" [.addField copyGen]).toOption.map
      (fun f => (f.copies.map (fun ci => ci.StructName), f.transforms.length))
      = some (["Dst", "Dst"], 3) := by
  refine ⟨fileFromAST_fieldGen file pkgName ap ts hl, ?_, ?_, ?_, ?_, evalTransform_grows,
    runTransforms_grows, fun s => ⟨rfl, rfl⟩, entry_on_later_spec, by decide, by decide,
    by decide, by decide, by decide, by decide⟩
  · intro gen s n d a b s1 hcur h
    exact addField_rounds gen s n d a b s1 hcur h
  · intro s k a hk
    exact fieldAt_round s a k hk
  · intro ci s s2 b h
    simp only [evalTransform] at h
    exact ⟨(evalCopy_lists h).2.2, rfl, rfl⟩
  · intro g idx hg
    cases g with
    | copyIntoStruct ci => exact absurd rfl (hg ci)
    | _ => exact ⟨rfl, rfl⟩

/-- C16, witness: `type A struct{ ID int; Name string; Age int }; type M int;
type B struct{ X int }` with a generator that returns, for every field but
`Name`, a `ModifyField` appending `x` to the tag `n`: every field of `A` ends
with `n: ["x", "x"]` (the rounds of `ID` and `Age`, each applied once), the
field of `B` with `n: ["x", "x", "x"]` (its own round and the two transforms
generated on `A`), and three transforms are appended to the list. -/
theorem C16_generated_transform_once_then_appended_witness :
    (∃ out, FileFromAST threeTypesFile "" [.addField (fieldGen bumpUnlessName)] = .ok out ∧
      out.Code = pureWalk bumpUnlessName [] threeTypesLifted ∧
      out.transforms = .addField (fieldGen bumpUnlessName) ::
        (pureGens bumpUnlessName [] threeTypesLifted).map (fun g => Transform.modifyField g) ∧
      out.copies = []) ∧
    (pureWalk bumpUnlessName [] threeTypesLifted).map (nameAndTags "n")
      = [("A", [some ["x", "x"], some ["x", "x"], some ["x", "x"]]), ("M", []),
          ("B", [some ["x", "x", "x"]])] ∧
    (pureGens bumpUnlessName [] threeTypesLifted).length = 3 ∧
    (FileFromAST threeTypesFile "" [.addField (fieldGen bumpUnlessName)]).toOption.map
      (fun f => (f.Code.map (nameAndTags "n"), f.transforms.length))
      = some ([("A", [some ["x", "x"], some ["x", "x"], some ["x", "x"]]), ("M", []),
          ("B", [some ["x", "x", "x"]])], 4) :=
  ⟨(C16_generated_transform_once_then_appended threeTypesFile "" bumpUnlessName
      threeTypesLifted rfl).1, by decide, by decide, by decide⟩

end Toast
